import Mathlib

/-!
Verification development for the lz4ultra optimal LZ4 block compressor.

The definitions below are shallow embeddings of the C sources:
`src/shrink_block.c` (parser, peephole pass, block emitter — `part_004`),
`src/expand.c` (block decompressor — `part_006`), `src/frame.c`,
`src/shrink_streaming.c`, `src/shrink_context.h`, and the match finder of
`src/shrink.c` (`part_007`).  Byte buffers are `List Nat`, with each element
a byte value; machine-`int` arithmetic that can never go negative on the
considered inputs is modelled with `Nat`.
-/

set_option maxRecDepth 16000

namespace LZ4Ultra

/-! ## Constants

`MIN_MATCH_SIZE`, `LITERALS_RUN_LEN`, `MATCH_RUN_LEN`, `MIN_OFFSET` and
`MAX_OFFSET` live in `format.h`, which is not part of the source snapshot.
They are modelled from the spec: §3 fixes `MIN_MATCH = 4` and
`1 ≤ offset ≤ 65535`, §4.3 fixes `LITERAL_RUN_LEN = 15`, `MATCH_RUN_LEN = 15`
and `enc_len = match_len − 4`; these are also the standard LZ4 block-format
values assumed throughout the in-tree decoder.  The remaining constants are
from `src/shrink_context.h` and `src/lib.c`. -/

def MIN_MATCH_SIZE : Nat := 4

def LITERALS_RUN_LEN : Nat := 15

def MATCH_RUN_LEN : Nat := 15

def MIN_OFFSET : Nat := 1

def MAX_OFFSET : Nat := 65535

def LEAVE_ALONE_MATCH_SIZE : Nat := 1000

def LAST_MATCH_OFFSET : Nat := 12

def LAST_LITERALS : Nat := 5

def MODESWITCH_PENALTY : Nat := 1

def HISTORY_SIZE : Nat := 65536

/-- One match record (`shrink_context.h`): `unsigned int length, offset`.
The peephole's fused-match sentinel assigns `length = -1`, which on the
C `unsigned int` field stores `2^32 - 1`; we keep that value. -/
structure LZMatch where
  length : Nat
  offset : Nat
deriving DecidableEq

/-- The value stored by `pCompressor->match[...].length = -1` in
`lz4ultra_optimize_command_count_lz4` (C `unsigned int` wrap-around). -/
def SENTINEL_LEN : Nat := 4294967295

/-! ## Variable-length size accounting (`shrink_block.c`, part_004)

`lz4ultra_get_literals_varlen_size` returns
`((nLength - LITERALS_RUN_LEN + 255) / 255) << 3` (bits).  For the
`Nat`-valued arguments that occur in the embedded pipeline the C `int`
division agrees with truncated `Nat` subtraction/division. -/

def lz4ultra_get_literals_varlen_size (n : Nat) : Nat :=
  ((n + 255 - LITERALS_RUN_LEN) / 255) * 8

/-- `lz4ultra_get_match_varlen_size` (bits), argument is the encoded match
length `match_len - MIN_MATCH_SIZE`. -/
def lz4ultra_get_match_varlen_size (n : Nat) : Nat :=
  ((n + 255 - MATCH_RUN_LEN) / 255) * 8

/-- Helper: the run of extra length bytes emitted by the
`while (nLength >= 255) ... pOutData[nOutOffset++] = nLength;` loop shared by
`lz4ultra_write_literals_varlen` and `lz4ultra_write_match_varlen`. -/
def varlenBytesF : Nat → Nat → List Nat
  | 0, n => [n]
  | fuel + 1, n => if n ≥ 255 then 255 :: varlenBytesF fuel (n - 255) else [n]

/-- The loop consumes 255 per iteration, so `n` itself is enough fuel. -/
def varlenBytes (n : Nat) : List Nat :=
  varlenBytesF n n

theorem varlenBytesF_congr (f1 : Nat) : ∀ f2 n, n ≤ f1 * 255 → n ≤ f2 * 255 →
    varlenBytesF f1 n = varlenBytesF f2 n := by
  induction f1 with
  | zero =>
    intro f2 n h1 h2
    have hn : n = 0 := by omega
    cases f2 with
    | zero => rfl
    | succ f2 => simp [varlenBytesF, hn]
  | succ f1 ih =>
    intro f2 n h1 h2
    cases f2 with
    | zero =>
      have hn : n = 0 := by omega
      simp [varlenBytesF, hn]
    | succ f2 =>
      show (if n ≥ 255 then 255 :: varlenBytesF f1 (n - 255) else [n]) =
        (if n ≥ 255 then 255 :: varlenBytesF f2 (n - 255) else [n])
      by_cases h3 : n ≥ 255
      · rw [if_pos h3, if_pos h3, ih f2 (n - 255) (by omega) (by omega)]
      · rw [if_neg h3, if_neg h3]

/-- Unfolding equation matching the C loop structure. -/
theorem varlenBytes_eq (n : Nat) :
    varlenBytes n = if n ≥ 255 then 255 :: varlenBytes (n - 255) else [n] := by
  by_cases h : n ≥ 255
  · obtain ⟨m, rfl⟩ : ∃ m, n = m + 1 := ⟨n - 1, by omega⟩
    show (if m + 1 ≥ 255 then 255 :: varlenBytesF m (m + 1 - 255) else [m + 1]) = _
    rw [if_pos h, if_pos h, varlenBytes,
      varlenBytesF_congr m (m + 1 - 255) (m + 1 - 255) (by omega) (by omega)]
  · cases n with
    | zero => rfl
    | succ k =>
      show (if k + 1 ≥ 255 then 255 :: varlenBytesF k (k + 1 - 255) else [k + 1]) = _
      rw [if_neg h, if_neg h]

/-- `lz4ultra_write_literals_varlen`: the extra literal-length bytes appended
to the output buffer (the C function writes them in place and returns the new
offset; we return the bytes themselves). -/
def lz4ultra_write_literals_varlen (n : Nat) : List Nat :=
  if n ≥ LITERALS_RUN_LEN then varlenBytes (n - LITERALS_RUN_LEN) else []

/-- `lz4ultra_write_match_varlen`, for the encoded match length. -/
def lz4ultra_write_match_varlen (n : Nat) : List Nat :=
  if n ≥ MATCH_RUN_LEN then varlenBytes (n - MATCH_RUN_LEN) else []

/-- The byte count the claim C4 asserts: `ceil((run_len − 15) / 255)`. -/
def claimedExtraBytes (n : Nat) : Nat :=
  (n - 15 + 254) / 255

theorem varlenBytes_length (n : Nat) : (varlenBytes n).length = n / 255 + 1 := by
  induction n using Nat.strong_induction_on with
  | _ n ih =>
    rw [varlenBytes_eq]
    by_cases h : n ≥ 255
    · rw [if_pos h, List.length_cons, ih _ (by omega)]
      have h3 : n = (n - 255) + 255 := by omega
      conv_rhs => rw [h3]
      rw [Nat.add_div_right _ (by norm_num)]
    · rw [if_neg h, List.length_singleton, Nat.div_eq_of_lt (by omega)]

theorem write_literals_varlen_length (n : Nat) (h : 15 ≤ n) :
    (lz4ultra_write_literals_varlen n).length = (n - 15) / 255 + 1 := by
  rw [lz4ultra_write_literals_varlen, if_pos (by simpa [LITERALS_RUN_LEN] using h)]
  simpa [LITERALS_RUN_LEN] using varlenBytes_length (n - 15)

theorem write_match_varlen_length (n : Nat) (h : 15 ≤ n) :
    (lz4ultra_write_match_varlen n).length = (n - 15) / 255 + 1 := by
  rw [lz4ultra_write_match_varlen, if_pos (by simpa [MATCH_RUN_LEN] using h)]
  simpa [MATCH_RUN_LEN] using varlenBytes_length (n - 15)

/-- C4 counterexample: at `run_len = 15` the emitter writes one extra
length byte (value 0) and the cost model charges one byte (8 bits), while the
claimed formula `ceil((15 − 15)/255)` gives zero bytes. -/
theorem C4_counterexample :
    claimedExtraBytes 15 = 0 ∧
    (lz4ultra_write_literals_varlen 15).length = 1 ∧
    lz4ultra_get_literals_varlen_size 15 = 8 ∧
    (lz4ultra_write_match_varlen 15).length = 1 ∧
    lz4ultra_get_match_varlen_size 15 = 8 := by
  refine ⟨by decide, ?_, by decide, ?_, by decide⟩
  · rw [write_literals_varlen_length 15 (by norm_num)]
  · rw [write_match_varlen_length 15 (by norm_num)]

/-- C4 (amended): for `run_len ≥ 15` the number of extra literal-length bytes
charged by the cost model and written by the emitter equals
`(run_len − 15)/255 + 1` (equivalently `ceil((run_len − 14)/255)`), and the
same formula governs the encoded match length; below the threshold the extra
cost is zero. -/
theorem C4_varlen_cost (n : Nat) :
    (15 ≤ n →
      (lz4ultra_write_literals_varlen n).length = (n - 15) / 255 + 1 ∧
      (lz4ultra_write_match_varlen n).length = (n - 15) / 255 + 1 ∧
      lz4ultra_get_literals_varlen_size n = ((n - 15) / 255 + 1) * 8 ∧
      lz4ultra_get_match_varlen_size n = ((n - 15) / 255 + 1) * 8 ∧
      (n - 15) / 255 + 1 = (n - 14 + 254) / 255) ∧
    (n < 15 →
      (lz4ultra_write_literals_varlen n).length = 0 ∧
      (lz4ultra_write_match_varlen n).length = 0 ∧
      lz4ultra_get_literals_varlen_size n = 0 ∧
      lz4ultra_get_match_varlen_size n = 0) := by
  constructor
  · intro h
    refine ⟨write_literals_varlen_length n h, write_match_varlen_length n h, ?_, ?_, ?_⟩
    · rw [lz4ultra_get_literals_varlen_size, LITERALS_RUN_LEN]
      congr 1
      have : n + 255 - 15 = (n - 15) + 255 := by omega
      rw [this, Nat.add_div_right _ (by norm_num)]
    · rw [lz4ultra_get_match_varlen_size, MATCH_RUN_LEN]
      congr 1
      have : n + 255 - 15 = (n - 15) + 255 := by omega
      rw [this, Nat.add_div_right _ (by norm_num)]
    · have h1 : n - 14 + 254 = (n - 15) + 255 := by omega
      rw [h1, Nat.add_div_right _ (by norm_num)]
  · intro h
    refine ⟨?_, ?_, ?_, ?_⟩
    · rw [lz4ultra_write_literals_varlen, if_neg (by simp [LITERALS_RUN_LEN]; omega)]
      simp
    · rw [lz4ultra_write_match_varlen, if_neg (by simp [MATCH_RUN_LEN]; omega)]
      simp
    · rw [lz4ultra_get_literals_varlen_size, LITERALS_RUN_LEN,
        Nat.div_eq_of_lt (by omega), Nat.zero_mul]
    · rw [lz4ultra_get_match_varlen_size, MATCH_RUN_LEN,
        Nat.div_eq_of_lt (by omega), Nat.zero_mul]

/-- Witness for `C4_varlen_cost` at `n = 270` and `n = 3`. -/
theorem C4_varlen_cost_witness :
    (15 ≤ 270 ∧
      (lz4ultra_write_literals_varlen 270).length = (270 - 15) / 255 + 1) ∧
    (3 < 15 ∧ lz4ultra_get_match_varlen_size 3 = 0) :=
  ⟨⟨by decide, ((C4_varlen_cost 270).1 (by decide)).1⟩,
   ⟨by decide, ((C4_varlen_cost 3).2 (by decide)).2.2.2⟩⟩

end LZ4Ultra

namespace LZ4Ultra

/-! ## XXH32 and the stream header (`frame.c`)

Modelled from the spec: the xxhash source (`src/xxhash/xxhash.c`) is not part
of the snapshot; §6.1 specifies the trailing header byte as
`(xxhash32(flags_and_block_max_bytes, 0) >> 8) & 0xff`.  The definitions below
implement the standard public XXH32 algorithm that `XXH32()` computes. -/

def PRIME32_1 : Nat := 2654435761

def PRIME32_2 : Nat := 2246822519

def PRIME32_3 : Nat := 3266489917

def PRIME32_4 : Nat := 668265263

def PRIME32_5 : Nat := 374761393

/-- Truncation to 32 bits. -/
def m32 (x : Nat) : Nat := x % 4294967296

/-- 32-bit left rotation (argument already < 2^32, 0 < r < 32). -/
def rotl32 (x r : Nat) : Nat := m32 (x <<< r) ||| (x >>> (32 - r))

/-- Little-endian 32-bit read of the first four list elements. -/
def read32 (l : List Nat) : Nat :=
  l.getD 0 0 + l.getD 1 0 * 256 + l.getD 2 0 * 65536 + l.getD 3 0 * 16777216

/-- One XXH32 accumulator round. -/
def xxh32round (acc inp : Nat) : Nat :=
  m32 (rotl32 (m32 (acc + m32 (inp * PRIME32_2))) 13 * PRIME32_1)

/-- The 16-byte stripe loop of XXH32; the `while` guard `len >= 16` is the
16-element cons pattern. -/
def xxh32stripes (v1 v2 v3 v4 : Nat) : List Nat → Nat × List Nat
  | a0 :: a1 :: a2 :: a3 :: a4 :: a5 :: a6 :: a7 ::
      a8 :: a9 :: a10 :: a11 :: a12 :: a13 :: a14 :: a15 :: rest =>
    xxh32stripes (xxh32round v1 (read32 [a0, a1, a2, a3]))
      (xxh32round v2 (read32 [a4, a5, a6, a7]))
      (xxh32round v3 (read32 [a8, a9, a10, a11]))
      (xxh32round v4 (read32 [a12, a13, a14, a15])) rest
  | l => (m32 (rotl32 v1 1 + rotl32 v2 7 + rotl32 v3 12 + rotl32 v4 18), l)

/-- The 4-byte tail loop of XXH32. -/
def xxh32tail4 (h : Nat) : List Nat → Nat × List Nat
  | a0 :: a1 :: a2 :: a3 :: rest =>
    xxh32tail4
      (m32 (rotl32 (m32 (h + m32 (read32 [a0, a1, a2, a3] * PRIME32_3))) 17 * PRIME32_4))
      rest
  | l => (h, l)

/-- The single-byte tail loop of XXH32. -/
def xxh32tail1 (h : Nat) : List Nat → Nat
  | [] => h
  | b :: rest =>
    xxh32tail1 (m32 (rotl32 (m32 (h + m32 (b * PRIME32_5))) 11 * PRIME32_1)) rest

/-- XXH32 final avalanche. -/
def xxh32avalanche (h0 : Nat) : Nat :=
  let h1 := m32 ((h0 ^^^ (h0 >>> 15)) * PRIME32_2)
  let h2 := m32 ((h1 ^^^ (h1 >>> 13)) * PRIME32_3)
  h2 ^^^ (h2 >>> 16)

/-- XXH32 of a byte list with the given seed. -/
def xxh32 (seed : Nat) (input : List Nat) : Nat :=
  let st :=
    if input.length ≥ 16 then
      xxh32stripes (m32 (seed + PRIME32_1 + PRIME32_2)) (m32 (seed + PRIME32_2))
        (m32 seed) (m32 (seed + 4294967296 - PRIME32_1)) input
    else
      (m32 (seed + PRIME32_5), input)
  let h := m32 (st.1 + input.length)
  let t4 := xxh32tail4 h st.2
  xxh32avalanche (xxh32tail1 t4.1 t4.2)

/-- Sanity: the public XXH32 test vectors for the empty and 1/3-byte inputs. -/
theorem xxh32_test_vectors :
    xxh32 0 [] = 0x02CC5D05 ∧ xxh32 0 [97] = 0x550D7456 ∧
    xxh32 0 [97, 98, 99] = 0x32D153FF := by decide

/-- Decode status values from `frame.h`. -/
def LZ4ULTRA_DECODE_OK : Int := 0

/-- `LZ4ULTRA_DECODE_ERR_FORMAT` from `frame.h`. -/
def LZ4ULTRA_DECODE_ERR_FORMAT : Int := -1

/-- `LZ4ULTRA_DECODE_ERR_SUM` from `frame.h`. -/
def LZ4ULTRA_DECODE_ERR_SUM : Int := -2

/-- `lz4ultra_encode_header` (`frame.c`): the 7 emitted stream-header bytes,
or `none` when the buffer is smaller than 7 bytes (`LZ4ULTRA_ENCODE_ERR`). -/
def lz4ultra_encode_header (nMaxFrameDataSize nBlockMaxCode : Nat)
    (nIsIndependentBlocks : Bool) : Option (List Nat) :=
  if nMaxFrameDataSize ≥ 7 then
    let b4 : Nat := if nIsIndependentBlocks then 0x60 else 0x40
    let b5 : Nat := (nBlockMaxCode <<< 4) % 256
    some [0x04, 0x22, 0x4D, 0x18, b4, b5, (xxh32 0 [b4, b5] >>> 8) &&& 0xff]
  else
    none

/-- `lz4ultra_decode_header` (`frame.c`). -/
def lz4ultra_decode_header (pFrameData : List Nat) : Int :=
  if pFrameData.length = 7 then
    if pFrameData.getD 0 0 ≠ 0x04 ∨ pFrameData.getD 1 0 ≠ 0x22 ∨
        pFrameData.getD 2 0 ≠ 0x4D ∨ pFrameData.getD 3 0 ≠ 0x18 ∨
        (pFrameData.getD 4 0 &&& 0xc0) ≠ 0x40 ∨
        (pFrameData.getD 5 0 &&& 0x0f) ≠ 0 then
      LZ4ULTRA_DECODE_ERR_FORMAT
    else if ((xxh32 0 [pFrameData.getD 4 0, pFrameData.getD 5 0] >>> 8) &&& 0xff) ≠
        pFrameData.getD 6 0 then
      LZ4ULTRA_DECODE_ERR_SUM
    else
      LZ4ULTRA_DECODE_OK
  else
    LZ4ULTRA_DECODE_ERR_FORMAT

/-- C8 counterexample: two distinct 7-byte headers that are both accepted by
`lz4ultra_decode_header`, the second obtained from the first by altering the
independent-blocks flag bit of byte 4 and the checksum byte 6.  The claim that
every perturbation of an accepted header is rejected is therefore false. -/
theorem C8_counterexample :
    lz4ultra_decode_header [0x04, 0x22, 0x4D, 0x18, 0x40, 0x70, 0xdf] =
      LZ4ULTRA_DECODE_OK ∧
    lz4ultra_decode_header [0x04, 0x22, 0x4D, 0x18, 0x60, 0x70, 0x73] =
      LZ4ULTRA_DECODE_OK ∧
    ([0x04, 0x22, 0x4D, 0x18, 0x40, 0x70, 0xdf] : List Nat) ≠
      [0x04, 0x22, 0x4D, 0x18, 0x60, 0x70, 0x73] := by
  refine ⟨?_, ?_, by decide⟩ <;> decide

end LZ4Ultra

namespace LZ4Ultra

/-- C8 (amended): the seventh byte written by `lz4ultra_encode_header` equals
`(xxhash32 of the two flag/block-size bytes, seed 0, shifted right by 8)`
masked to 8 bits, and `lz4ultra_decode_header` accepts exactly the 7-byte
headers with the correct magic, version bits `01`, zero low nibble of the
block-size byte, and a matching checksum byte; every perturbation violating
one of those conditions is rejected with a format or checksum error, while a
perturbation that alters unchecked flag bits together with a matching
checksum byte is accepted. -/
theorem C8_header_accept_iff :
    (∀ (msz code : Nat) (indep : Bool) (bytes : List Nat),
        lz4ultra_encode_header msz code indep = some bytes →
        bytes.getD 6 0 = (xxh32 0 [bytes.getD 4 0, bytes.getD 5 0] >>> 8) &&& 0xff) ∧
    (∀ h : List Nat,
        lz4ultra_decode_header h = LZ4ULTRA_DECODE_OK ↔
        (h.length = 7 ∧ h.getD 0 0 = 0x04 ∧ h.getD 1 0 = 0x22 ∧
         h.getD 2 0 = 0x4D ∧ h.getD 3 0 = 0x18 ∧
         (h.getD 4 0 &&& 0xc0) = 0x40 ∧ (h.getD 5 0 &&& 0x0f) = 0 ∧
         h.getD 6 0 = (xxh32 0 [h.getD 4 0, h.getD 5 0] >>> 8) &&& 0xff)) := by
  constructor
  · intro msz code indep bytes he
    rw [lz4ultra_encode_header] at he
    by_cases h7 : msz ≥ 7
    · rw [if_pos h7] at he
      obtain rfl := (Option.some.inj he).symm
      rfl
    · rw [if_neg h7] at he
      exact absurd he (by simp)
  · intro h
    rw [lz4ultra_decode_header]
    by_cases h1 : h.length = 7
    · rw [if_pos h1]
      by_cases h2 : h.getD 0 0 ≠ 0x04 ∨ h.getD 1 0 ≠ 0x22 ∨ h.getD 2 0 ≠ 0x4D ∨
          h.getD 3 0 ≠ 0x18 ∨ (h.getD 4 0 &&& 0xc0) ≠ 0x40 ∨ (h.getD 5 0 &&& 0x0f) ≠ 0
      · rw [if_pos h2]
        simp only [LZ4ULTRA_DECODE_ERR_FORMAT, LZ4ULTRA_DECODE_OK]
        constructor
        · intro hc; exact absurd hc (by decide)
        · rintro ⟨-, c0, c1, c2, c3, c4, c5, -⟩
          rcases h2 with hx | hx | hx | hx | hx | hx
          exacts [absurd c0 hx, absurd c1 hx, absurd c2 hx, absurd c3 hx,
            absurd c4 hx, absurd c5 hx]
      · rw [if_neg h2]
        push_neg at h2
        obtain ⟨c0, c1, c2, c3, c4, c5⟩ := h2
        by_cases h3 : ((xxh32 0 [h.getD 4 0, h.getD 5 0] >>> 8) &&& 0xff) ≠ h.getD 6 0
        · rw [if_pos h3]
          simp only [LZ4ULTRA_DECODE_ERR_SUM, LZ4ULTRA_DECODE_OK]
          constructor
          · intro hc; exact absurd hc (by decide)
          · rintro ⟨-, -, -, -, -, -, -, c6⟩
            exact absurd c6.symm h3
        · rw [if_neg h3]
          push_neg at h3
          constructor
          · intro _
            exact ⟨h1, c0, c1, c2, c3, c4, c5, h3.symm⟩
          · intro _
            rfl
    · rw [if_neg h1]
      simp only [LZ4ULTRA_DECODE_ERR_FORMAT, LZ4ULTRA_DECODE_OK]
      constructor
      · intro hc; exact absurd hc (by decide)
      · rintro ⟨c, -⟩; exact absurd c h1

/-- Witness for `C8_header_accept_iff`: the encoder output for block code 7,
dependent blocks, satisfies the checksum formula, and that header is accepted
by the decoder. -/
theorem C8_header_accept_iff_witness :
    lz4ultra_encode_header 7 7 false =
      some [0x04, 0x22, 0x4D, 0x18, 0x40, 0x70, 0xdf] ∧
    ([0x04, 0x22, 0x4D, 0x18, 0x40, 0x70, 0xdf] : List Nat).getD 6 0 =
      (xxh32 0 [(0x40 : Nat), 0x70] >>> 8) &&& 0xff ∧
    lz4ultra_decode_header [0x04, 0x22, 0x4D, 0x18, 0x40, 0x70, 0xdf] =
      LZ4ULTRA_DECODE_OK := by
  refine ⟨by decide, ?_, ?_⟩
  · exact C8_header_accept_iff.1 7 7 false _ (by decide)
  · exact (C8_header_accept_iff.2 _).mpr (by decide)

end LZ4Ultra

namespace LZ4Ultra

/-! ## Block-size code selection (`shrink_streaming.c`, lines 151–169) -/

/-- `nBlockMaxSize = 1 << (8 + (nBlockMaxCode << 1))`. -/
def lz4ultra_block_max_size (code : Nat) : Nat := 2 ^ (8 + 2 * code)

/-- The `do { ... } while(1)` code-reduction loop of `lz4ultra_compress_stream`:
decrement the block-size code while `nBlockMaxCode > 4` and the next smaller
block size still exceeds the preloaded input size. -/
def downgradeBlockCode (pre : Nat) : Nat → Nat
  | 0 => 0
  | code + 1 =>
    if code + 1 > 4 ∧ lz4ultra_block_max_size code > pre then
      downgradeBlockCode pre code
    else
      code + 1

/-- The guard around the loop: it only runs when the preloaded data is
shorter than the requested block size and legacy frames are off. -/
def lz4ultra_select_block_code (legacy : Bool) (pre code : Nat) : Nat :=
  if pre < lz4ultra_block_max_size code ∧ ¬legacy then
    downgradeBlockCode pre code
  else
    code

theorem block_max_size_mono {a b : Nat} (h : a ≤ b) :
    lz4ultra_block_max_size a ≤ lz4ultra_block_max_size b :=
  Nat.pow_le_pow_right (by norm_num) (by omega)

/-- C9 counterexample: an 80 KB (81920-byte) preload with the default 4 MiB
code 7 downgrades to code 5 (256 KiB), not to code 4 (64 KiB) as claimed; and
at an exact boundary the selected block size is the smallest one strictly
exceeding the preload, so a 65536-byte preload also selects code 5 even
though the 64 KiB block of code 4 covers it. -/
theorem C9_counterexample :
    lz4ultra_select_block_code false 81920 7 = 5 ∧ (5 : Nat) ≠ 4 ∧
    lz4ultra_select_block_code false 65536 7 = 5 ∧
    lz4ultra_block_max_size 4 = 65536 := by
  refine ⟨?_, by decide, ?_, by decide⟩ <;> decide

/-- Characterization of the downgrade loop: it returns the smallest code
`≥ 4` whose block size strictly exceeds the preload. -/
theorem downgrade_spec (pre : Nat) : ∀ code, 4 ≤ code →
    pre < lz4ultra_block_max_size code →
    4 ≤ downgradeBlockCode pre code ∧
    downgradeBlockCode pre code ≤ code ∧
    pre < lz4ultra_block_max_size (downgradeBlockCode pre code) ∧
    (∀ c2, 4 ≤ c2 → pre < lz4ultra_block_max_size c2 →
      downgradeBlockCode pre code ≤ c2) := by
  intro code
  induction code with
  | zero => omega
  | succ k ih =>
    intro h4 hlt
    have hunf : downgradeBlockCode pre (k + 1) =
        if k + 1 > 4 ∧ lz4ultra_block_max_size k > pre then
          downgradeBlockCode pre k else k + 1 := rfl
    by_cases hc : k + 1 > 4 ∧ lz4ultra_block_max_size k > pre
    · rw [hunf, if_pos hc]
      obtain ⟨d4, dle, dlt, dmin⟩ := ih (by omega) hc.2
      exact ⟨d4, by omega, dlt, dmin⟩
    · rw [hunf, if_neg hc]
      refine ⟨h4, le_refl _, hlt, ?_⟩
      intro c2 hc2 hlt2
      by_contra hlt3
      have hle : c2 ≤ k := by omega
      have hk : 4 ≤ k := by omega
      have hm : lz4ultra_block_max_size c2 ≤ lz4ultra_block_max_size k :=
        block_max_size_mono hle
      have : ¬ lz4ultra_block_max_size k > pre := fun hgt => hc ⟨by omega, hgt⟩
      omega

/-- C9 (amended): for every non-legacy compression whose first preload is
shorter than the requested block size (code `≥ 4`), the streaming driver
selects the smallest block-size code `≥ 4` whose block size strictly exceeds
the preloaded byte count; in particular an 80 KB file with the default 4 MiB
code downgrades to 256 KiB (code 5), not 64 KiB.  The selected code is the
one whose block-size byte `code << 4` the header encoder records. -/
theorem C9_block_code_select (pre code : Nat) (h4 : 4 ≤ code)
    (hlt : pre < lz4ultra_block_max_size code) :
    lz4ultra_select_block_code false pre code = downgradeBlockCode pre code ∧
    4 ≤ downgradeBlockCode pre code ∧
    downgradeBlockCode pre code ≤ code ∧
    pre < lz4ultra_block_max_size (downgradeBlockCode pre code) ∧
    (∀ c2, 4 ≤ c2 → pre < lz4ultra_block_max_size c2 →
      downgradeBlockCode pre code ≤ c2) ∧
    (∀ msz indep bytes,
      lz4ultra_encode_header msz (downgradeBlockCode pre code) indep = some bytes →
      bytes.getD 5 0 = ((downgradeBlockCode pre code) <<< 4) % 256) := by
  obtain ⟨d4, dle, dlt, dmin⟩ := downgrade_spec pre code h4 hlt
  refine ⟨?_, d4, dle, dlt, dmin, ?_⟩
  · rw [lz4ultra_select_block_code, if_pos ⟨hlt, by simp⟩]
  · intro msz indep bytes he
    rw [lz4ultra_encode_header] at he
    by_cases h7 : msz ≥ 7
    · rw [if_pos h7] at he
      obtain rfl := (Option.some.inj he).symm
      rfl
    · rw [if_neg h7] at he
      exact absurd he (by simp)

/-- Witness for `C9_block_code_select`: a 100000-byte preload with requested
code 7 selects code 5, the minimal strictly-covering code. -/
theorem C9_block_code_select_witness :
    4 ≤ 7 ∧ 100000 < lz4ultra_block_max_size 7 ∧
    lz4ultra_select_block_code false 100000 7 = downgradeBlockCode 100000 7 ∧
    downgradeBlockCode 100000 7 = 5 := by
  refine ⟨by decide, by decide, ?_, by decide⟩
  exact (C9_block_code_select 100000 7 (by decide) (by decide)).1

end LZ4Ultra

namespace LZ4Ultra

/-! ## The optimal parser (`lz4ultra_optimize_matches_lz4`, part_004)

The parser state: the `cost`, `score` and `match` arrays (modelled as
functions updated pointwise) and the running `nLastLiteralsOffset`. -/

/-- Pointwise array update. -/
def upd {α : Type} (f : Nat → α) (i : Nat) (v : α) : Nat → α :=
  fun j => if j = i then v else f j

/-- Parser state. -/
structure OptState where
  cost : Nat → Nat
  score : Nat → Nat
  m : Nat → LZMatch
  lastLit : Nat

/-- The speed-favoring match shortening of `lz4ultra_optimize_matches_lz4`
(lines 232–237): when the favor-ratio flag is off and the (clamped) match
length is just above the fast-decompression-path threshold
`MATCH_RUN_LEN + MIN_MATCH_SIZE - 1 = 18`, but at most twice it (36), shorten
it to the threshold. -/
def lz4ultra_speed_shorten (favorRatio : Bool) (n : Nat) : Nat :=
  if favorRatio = false ∧ n > MATCH_RUN_LEN + MIN_MATCH_SIZE - 1 ∧
      n ≤ 2 * (MATCH_RUN_LEN + MIN_MATCH_SIZE - 1) then
    MATCH_RUN_LEN + MIN_MATCH_SIZE - 1
  else
    n

/-- Candidate cost of keeping the match at trimmed length `k` from position
`i`: `8 + 16 + match_varlen(k − 4) + cost[i + k]`, plus `MODESWITCH_PENALTY`
when the chosen parse at `i + k` starts with a match.  (The C source splits
the trim loop at `k = MATCH_RUN_LEN + MIN_MATCH_SIZE`, where the second loop
writes `8 + 16` with no varlen bytes; `match_varlen(k − 4) = 0` there, so one
formula covers both loops.) -/
def candCost (st : OptState) (i k : Nat) : Nat :=
  8 + 16 + lz4ultra_get_match_varlen_size (k - MIN_MATCH_SIZE) + st.cost (i + k) +
    (if (st.m (i + k)).length ≥ MIN_MATCH_SIZE then MODESWITCH_PENALTY else 0)

/-- Candidate tie-break score. -/
def candScore (st : OptState) (xms i k : Nat) : Nat :=
  xms + st.score (i + k)

/-- Accumulator for the best candidate: `(cost, score, length, offset)`. -/
def candUpdate (st : OptState) (xms i off : Nat)
    (best : Nat × Nat × Nat × Nat) (k : Nat) : Nat × Nat × Nat × Nat :=
  let c := candCost st i k
  let s := candScore st xms i k
  if best.1 > c ∨ (best.1 = c ∧ best.2.1 > s) then (c, s, k, off) else best

/-- Trim lengths `k = n, n-1, ..., MIN_MATCH_SIZE` in the order the C loops
visit them. -/
def trimList (n : Nat) : List Nat :=
  (List.range' MIN_MATCH_SIZE (n + 1 - MIN_MATCH_SIZE)).reverse

/-- The "take literal" cost at `i`: `8 + cost[i+1]`, plus 8 when the literal
run length crosses a variable-length boundary, plus `MODESWITCH_PENALTY` when
the chosen parse at `i + 1` starts with a match. -/
def litStepCost (st : OptState) (i : Nat) : Nat :=
  8 + st.cost (i + 1) +
    (if st.lastLit - i ≥ LITERALS_RUN_LEN ∧
        (st.lastLit - i - LITERALS_RUN_LEN) % 255 = 0 then 8 else 0) +
    (if (st.m (i + 1)).length ≥ MIN_MATCH_SIZE then MODESWITCH_PENALTY else 0)

/-- The clamp `if ((i + nMatchLen) > (nEndOffset - LAST_LITERALS))
nMatchLen = nEndOffset - LAST_LITERALS - i`. -/
def clampLen (endOff i n : Nat) : Nat :=
  if i + n > endOff - LAST_LITERALS then endOff - LAST_LITERALS - i else n

/-- The best `(cost, score, length, offset)` among the literal step and the
candidate match trims at position `i`, in the C scan order. -/
def bestCandidate (favorRatio : Bool) (endOff : Nat) (st : OptState) (i : Nat) :
    Nat × Nat × Nat × Nat :=
  let xms := if favorRatio then 1 else 5
  let best0 : Nat × Nat × Nat × Nat := (litStepCost st i, 1 + st.score (i + 1), 0, 0)
  let mt := st.m i
  if mt.length ≥ MIN_MATCH_SIZE then
    if mt.length ≥ LEAVE_ALONE_MATCH_SIZE then
      candUpdate st xms i mt.offset best0 (clampLen endOff i mt.length)
    else
      (trimList (lz4ultra_speed_shorten favorRatio (clampLen endOff i mt.length))).foldl
        (candUpdate st xms i mt.offset) best0
  else
    best0

/-- One iteration of the parser's reverse loop, at position `i`. -/
def optStep (favorRatio : Bool) (endOff : Nat) (st : OptState) (i : Nat) :
    OptState :=
  let best := bestCandidate favorRatio endOff st i
  { cost := upd st.cost i best.1
    score := upd st.score i best.2.1
    m := upd st.m i ⟨best.2.2.1, best.2.2.2⟩
    lastLit := if best.2.2.1 ≥ MIN_MATCH_SIZE then i else st.lastLit }

/-- The parser's reverse loop: `optLoop start c st` runs `optStep` at
positions `start + c - 1, start + c - 2, ..., start` (the C loop
`for (i = nEndOffset - 2; i != (nStartOffset - 1); i--)` with
`c = endOff - 1 - startOff` iterations, descending). -/
def optLoop (favorRatio : Bool) (endOff startOff : Nat) : Nat → OptState →
    OptState
  | 0, st => st
  | c + 1, st => optLoop favorRatio endOff startOff c
      (optStep favorRatio endOff st (startOff + c))

/-- `lz4ultra_optimize_matches_lz4`: initialize `cost[end-1] = 8`,
`score[end-1] = 0`, then walk `i = end-2, ..., start`, rewriting the match
array in place. -/
def lz4ultra_optimize_matches_lz4 (favorRatio : Bool) (startOff endOff : Nat)
    (m0 : Nat → LZMatch) : OptState :=
  let st0 : OptState :=
    { cost := upd (fun _ => 0) (endOff - 1) 8
      score := fun _ => 0
      m := m0
      lastLit := endOff }
  optLoop favorRatio endOff startOff (endOff - 1 - startOff) st0

/-- C5 counterexample input: a single match of length 20, offset 20, at
position 20 of a 45-byte parse range (no other matches). -/
def c5Arr : Nat → LZMatch :=
  upd (fun _ => ⟨0, 0⟩) 20 ⟨20, 20⟩

/-- C5 counterexample: in speed-favoring mode a chosen match length of 20 —
strictly within `(14, 28]` — is truncated to 18, not to 14 as claimed (and a
length of 16 is left untouched rather than truncated). -/
theorem C5_counterexample :
    ((lz4ultra_optimize_matches_lz4 false 0 45 c5Arr).m 20 = ⟨18, 20⟩) ∧
    (14 < 20 ∧ 20 ≤ 28) ∧ (18 : Nat) ≠ 14 ∧
    ((lz4ultra_optimize_matches_lz4 false 0 45
        (upd (fun _ => ⟨0, 0⟩) 20 ⟨16, 20⟩)).m 20 = ⟨16, 20⟩) := by
  refine ⟨?_, by decide, by decide, ?_⟩ <;> decide

end LZ4Ultra

namespace LZ4Ultra

/-! ## The match-finder contract and the parse cost function

The current match finder (`src/matchfinder.c`) is not part of the snapshot;
`specFinder` is modelled from the spec (§4.2): for each position the longest
admissible match, ties favouring the smallest offset, lengths capped to
`end − LAST_LITERALS − p`, and positions beyond `end − LAST_MATCH_OFFSET`
forced to zero. -/

/-- Length of the common prefix of `W[src..]` and `W[p..]`, capped at `cap`. -/
def lcpLen (W : List Nat) : Nat → Nat → Nat → Nat
  | 0, _, _ => 0
  | cap + 1, src, p =>
    if W.getD src 0 = W.getD p 0 then 1 + lcpLen W cap (src + 1) (p + 1) else 0

/-- Modelled from the spec: the best (longest, ties smallest-offset) match at
`p` with length capped at `cap`, scanning offsets `1..min p MAX_OFFSET`. -/
def bestMatchAt (W : List Nat) (p cap : Nat) : LZMatch :=
  (List.range' 1 (min p MAX_OFFSET)).foldl
    (fun best o =>
      let l := lcpLen W cap (p - o) p
      if l > best.length then ⟨l, o⟩ else best)
    ⟨0, 0⟩

/-- Modelled from the spec: the per-position output of the match finder over
the parse range (`find_all`), with the `LAST_MATCH_OFFSET` and
`LAST_LITERALS` caps of `lz4ultra_find_all_matches`. -/
def specFinder (W : List Nat) (startOff endOff p : Nat) : LZMatch :=
  if startOff ≤ p ∧ p < endOff ∧ p + LAST_MATCH_OFFSET ≤ endOff then
    let mt := bestMatchAt W p (endOff - LAST_LITERALS - p)
    if mt.length ≥ MIN_MATCH_SIZE then mt else ⟨0, 0⟩
  else
    ⟨0, 0⟩

/-- Length of the literal run starting at `p` in a parse array (distance to
the next match start or the end of the range). -/
def claimRunF (m : Nat → LZMatch) (endOff : Nat) : Nat → Nat → Nat
  | 0, _ => 0
  | fuel + 1, p =>
    if p < endOff ∧ (m p).length < MIN_MATCH_SIZE then
      1 + claimRunF m endOff fuel (p + 1)
    else
      0

/-- The claim's cost objective for the command sequence implied by a parse
array, walked from `p`: each match command contributes
`8 (token) + 16 (offset) + match varlen extras`, plus `MODESWITCH_PENALTY`
when another match follows immediately; each literal run of length `L`
contributes `8·L` plus its literal varlen extras, plus `MODESWITCH_PENALTY`
when a match follows.  (Like the DP accounting, this excludes the final
command's token byte, a constant shared by all command sequences.) -/
def claimCostF (m : Nat → LZMatch) (endOff : Nat) : Nat → Nat → Nat
  | 0, _ => 0
  | fuel + 1, p =>
    if p < endOff then
      if (m p).length ≥ MIN_MATCH_SIZE then
        24 + lz4ultra_get_match_varlen_size ((m p).length - MIN_MATCH_SIZE) +
          (if p + (m p).length < endOff ∧
              (m (p + (m p).length)).length ≥ MIN_MATCH_SIZE then
            MODESWITCH_PENALTY else 0) +
          claimCostF m endOff fuel (p + (m p).length)
      else
        let L := claimRunF m endOff (endOff - p) p
        8 * L + lz4ultra_get_literals_varlen_size L +
          (if p + L < endOff then MODESWITCH_PENALTY else 0) +
          claimCostF m endOff fuel (p + L)
    else
      0

/-- Total claim cost of the command sequence implied by a parse array. -/
def claimCost (m : Nat → LZMatch) (startOff endOff : Nat) : Nat :=
  claimCostF m endOff (endOff - startOff) startOff

/-- The 21-byte window of the C2 counterexample. -/
def c2W : List Nat := [1,0,1,1,0,1,1,1,0,1,1,1,1,1,1,0,1,1,0,1,1]

/-- Match-finder output over `c2W` (per the spec contract). -/
def c2m0 : Nat → LZMatch := fun p => specFinder c2W 0 21 p

/-- The cheaper alternative command sequence: one match of length 6 at
position 6 (a trim of the finder's own match there), everything else
literals. -/
def c2alt : Nat → LZMatch := upd (fun _ => ⟨0, 0⟩) 6 ⟨6, 4⟩

/-- C2 counterexample: in ratio-favoring mode, on the finder-supplied match
array over `c2W`, the parser's command sequence has claim-cost 146 (equal to
its own `cost[parse_start]` accumulator), while the alternative sequence
`c2alt` — obtainable by keeping the finder's match at position 6 and taking
literals elsewhere — costs 145.  The output is therefore not cost-minimal in
the claimed objective. -/
theorem C2_counterexample :
    (c2m0 6 = ⟨6, 4⟩) ∧
    claimCost (lz4ultra_optimize_matches_lz4 true 0 21 c2m0).m 0 21 = 146 ∧
    (lz4ultra_optimize_matches_lz4 true 0 21 c2m0).cost 0 = 146 ∧
    claimCost c2alt 0 21 = 145 ∧
    (∀ p, p < 21 → (c2alt p).length = 0 ∨
      ((c2alt p).offset = (c2m0 p).offset ∧
        MIN_MATCH_SIZE ≤ (c2alt p).length ∧
        (c2alt p).length ≤ (c2m0 p).length)) ∧
    145 < 146 := by
  refine ⟨by decide, ?_, ?_, by decide, by decide, by decide⟩ <;> decide

end LZ4Ultra

namespace LZ4Ultra

/-- Lexicographic order on `(cost, score)` pairs, as the parser's
strict-improvement update induces it. -/
def LexLE (a b : Nat × Nat) : Prop :=
  a.1 < b.1 ∨ (a.1 = b.1 ∧ a.2 ≤ b.2)

theorem lexLE_refl (a : Nat × Nat) : LexLE a a := Or.inr ⟨rfl, le_refl _⟩

theorem lexLE_trans {a b c : Nat × Nat} (h1 : LexLE a b) (h2 : LexLE b c) :
    LexLE a c := by
  rcases h1 with h1 | ⟨h1, h1s⟩ <;> rcases h2 with h2 | ⟨h2, h2s⟩ <;>
    [exact Or.inl (by omega); exact Or.inl (by omega);
     exact Or.inl (by omega); exact Or.inr ⟨by omega, by omega⟩]

/-- The candidate-scan fold is a lexicographic minimum: its result is either
the initial accumulator or one of the scanned candidates, and it is
`LexLE`-below the initial accumulator and every candidate. -/
theorem candFold_spec (st : OptState) (xms i off : Nat) (ks : List Nat) :
    ∀ b0 : Nat × Nat × Nat × Nat,
    (ks.foldl (candUpdate st xms i off) b0 = b0 ∨
      ∃ k ∈ ks, ks.foldl (candUpdate st xms i off) b0 =
        (candCost st i k, candScore st xms i k, k, off)) ∧
    (∀ k ∈ ks,
      LexLE ((ks.foldl (candUpdate st xms i off) b0).1,
             (ks.foldl (candUpdate st xms i off) b0).2.1)
            (candCost st i k, candScore st xms i k)) ∧
    LexLE ((ks.foldl (candUpdate st xms i off) b0).1,
           (ks.foldl (candUpdate st xms i off) b0).2.1) (b0.1, b0.2.1) := by
  induction ks with
  | nil =>
    intro b0
    exact ⟨Or.inl rfl, by simp, lexLE_refl _⟩
  | cons k0 ks ih =>
    intro b0
    simp only [List.foldl_cons]
    obtain ⟨iha, ihb, ihc⟩ := ih (candUpdate st xms i off b0 k0)
    by_cases hupd : b0.1 > candCost st i k0 ∨
        (b0.1 = candCost st i k0 ∧ b0.2.1 > candScore st xms i k0)
    · have hset : candUpdate st xms i off b0 k0 =
          (candCost st i k0, candScore st xms i k0, k0, off) := by
        simp only [candUpdate]
        rw [if_pos hupd]
      rw [hset] at iha ihb ihc ⊢
      refine ⟨?_, ?_, ?_⟩
      · rcases iha with h | ⟨k, hk, hkeq⟩
        · exact Or.inr ⟨k0, by simp, h⟩
        · exact Or.inr ⟨k, by simp [hk], hkeq⟩
      · intro k hk
        rcases List.mem_cons.mp hk with rfl | hk2
        · exact ihc
        · exact ihb k hk2
      · refine lexLE_trans ihc ?_
        rcases hupd with h | ⟨h, hs⟩
        · exact Or.inl h
        · exact Or.inr ⟨h.symm, le_of_lt hs⟩
    · have hset : candUpdate st xms i off b0 k0 = b0 := by
        simp only [candUpdate]
        rw [if_neg hupd]
      rw [hset] at iha ihb ihc ⊢
      refine ⟨iha.imp id (fun ⟨k, hk, hke⟩ => ⟨k, by simp [hk], hke⟩), ?_, ihc⟩
      intro k hk
      rcases List.mem_cons.mp hk with rfl | hk2
      · refine lexLE_trans ihc ?_
        rw [LexLE]
        omega
      · exact ihb k hk2

theorem mem_trimList {k n : Nat} :
    k ∈ trimList n ↔ MIN_MATCH_SIZE ≤ k ∧ k ≤ n := by
  rw [trimList, List.mem_reverse, List.mem_range']
  simp only [MIN_MATCH_SIZE]
  constructor
  · rintro ⟨i, hi, rfl⟩
    omega
  · rintro ⟨h1, h2⟩
    exact ⟨k - 4, by omega, by omega⟩

end LZ4Ultra

namespace LZ4Ultra

/-- C2 (amended): at every position the parser stores the lexicographic
minimum of `(cost, score)` over its candidate one-step choices — taking a
literal, or keeping the position's match at any trimmed length between
`MIN_MATCH_SIZE` and the clamped length (shortened by the speed-mode
truncation; a `LEAVE_ALONE_MATCH_SIZE` match is considered only whole) — each
candidate costed as `8 + 16 + match varlen extras + cost[i+k]` plus
`MODESWITCH_PENALTY` when the already-chosen parse at the continuation starts
with a match, with score weight 1 (favor-ratio) or 5 (favor-speed); the
stored match attains that minimum.  The resulting command sequence is not, in
general, globally cost-minimal (see the C2 counterexample). -/
theorem C2_parser_step_optimal (favorRatio : Bool) (endOff i : Nat)
    (st : OptState) :
    ((st.m i).length < MIN_MATCH_SIZE →
      (optStep favorRatio endOff st i).cost i = litStepCost st i ∧
      (optStep favorRatio endOff st i).score i = 1 + st.score (i + 1) ∧
      (optStep favorRatio endOff st i).m i = ⟨0, 0⟩) ∧
    (MIN_MATCH_SIZE ≤ (st.m i).length →
      (st.m i).length < LEAVE_ALONE_MATCH_SIZE →
      (LexLE ((optStep favorRatio endOff st i).cost i,
              (optStep favorRatio endOff st i).score i)
             (litStepCost st i, 1 + st.score (i + 1)) ∧
       (∀ k, MIN_MATCH_SIZE ≤ k →
          k ≤ lz4ultra_speed_shorten favorRatio
                (clampLen endOff i (st.m i).length) →
          LexLE ((optStep favorRatio endOff st i).cost i,
                 (optStep favorRatio endOff st i).score i)
                (candCost st i k,
                 candScore st (if favorRatio then 1 else 5) i k)) ∧
       (((optStep favorRatio endOff st i).cost i = litStepCost st i ∧
         (optStep favorRatio endOff st i).score i = 1 + st.score (i + 1) ∧
         (optStep favorRatio endOff st i).m i = ⟨0, 0⟩) ∨
        (∃ k, MIN_MATCH_SIZE ≤ k ∧
          k ≤ lz4ultra_speed_shorten favorRatio
                (clampLen endOff i (st.m i).length) ∧
          (optStep favorRatio endOff st i).cost i = candCost st i k ∧
          (optStep favorRatio endOff st i).score i =
            candScore st (if favorRatio then 1 else 5) i k ∧
          (optStep favorRatio endOff st i).m i = ⟨k, (st.m i).offset⟩)))) ∧
    (LEAVE_ALONE_MATCH_SIZE ≤ (st.m i).length →
      (LexLE ((optStep favorRatio endOff st i).cost i,
              (optStep favorRatio endOff st i).score i)
             (litStepCost st i, 1 + st.score (i + 1)) ∧
       LexLE ((optStep favorRatio endOff st i).cost i,
              (optStep favorRatio endOff st i).score i)
             (candCost st i (clampLen endOff i (st.m i).length),
              candScore st (if favorRatio then 1 else 5) i
                (clampLen endOff i (st.m i).length)) ∧
       (((optStep favorRatio endOff st i).cost i = litStepCost st i ∧
         (optStep favorRatio endOff st i).score i = 1 + st.score (i + 1) ∧
         (optStep favorRatio endOff st i).m i = ⟨0, 0⟩) ∨
        ((optStep favorRatio endOff st i).cost i =
            candCost st i (clampLen endOff i (st.m i).length) ∧
         (optStep favorRatio endOff st i).score i =
            candScore st (if favorRatio then 1 else 5) i
              (clampLen endOff i (st.m i).length) ∧
         (optStep favorRatio endOff st i).m i =
            ⟨clampLen endOff i (st.m i).length, (st.m i).offset⟩)))) := by
  have hcost : (optStep favorRatio endOff st i).cost i =
      (bestCandidate favorRatio endOff st i).1 := by
    simp [optStep, upd]
  have hscore : (optStep favorRatio endOff st i).score i =
      (bestCandidate favorRatio endOff st i).2.1 := by
    simp [optStep, upd]
  have hm : (optStep favorRatio endOff st i).m i =
      ⟨(bestCandidate favorRatio endOff st i).2.2.1,
       (bestCandidate favorRatio endOff st i).2.2.2⟩ := by
    simp [optStep, upd]
  refine ⟨?_, ?_, ?_⟩
  · intro hlt
    have hb : bestCandidate favorRatio endOff st i =
        (litStepCost st i, 1 + st.score (i + 1), 0, 0) := by
      simp only [bestCandidate]
      rw [if_neg (by omega)]
    rw [hcost, hscore, hm, hb]
    exact ⟨rfl, rfl, rfl⟩
  · intro hge hlt
    have hb : bestCandidate favorRatio endOff st i =
        (trimList (lz4ultra_speed_shorten favorRatio
            (clampLen endOff i (st.m i).length))).foldl
          (candUpdate st (if favorRatio then 1 else 5) i (st.m i).offset)
          (litStepCost st i, 1 + st.score (i + 1), 0, 0) := by
      simp only [bestCandidate]
      rw [if_pos hge, if_neg (by omega)]
    obtain ⟨ha, hmin, hb0⟩ := candFold_spec st (if favorRatio then 1 else 5) i
      ((st.m i).offset)
      (trimList (lz4ultra_speed_shorten favorRatio
          (clampLen endOff i (st.m i).length)))
      (litStepCost st i, 1 + st.score (i + 1), 0, 0)
    rw [hcost, hscore, hm, hb]
    refine ⟨hb0, ?_, ?_⟩
    · intro k hk1 hk2
      exact hmin k (mem_trimList.mpr ⟨hk1, hk2⟩)
    · rcases ha with h | ⟨k, hk, hke⟩
      · rw [h]
        exact Or.inl ⟨rfl, rfl, rfl⟩
      · rw [hke]
        obtain ⟨hk1, hk2⟩ := mem_trimList.mp hk
        exact Or.inr ⟨k, hk1, hk2, rfl, rfl, rfl⟩
  · intro hge
    have hb : bestCandidate favorRatio endOff st i =
        candUpdate st (if favorRatio then 1 else 5) i (st.m i).offset
          (litStepCost st i, 1 + st.score (i + 1), 0, 0)
          (clampLen endOff i (st.m i).length) := by
      simp only [bestCandidate]
      rw [if_pos (by simp only [MIN_MATCH_SIZE]; simp only [LEAVE_ALONE_MATCH_SIZE] at hge; omega),
        if_pos hge]
    rw [hcost, hscore, hm, hb]
    set c := candCost st i (clampLen endOff i (st.m i).length) with hc
    set s := candScore st (if favorRatio then 1 else 5) i
      (clampLen endOff i (st.m i).length) with hs
    by_cases hupd : litStepCost st i > c ∨ (litStepCost st i = c ∧ 1 + st.score (i + 1) > s)
    · have hset : candUpdate st (if favorRatio then 1 else 5) i (st.m i).offset
          (litStepCost st i, 1 + st.score (i + 1), 0, 0)
          (clampLen endOff i (st.m i).length) =
          (c, s, clampLen endOff i (st.m i).length, (st.m i).offset) := by
        simp only [candUpdate]
        rw [if_pos hupd]
      rw [hset]
      refine ⟨?_, lexLE_refl _, Or.inr ⟨rfl, rfl, rfl⟩⟩
      show c < litStepCost st i ∨ (c = litStepCost st i ∧ s ≤ 1 + st.score (i + 1))
      omega
    · have hset : candUpdate st (if favorRatio then 1 else 5) i (st.m i).offset
          (litStepCost st i, 1 + st.score (i + 1), 0, 0)
          (clampLen endOff i (st.m i).length) =
          (litStepCost st i, 1 + st.score (i + 1), 0, 0) := by
        simp only [candUpdate]
        rw [if_neg hupd]
      rw [hset]
      refine ⟨lexLE_refl _, ?_, Or.inl ⟨rfl, rfl, rfl⟩⟩
      show litStepCost st i < c ∨ (litStepCost st i = c ∧ 1 + st.score (i + 1) ≤ s)
      omega

/-- A concrete parser state over the C2 window, for the step-optimality
witness. -/
def c2st0 : OptState :=
  { cost := fun _ => 0, score := fun _ => 0, m := c2m0, lastLit := 21 }

/-- Witness for `C2_parser_step_optimal` on the C2 counterexample state at
position 3 (where the finder supplies a length-4 match). -/
theorem C2_parser_step_optimal_witness :
    (c2st0.m 3).length < LEAVE_ALONE_MATCH_SIZE ∧
    MIN_MATCH_SIZE ≤ (c2st0.m 3).length ∧
    LexLE ((optStep true 21 c2st0 3).cost 3, (optStep true 21 c2st0 3).score 3)
          (litStepCost c2st0 3, 1 + c2st0.score 4) :=
  ⟨by decide, by decide,
    (((C2_parser_step_optimal true 21 3 c2st0).2.1 (by decide) (by decide)).1)⟩

end LZ4Ultra

namespace LZ4Ultra

/-- C5 (amended): in speed-favoring mode the parser's pre-costing shortening
truncates a (clamped) match length strictly within
`(MATCH_RUN_LEN + MIN_MATCH_SIZE − 1, 2·(MATCH_RUN_LEN + MIN_MATCH_SIZE − 1)]
= (18, 36]` to exactly 18; lengths of 18 or less, and above 36, are left
untouched, and ratio-favoring mode never truncates. -/
theorem C5_speed_shorten (n : Nat) :
    lz4ultra_speed_shorten true n = n ∧
    (18 < n → n ≤ 36 → lz4ultra_speed_shorten false n = 18) ∧
    (n ≤ 18 → lz4ultra_speed_shorten false n = n) ∧
    (36 < n → lz4ultra_speed_shorten false n = n) := by
  refine ⟨?_, ?_, ?_, ?_⟩
  · rw [lz4ultra_speed_shorten, if_neg (by simp)]
  · intro h1 h2
    rw [lz4ultra_speed_shorten, MATCH_RUN_LEN, MIN_MATCH_SIZE,
      if_pos ⟨rfl, by omega, by omega⟩]
  · intro h1
    rw [lz4ultra_speed_shorten, MATCH_RUN_LEN, MIN_MATCH_SIZE, if_neg (by omega)]
  · intro h1
    rw [lz4ultra_speed_shorten, MATCH_RUN_LEN, MIN_MATCH_SIZE, if_neg (by omega)]

/-- Witness for `C5_speed_shorten` at lengths 20, 16 and 40. -/
theorem C5_speed_shorten_witness :
    (18 < 20 ∧ 20 ≤ 36 ∧ lz4ultra_speed_shorten false 20 = 18) ∧
    (16 ≤ 18 ∧ lz4ultra_speed_shorten false 16 = 16) ∧
    (36 < 40 ∧ lz4ultra_speed_shorten false 40 = 40) :=
  ⟨⟨by decide, by decide, (C5_speed_shorten 20).2.1 (by decide) (by decide)⟩,
   ⟨by decide, (C5_speed_shorten 16).2.2.1 (by decide)⟩,
   ⟨by decide, (C5_speed_shorten 40).2.2.2 (by decide)⟩⟩

end LZ4Ultra

namespace LZ4Ultra

/-! ## The peephole pass (`lz4ultra_optimize_command_count_lz4`, part_004)

The match array is threaded as a function; the cursor `i` and the pending
literal count `nNumLiterals` are explicit.  Termination is lexicographic:
every branch either advances the cursor or (on fusion, which `continue`s)
extends the match under the cursor. -/

/-- Byte-range content equality, the `memcmp` of the fusion test. -/
def sliceEq (W : List Nat) (a b len : Nat) : Prop :=
  ∀ j, j < len → W.getD (a + j) 0 = W.getD (b + j) 0

instance (W : List Nat) (a b len : Nat) : Decidable (sliceEq W a b len) :=
  Nat.decidableBallLT len fun j _ => W.getD (a + j) 0 = W.getD (b + j) 0

/-- Set `match[i + j].length = 0` for `j < len` (the demotion loop). -/
def zeroRange (m : Nat → LZMatch) (i len : Nat) : Nat → LZMatch :=
  fun j => if i ≤ j ∧ j < i + len then ⟨0, (m j).offset⟩ else m j

/-- The `nReduce` test of `lz4ultra_optimize_command_count_lz4`:
either the next command is also a match (case A), or the match is followed by
literals and then a match or the end (case B, with the do/while literal
scan). -/
def reduceTest (m : Nat → LZMatch) (endOff i numLit nMatchLen : Nat) : Bool :=
  if nMatchLen ≤ 19 ∧ i + nMatchLen < endOff then
    let nCommandSize := 8 + lz4ultra_get_literals_varlen_size numLit + 16 +
      lz4ultra_get_match_varlen_size (nMatchLen - MIN_MATCH_SIZE)
    if (m (i + nMatchLen)).length ≥ MIN_MATCH_SIZE then
      decide (nCommandSize ≥ (nMatchLen <<< 3) +
        lz4ultra_get_literals_varlen_size (numLit + nMatchLen))
    else
      let nNextNumLiterals := 1 + claimRunF m endOff (endOff - (i + nMatchLen + 1))
        (i + nMatchLen + 1)
      decide (nCommandSize ≥ (nMatchLen <<< 3) +
        lz4ultra_get_literals_varlen_size (numLit + nNextNumLiterals + nMatchLen) -
        lz4ultra_get_literals_varlen_size nNextNumLiterals)
  else
    false

/-- The fusion ("Join") guard of `lz4ultra_optimize_command_count_lz4`. -/
def fuseTest (W : List Nat) (m : Nat → LZMatch) (endOff i nMatchLen : Nat) : Prop :=
  i + nMatchLen < endOff ∧ (m i).offset > 0 ∧ nMatchLen ≥ 2 ∧
  (m (i + nMatchLen)).offset > 0 ∧ (m (i + nMatchLen)).length ≥ 2 ∧
  nMatchLen + (m (i + nMatchLen)).length ≥ LEAVE_ALONE_MATCH_SIZE ∧
  nMatchLen + (m (i + nMatchLen)).length ≤ 65535 ∧
  i + nMatchLen ≥ (m i).offset ∧
  i + nMatchLen ≥ (m (i + nMatchLen)).offset ∧
  i + nMatchLen + (m (i + nMatchLen)).length ≤ endOff ∧
  sliceEq W (i + nMatchLen - (m i).offset) (i + nMatchLen - (m (i + nMatchLen)).offset)
    ((m (i + nMatchLen)).length)

instance (W : List Nat) (m : Nat → LZMatch) (endOff i nMatchLen : Nat) :
    Decidable (fuseTest W m endOff i nMatchLen) := by
  rw [fuseTest]
  infer_instance

/-- The fused array: extend the match at `i`, sentinel the absorbed one
(`offset = 0`, `length = -1` on an `unsigned int`). -/
def fuseAt (m : Nat → LZMatch) (i nMatchLen : Nat) : Nat → LZMatch :=
  fun j =>
    if j = i then ⟨nMatchLen + (m (i + nMatchLen)).length, (m i).offset⟩
    else if j = i + nMatchLen then ⟨SENTINEL_LEN, 0⟩
    else m j

/-- The forward pass of `lz4ultra_optimize_command_count_lz4`. -/
def peepholeGo (W : List Nat) (endOff : Nat) : Nat → Nat → (Nat → LZMatch) →
    (Nat → LZMatch)
  | i, numLit, m =>
    if hlt : i < endOff then
      if hmt : (m i).length ≥ MIN_MATCH_SIZE then
        if reduceTest m endOff i numLit ((m i).length) then
          peepholeGo W endOff (i + (m i).length) (numLit + (m i).length)
            (zeroRange m i ((m i).length))
        else if hfuse : fuseTest W m endOff i ((m i).length) then
          peepholeGo W endOff i numLit (fuseAt m i ((m i).length))
        else
          peepholeGo W endOff (i + (m i).length) 0 m
      else
        peepholeGo W endOff (i + 1) (numLit + 1) m
    else
      m
termination_by i _ m => (endOff - i, endOff + 1 - (i + (m i).length))
decreasing_by
  · left; simp only [MIN_MATCH_SIZE] at hmt; omega
  · right
    simp only [fuseAt, eq_self_iff_true, if_true]
    simp only [fuseTest] at hfuse
    simp only [MIN_MATCH_SIZE] at hmt
    obtain ⟨h1, -, -, -, h5, -, -, -, -, h10, -⟩ := hfuse
    omega
  · left; simp only [MIN_MATCH_SIZE] at hmt; omega
  · left; omega

/-- `lz4ultra_optimize_command_count_lz4`. -/
def lz4ultra_optimize_command_count_lz4 (W : List Nat) (startOff endOff : Nat)
    (m : Nat → LZMatch) : Nat → LZMatch :=
  peepholeGo W endOff startOff 0 m

end LZ4Ultra

namespace LZ4Ultra

/-! ## The block emitter (`lz4ultra_write_block_lz4`, part_004)

The output is threaded as the current length `outLen` (for the
`nMaxOutDataSize` checks) plus the bytes the loop appends from the current
state on; the caller glues them.  `firstLit = i - numLit` is carried
explicitly, mirroring `nInFirstLiteralOffset`. -/

/-- `(W.drop a).take n`, the `memcpy(out, pInWindow + a, n)` literal copy. -/
def listSlice (W : List Nat) (a n : Nat) : List Nat :=
  (W.drop a).take n

/-- The bytes of one match command: token, literal varlen extras, the
literal run, the 16-bit little-endian offset, match varlen extras. -/
def matchCmdBytes (W : List Nat) (numLit firstLit matchOffset encLen : Nat) :
    List Nat :=
  let nTokenLiteralsLen := if numLit ≥ LITERALS_RUN_LEN then LITERALS_RUN_LEN
    else numLit
  let nTokenMatchLen := if encLen ≥ MATCH_RUN_LEN then MATCH_RUN_LEN else encLen
  ((nTokenLiteralsLen <<< 4) ||| nTokenMatchLen) ::
    (lz4ultra_write_literals_varlen numLit ++ listSlice W firstLit numLit ++
      [matchOffset % 256, matchOffset / 256] ++ lz4ultra_write_match_varlen encLen)

/-- The bytes of the final literals-only command (plus the two-byte zero
offset EOD marker for raw blocks). -/
def finalCmdBytes (W : List Nat) (raw : Bool) (numLit firstLit : Nat) :
    List Nat :=
  let nTokenLiteralsLen := if numLit ≥ LITERALS_RUN_LEN then LITERALS_RUN_LEN
    else numLit
  (nTokenLiteralsLen <<< 4) ::
    (lz4ultra_write_literals_varlen numLit ++ listSlice W firstLit numLit ++
      (if raw then [0, 0] else []))

/-- The emitter loop; returns the appended bytes and the number of commands,
or `none` where the C code returns -1. -/
def writeBlockGo (W : List Nat) (endOff maxOut : Nat) (raw : Bool) :
    Nat → Nat → Nat → Nat → (Nat → LZMatch) → Option (List Nat × Nat)
  | i, numLit, firstLit, outLen, m =>
    if hlt : i < endOff then
      if hmt : (m i).length ≥ MIN_MATCH_SIZE then
        let nMatchOffset := (m i).offset
        let nMatchLen := (m i).length
        let nEncodedMatchLen := nMatchLen - MIN_MATCH_SIZE
        let nCommandSize := 8 + lz4ultra_get_literals_varlen_size numLit +
          (numLit <<< 3) + 16 + lz4ultra_get_match_varlen_size nEncodedMatchLen
        if outLen + (nCommandSize >>> 3) > maxOut then none
        else if nMatchOffset < MIN_OFFSET ∨ nMatchOffset > MAX_OFFSET then none
        else
          let bytes := matchCmdBytes W numLit firstLit nMatchOffset nEncodedMatchLen
          (writeBlockGo W endOff maxOut raw (i + nMatchLen) 0 firstLit
              (outLen + bytes.length) m).map
            (fun r => (bytes ++ r.1, r.2 + 1))
      else
        writeBlockGo W endOff maxOut raw (i + 1) (numLit + 1)
          (if numLit = 0 then i else firstLit) outLen m
    else
      let nCommandSize := 8 + lz4ultra_get_literals_varlen_size numLit +
        (numLit <<< 3)
      if outLen + (nCommandSize >>> 3) > maxOut then none
      else if raw ∧ outLen + (nCommandSize >>> 3) + 2 > maxOut then none
      else some (finalCmdBytes W raw numLit firstLit, 1)
termination_by i _ _ _ m => endOff - i
decreasing_by
  · simp only [MIN_MATCH_SIZE] at hmt; omega
  · omega

/-- `lz4ultra_write_block_lz4`; `some (bytes, nc)` stands for a return of
`bytes.length` with `num_commands` advanced by `nc`. -/
def lz4ultra_write_block_lz4 (W : List Nat) (startOff endOff : Nat)
    (m : Nat → LZMatch) (maxOut : Nat) (raw : Bool) : Option (List Nat × Nat) :=
  writeBlockGo W endOff maxOut raw startOff 0 0 0 m

end LZ4Ultra

namespace LZ4Ultra

/-! ## The block decompressor (`lz4ultra_decompressor_expand_block_lz4`,
expand.c)

The output buffer is a byte list `out` (previously decompressed bytes plus
the bytes produced so far); `cap = nOutDataOffset + nBlockMaxSize` bounds
its length.  The three `memcpy`-based match copies (8+8+2 chunks for
offsets ≥ 8, 16-byte chunks for offsets ≥ 16, and the byte loop) all read
each source byte only after every earlier destination byte is written, so
all three equal the sequential byte copy `matchCopy`; the bytes the fast
paths write beyond the logical frontier are overwritten or ignored and are
dropped here. -/

/-- `LZ4ULTRA_DECOMPRESSOR_BUILD_LEN`: add bytes while they read 255; fail
on input exhaustion.  Returns the accumulated length and the number of
bytes consumed (the pointer advance). -/
def buildLenN (acc : Nat) : List Nat → Option (Nat × Nat)
  | [] => none
  | b :: rest =>
    if b = 255 then (buildLenN (acc + 255) rest).map (fun r => (r.1, r.2 + 1))
    else some (acc + b, 1)

/-- Sequential overlapping match copy: append `len` bytes read `off` back
from the write position.  (On `off = 0` the C code reads the unwritten byte
under the cursor; the compressor never emits a zero offset inside a block,
and `getD`'s default stands in for that indeterminate byte.) -/
def matchCopy (out : List Nat) (off : Nat) : Nat → List Nat
  | 0 => out
  | len + 1 => matchCopy (out ++ [out.getD (out.length - off) 0]) off len

/-- The literal half of one iteration of the decompressor's `while` loop:
nibble (or `BUILD_LEN`) run length, bounds checks, literal copy.  Returns
the updated output and the remaining input; `none` is a -1 return. -/
def expandLitSection (cap token : Nat) (rest : List Nat) (out : List Nat) :
    Option (List Nat × List Nat) :=
  let nLiterals := (token &&& 0xf0) >>> 4
  let litRes : Option (Nat × Nat) :=
    if nLiterals ≠ LITERALS_RUN_LEN ∧ out.length ≤ cap - 18 ∧
        16 ≤ rest.length then
      -- fast path: a 16-byte copy of which `nLiterals ≤ 14` bytes are kept
      some (nLiterals, 0)
    else
      match (if nLiterals = LITERALS_RUN_LEN then buildLenN nLiterals rest
        else some (nLiterals, 0)) with
      | none => none
      | some (n, k) =>
        if n > (rest.drop k).length then none
        else if out.length + n > cap then none
        else some (n, k)
  match litRes with
  | none => none
  | some (n, k) => some (out ++ (rest.drop k).take n, rest.drop (k + n))

/-- The match half of one iteration: read the 16-bit offset, nibble (or
`BUILD_LEN`) the match length, bounds checks, overlapping copy.  Skipped
when fewer than two input bytes remain. -/
def expandMatchSection (cap token : Nat) (r1 : List Nat) (out1 : List Nat) :
    Option (List Nat × List Nat) :=
  if 2 ≤ r1.length then
    let nMatchOffset := r1.getD 0 0 ||| (r1.getD 1 0) <<< 8
    let r2 := r1.drop 2
    let nMatchLen0 := (token &&& 0x0f) + MIN_MATCH_SIZE
    if nMatchLen0 ≠ MATCH_RUN_LEN + MIN_MATCH_SIZE ∧ nMatchOffset ≥ 8 ∧
        out1.length ≤ cap - 18 then
      if out1.length < nMatchOffset then none
      else some (matchCopy out1 nMatchOffset nMatchLen0, r2)
    else
      match (if nMatchLen0 = MATCH_RUN_LEN + MIN_MATCH_SIZE then
        buildLenN nMatchLen0 r2 else some (nMatchLen0, 0)) with
      | none => none
      | some (len, k2) =>
        if out1.length + len > cap then none
        else if out1.length < nMatchOffset then none
        else some (matchCopy out1 nMatchOffset len, r2.drop k2)
  else
    some (out1, r1)

/-- One whole iteration of the decompressor's `while` loop for the token at
the head of the input. -/
def expandStep (cap : Nat) (token : Nat) (rest : List Nat) (out : List Nat) :
    Option (List Nat × List Nat) :=
  match expandLitSection cap token rest out with
  | none => none
  | some (out1, r1) => expandMatchSection cap token r1 out1

theorem expandLitSection_length {cap token : Nat} : ∀ {rest out out1 r1},
    expandLitSection cap token rest out = some (out1, r1) →
    r1.length ≤ rest.length := by
  intro rest out out1 r1 h
  simp only [expandLitSection] at h
  repeat' split at h
  all_goals
    simp only [Option.some.injEq, Prod.mk.injEq, reduceCtorEq] at h
  all_goals
    obtain ⟨-, h2⟩ := h
  all_goals
    subst h2
  all_goals
    simp only [List.length_drop]
  all_goals omega

theorem expandMatchSection_length {cap token : Nat} : ∀ {r1 out1 out2 rest2},
    expandMatchSection cap token r1 out1 = some (out2, rest2) →
    rest2.length ≤ r1.length := by
  intro r1 out1 out2 rest2 h
  simp only [expandMatchSection] at h
  repeat' split at h
  all_goals
    simp only [Option.some.injEq, Prod.mk.injEq, reduceCtorEq] at h
  all_goals
    obtain ⟨-, h2⟩ := h
  all_goals
    subst h2
  all_goals
    try simp only [List.length_drop]
  all_goals omega

theorem expandStep_length {cap token : Nat} : ∀ {rest out out2 rest2},
    expandStep cap token rest out = some (out2, rest2) →
    rest2.length ≤ rest.length := by
  intro rest out out2 rest2 h
  rw [expandStep] at h
  split at h
  · exact absurd h (by simp)
  · rename_i out1 r1 heq
    exact le_trans (expandMatchSection_length h) (expandLitSection_length heq)

end LZ4Ultra

namespace LZ4Ultra

/-- The decompressor's `while (pInBlock < pInBlockEnd)` loop.  Each
iteration consumes at least the token byte, so the input length bounds the
iteration count and drives the recursion. -/
def expandLoop (cap : Nat) : (inB : List Nat) → (out : List Nat) →
    Option (List Nat)
  | [], out => some out
  | token :: rest, out =>
    match h : expandStep cap token rest out with
    | none => none
    | some (out1, rest1) => expandLoop cap rest1 out1
termination_by inB _ => inB.length
decreasing_by
  have := expandStep_length h
  simp only [List.length_cons]
  omega

/-- `lz4ultra_decompressor_expand_block_lz4`: decompress one block into a
buffer already holding `prev` (the previously decompressed bytes);
`some produced` stands for a return of `produced.length` with the bytes in
place. -/
def lz4ultra_decompressor_expand_block_lz4 (inB prev : List Nat)
    (nBlockMaxSize : Nat) : Option (List Nat) :=
  (expandLoop (prev.length + nBlockMaxSize) inB prev).map
    (fun out => out.drop prev.length)

end LZ4Ultra

namespace LZ4Ultra

/-! ## Validity of a match array, and the emitter's walk

`ValidArr` is the contract of the match finder
(`lz4ultra_find_all_matches`): each slot holds `(0, 0)` or a real match —
offset in `[MIN_OFFSET, MAX_OFFSET]`, no further back than the window
start, content-equal, and (by the `nEndOffset - LAST_LITERALS - i` and
`nEndOffset - LAST_MATCH_OFFSET` caps) ending at least `LAST_LITERALS`
bytes before the end.  `WalkOK` states those invariants along the exact
position sequence the emitter visits. -/

/-- A match record at position `p` points back by a legal offset at equal
bytes. -/
def MatchOK (W : List Nat) (p : Nat) (mt : LZMatch) : Prop :=
  MIN_OFFSET ≤ mt.offset ∧ mt.offset ≤ MAX_OFFSET ∧ mt.offset ≤ p ∧
  ∀ j, j < mt.length → W.getD (p - mt.offset + j) 0 = W.getD (p + j) 0

instance (W : List Nat) (p : Nat) (mt : LZMatch) : Decidable (MatchOK W p mt) := by
  rw [MatchOK]
  have : Decidable (∀ j, j < mt.length →
      W.getD (p - mt.offset + j) 0 = W.getD (p + j) 0) :=
    Nat.decidableBallLT mt.length fun j _ =>
      W.getD (p - mt.offset + j) 0 = W.getD (p + j) 0
  infer_instance

/-- One slot of the finder's output array. -/
def ValidEntry (W : List Nat) (endOff p : Nat) (mt : LZMatch) : Prop :=
  (mt.length = 0 ∧ mt.offset = 0) ∨
  (MIN_MATCH_SIZE ≤ mt.length ∧ p + mt.length + LAST_LITERALS ≤ endOff ∧
    MatchOK W p mt)

instance (W : List Nat) (endOff p : Nat) (mt : LZMatch) :
    Decidable (ValidEntry W endOff p mt) := by
  rw [ValidEntry]
  infer_instance

/-- The match finder's contract over the block `[startOff, endOff)`. -/
def ValidArr (W : List Nat) (startOff endOff : Nat) (m : Nat → LZMatch) : Prop :=
  ∀ p, startOff ≤ p → p < endOff → ValidEntry W endOff p (m p)

instance (W : List Nat) (startOff endOff : Nat) (m : Nat → LZMatch) :
    Decidable (ValidArr W startOff endOff m) :=
  decidable_of_iff (∀ p, p < endOff → startOff ≤ p → ValidEntry W endOff p (m p))
    ⟨fun h p h1 h2 => h p h2 h1, fun h p h1 h2 => h p h2 h1⟩

/-- Every slot from `i` on is empty or a real (`≥ MIN_MATCH_SIZE`) match —
the parser and the peephole pass never store lengths 1–3. -/
def ZeroOrMatch (m : Nat → LZMatch) (endOff i : Nat) : Prop :=
  ∀ p, i ≤ p → p < endOff → (m p).length = 0 ∨ MIN_MATCH_SIZE ≤ (m p).length

/-- Validity along the emitter's walk from cursor `i`: every match the walk
lands on is in-bounds, content-equal, and ends at least `LAST_LITERALS`
bytes before the block end; other visited positions are literals. -/
def WalkOK (W : List Nat) (endOff : Nat) (m : Nat → LZMatch) (i : Nat) : Prop :=
  if hlt : i < endOff then
    if hm : MIN_MATCH_SIZE ≤ (m i).length then
      (i + (m i).length + LAST_LITERALS ≤ endOff ∧ MatchOK W i (m i)) ∧
      WalkOK W endOff m (i + (m i).length)
    else
      WalkOK W endOff m (i + 1)
  else
    True
termination_by endOff - i
decreasing_by
  · simp only [MIN_MATCH_SIZE] at hm; omega
  · omega

/-- `Visited endOff m i p`: the emitter's walk started at cursor `i` passes
through position `p` (only positions `< endOff` are visited). -/
def Visited (endOff : Nat) (m : Nat → LZMatch) (i p : Nat) : Prop :=
  if hlt : i < endOff then
    i = p ∨
    (if hm : MIN_MATCH_SIZE ≤ (m i).length then
      Visited endOff m (i + (m i).length) p
    else
      Visited endOff m (i + 1) p)
  else
    False
termination_by endOff - i
decreasing_by
  · simp only [MIN_MATCH_SIZE] at hm; omega
  · omega

end LZ4Ultra

namespace LZ4Ultra

/-! ## Validity of the parser's output -/

theorem speed_shorten_le (favorRatio : Bool) (n : Nat) :
    lz4ultra_speed_shorten favorRatio n ≤ n := by
  rw [lz4ultra_speed_shorten]
  split
  · rename_i h
    simp only [MATCH_RUN_LEN, MIN_MATCH_SIZE] at h ⊢
    omega
  · exact le_refl n

theorem clampLen_id {endOff p n : Nat} (h : p + n + LAST_LITERALS ≤ endOff) :
    clampLen endOff p n = n := by
  rw [clampLen, if_neg]
  simp only [LAST_LITERALS] at h ⊢
  omega

/-- What one parser step may store at `p`: nothing, or the position's own
match trimmed. -/
def TrimValid (endOff : Nat) (m0 : Nat → LZMatch) (p : Nat) (e : LZMatch) :
    Prop :=
  (e.length = 0 ∧ e.offset = 0) ∨
  (MIN_MATCH_SIZE ≤ e.length ∧ e.length ≤ (m0 p).length ∧
    e.offset = (m0 p).offset ∧ p + e.length + LAST_LITERALS ≤ endOff)

theorem candUpdate_shape (st : OptState) (xms i off : Nat)
    (b0 : Nat × Nat × Nat × Nat) (k : Nat) :
    candUpdate st xms i off b0 k = b0 ∨
    candUpdate st xms i off b0 k =
      (candCost st i k, candScore st xms i k, k, off) := by
  rw [candUpdate]
  split
  · exact Or.inr rfl
  · exact Or.inl rfl

/-- The parser's chosen record at `i` is the literal `(0, 0)` or a trim of
the match under the cursor. -/
theorem bestCandidate_shape (favorRatio : Bool) (endOff : Nat) (st : OptState)
    (i : Nat) :
    ((bestCandidate favorRatio endOff st i).2.2.1 = 0 ∧
      (bestCandidate favorRatio endOff st i).2.2.2 = 0) ∨
    (MIN_MATCH_SIZE ≤ (st.m i).length ∧
      (bestCandidate favorRatio endOff st i).2.2.2 = (st.m i).offset ∧
      ((MIN_MATCH_SIZE ≤ (bestCandidate favorRatio endOff st i).2.2.1 ∧
        (bestCandidate favorRatio endOff st i).2.2.1 ≤
          clampLen endOff i (st.m i).length) ∨
       (bestCandidate favorRatio endOff st i).2.2.1 =
          clampLen endOff i (st.m i).length)) := by
  rw [bestCandidate]
  by_cases hm : (st.m i).length ≥ MIN_MATCH_SIZE
  · rw [if_pos hm]
    by_cases hlv : (st.m i).length ≥ LEAVE_ALONE_MATCH_SIZE
    · rw [if_pos hlv]
      rcases candUpdate_shape st (if favorRatio then 1 else 5) i ((st.m i).offset)
        (litStepCost st i, 1 + st.score (i + 1), 0, 0)
        (clampLen endOff i (st.m i).length) with h | h
      · rw [h]
        exact Or.inl ⟨rfl, rfl⟩
      · rw [h]
        exact Or.inr ⟨hm, rfl, Or.inr rfl⟩
    · rw [if_neg hlv]
      obtain ⟨h1, -, -⟩ := candFold_spec st (if favorRatio then 1 else 5) i
        ((st.m i).offset)
        (trimList (lz4ultra_speed_shorten favorRatio
          (clampLen endOff i (st.m i).length)))
        (litStepCost st i, 1 + st.score (i + 1), 0, 0)
      rcases h1 with h | ⟨k, hk, hke⟩
      · rw [h]
        exact Or.inl ⟨rfl, rfl⟩
      · rw [hke]
        have := mem_trimList.mp hk
        exact Or.inr ⟨hm, rfl, Or.inl ⟨this.1,
          le_trans this.2 (speed_shorten_le _ _)⟩⟩
  · rw [if_neg hm]
    exact Or.inl ⟨rfl, rfl⟩

theorem upd_ne {α : Type} (f : Nat → α) (i : Nat) (v : α) {j : Nat}
    (h : j ≠ i) : upd f i v j = f j := by
  rw [upd, if_neg h]

theorem upd_self {α : Type} (f : Nat → α) (i : Nat) (v : α) :
    upd f i v i = v := by
  rw [upd, if_pos rfl]

/-- The parser loop rewrites exactly the positions it processes, each to a
`TrimValid` record. -/
theorem optLoop_valid (favorRatio : Bool) (W : List Nat)
    (endOff startOff : Nat) (m0 : Nat → LZMatch)
    (hva : ValidArr W startOff endOff m0) :
    ∀ c st, (startOff + c ≤ endOff - 1 ∨ c = 0) →
      (∀ p, startOff ≤ p → p < startOff + c → st.m p = m0 p) →
      (∀ p, startOff ≤ p → p < startOff + c →
        TrimValid endOff m0 p ((optLoop favorRatio endOff startOff c st).m p)) ∧
      (∀ p, p < startOff ∨ startOff + c ≤ p →
        (optLoop favorRatio endOff startOff c st).m p = st.m p) := by
  intro c
  induction c with
  | zero =>
    intro st _ _
    exact ⟨fun p h1 h2 => absurd h2 (by omega), fun p _ => rfl⟩
  | succ c ih =>
    intro st hce hpre
    have hce2 : startOff + c + 1 ≤ endOff - 1 := by omega
    rw [optLoop]
    have hstm : st.m (startOff + c) = m0 (startOff + c) :=
      hpre _ (by omega) (by omega)
    have hq : ValidEntry W endOff (startOff + c) (m0 (startOff + c)) :=
      hva _ (by omega) (by omega)
    have hother : ∀ p, p ≠ startOff + c →
        (optStep favorRatio endOff st (startOff + c)).m p = st.m p := by
      intro p hp
      rw [optStep]
      exact upd_ne _ _ _ hp
    have hself : (optStep favorRatio endOff st (startOff + c)).m (startOff + c) =
        ⟨(bestCandidate favorRatio endOff st (startOff + c)).2.2.1,
         (bestCandidate favorRatio endOff st (startOff + c)).2.2.2⟩ := by
      rw [optStep]
      exact upd_self _ _ _
    have hqe : TrimValid endOff m0 (startOff + c)
        ((optStep favorRatio endOff st (startOff + c)).m (startOff + c)) := by
      rw [hself]
      rcases bestCandidate_shape favorRatio endOff st (startOff + c) with
        ⟨h1, h2⟩ | ⟨hm, hoff, hk⟩
      · exact Or.inl ⟨h1, h2⟩
      · rw [hstm] at hm hoff hk
        rcases hq with ⟨hz, -⟩ | ⟨-, hbound, -⟩
        · exact absurd hm (by simp [hz, MIN_MATCH_SIZE])
        · rw [clampLen_id hbound] at hk
          rcases hk with ⟨hk4, hkle⟩ | hkeq
          · exact Or.inr ⟨hk4, hkle, hoff, by
              simp only [LAST_LITERALS] at hbound ⊢; omega⟩
          · refine Or.inr ⟨by rw [hkeq]; exact hm, by rw [hkeq], hoff, ?_⟩
            rw [hkeq]
            exact hbound
    obtain ⟨ih1, ih2⟩ := ih (optStep favorRatio endOff st (startOff + c))
      (by omega)
      (fun p h1 h2 => by rw [hother p (by omega)]; exact hpre p h1 (by omega))
    refine ⟨?_, ?_⟩
    · intro p h1 h2
      by_cases hp : p < startOff + c
      · exact ih1 p h1 hp
      · have hpq : p = startOff + c := by omega
        rw [hpq, ih2 (startOff + c) (Or.inr (by omega))]
        exact hqe
    · intro p hp
      rw [ih2 p (by omega), hother p (by omega)]

end LZ4Ultra

namespace LZ4Ultra

/-- The parser rewrites `[startOff, endOff-1)` to `TrimValid` records and
leaves other slots untouched. -/
theorem parser_entries (favorRatio : Bool) (W : List Nat)
    (startOff endOff : Nat) (m0 : Nat → LZMatch)
    (hva : ValidArr W startOff endOff m0) :
    (∀ p, startOff ≤ p → p < endOff - 1 → TrimValid endOff m0 p
      ((lz4ultra_optimize_matches_lz4 favorRatio startOff endOff m0).m p)) ∧
    (∀ p, p < startOff ∨ endOff - 1 ≤ p →
      (lz4ultra_optimize_matches_lz4 favorRatio startOff endOff m0).m p = m0 p) := by
  obtain ⟨h1, h2⟩ := optLoop_valid favorRatio W endOff startOff m0 hva
    (endOff - 1 - startOff)
    { cost := upd (fun _ => 0) (endOff - 1) 8
      score := fun _ => 0
      m := m0
      lastLit := endOff }
    (by omega) (fun p _ _ => rfl)
  rw [lz4ultra_optimize_matches_lz4]
  exact ⟨fun p hp1 hp2 => h1 p hp1 (by omega),
    fun p hp => h2 p (by omega)⟩

/-- The parser's output array is walk-valid from every position of the
block. -/
theorem parser_WalkOK (favorRatio : Bool) (W : List Nat)
    (startOff endOff : Nat) (m0 : Nat → LZMatch)
    (hva : ValidArr W startOff endOff m0) :
    ∀ i, startOff ≤ i → WalkOK W endOff
      ((lz4ultra_optimize_matches_lz4 favorRatio startOff endOff m0).m) i := by
  obtain ⟨he1, he2⟩ := parser_entries favorRatio W startOff endOff m0 hva
  set mp := (lz4ultra_optimize_matches_lz4 favorRatio startOff endOff m0).m
    with hmp
  suffices h : ∀ d i, endOff - i ≤ d → startOff ≤ i → WalkOK W endOff mp i by
    intro i hi
    exact h (endOff - i) i (le_refl _) hi
  intro d
  induction d with
  | zero =>
    intro i hd hi
    rw [WalkOK, dif_neg (by omega)]
    trivial
  | succ d ihd =>
    intro i hd hi
    by_cases hlt : i < endOff
    · rw [WalkOK, dif_pos hlt]
      by_cases hend : i < endOff - 1
      · rcases he1 i hi hend with ⟨hz, -⟩ | ⟨h4, hle, hoffeq, hbound⟩
        · rw [dif_neg (by rw [hz]; simp [MIN_MATCH_SIZE])]
          exact ihd (i + 1) (by omega) (by omega)
        · rw [dif_pos h4]
          rcases hva i hi (by omega) with ⟨hz0, -⟩ | ⟨-, -, hmo⟩
          · refine absurd hle ?_
            rw [hz0]
            simp only [MIN_MATCH_SIZE] at h4
            omega
          · obtain ⟨ho1, ho2, ho3, ho4⟩ := hmo
            refine ⟨⟨hbound, ?_⟩, ihd (i + (mp i).length)
              (by simp only [MIN_MATCH_SIZE] at h4; omega) (by omega)⟩
            refine ⟨by rw [hoffeq]; exact ho1, by rw [hoffeq]; exact ho2,
              by rw [hoffeq]; exact ho3, fun j hj => ?_⟩
            rw [hoffeq]
            exact ho4 j (by omega)
      · have hmeq : mp i = m0 i := he2 i (Or.inr (by omega))
        rcases hva i hi hlt with ⟨hz0, -⟩ | ⟨h4, hbound, -⟩
        · rw [dif_neg (by rw [hmeq, hz0]; simp [MIN_MATCH_SIZE])]
          exact ihd (i + 1) (by omega) (by omega)
        · simp only [MIN_MATCH_SIZE] at h4
          simp only [LAST_LITERALS] at hbound
          omega
    · rw [WalkOK, dif_neg hlt]
      trivial

/-- The parser never stores a length in `1, ..., 3`. -/
theorem parser_ZeroOrMatch (favorRatio : Bool) (W : List Nat)
    (startOff endOff : Nat) (m0 : Nat → LZMatch)
    (hva : ValidArr W startOff endOff m0) :
    ZeroOrMatch ((lz4ultra_optimize_matches_lz4 favorRatio startOff endOff m0).m)
      endOff startOff := by
  obtain ⟨he1, he2⟩ := parser_entries favorRatio W startOff endOff m0 hva
  intro p h1 h2
  by_cases hp : p < endOff - 1
  · rcases he1 p h1 hp with ⟨hz, -⟩ | ⟨h4, -⟩
    · exact Or.inl hz
    · exact Or.inr h4
  · rw [he2 p (Or.inr (by omega))]
    rcases hva p h1 h2 with ⟨hz, -⟩ | ⟨h4, -⟩
    · exact Or.inl hz
    · exact Or.inr h4

end LZ4Ultra

namespace LZ4Ultra

/-! ## Walk-validity toolkit -/

theorem WalkOK_of_ge {W : List Nat} {endOff : Nat} {m : Nat → LZMatch}
    {i : Nat} (h : endOff ≤ i) : WalkOK W endOff m i := by
  rw [WalkOK, dif_neg (by omega)]
  trivial

theorem WalkOK_lit {W : List Nat} {endOff : Nat} {m : Nat → LZMatch} {i : Nat}
    (hlt : i < endOff) (hm : ¬ MIN_MATCH_SIZE ≤ (m i).length) :
    WalkOK W endOff m i ↔ WalkOK W endOff m (i + 1) := by
  conv_lhs => rw [WalkOK]
  rw [dif_pos hlt, dif_neg hm]

theorem WalkOK_match {W : List Nat} {endOff : Nat} {m : Nat → LZMatch} {i : Nat}
    (hlt : i < endOff) (hm : MIN_MATCH_SIZE ≤ (m i).length) :
    WalkOK W endOff m i ↔
      ((i + (m i).length + LAST_LITERALS ≤ endOff ∧ MatchOK W i (m i)) ∧
        WalkOK W endOff m (i + (m i).length)) := by
  conv_lhs => rw [WalkOK]
  rw [dif_pos hlt, dif_pos hm]

/-- Walk-validity only depends on the slots from the cursor on. -/
theorem WalkOK_congr {W : List Nat} {endOff : Nat} {m1 m2 : Nat → LZMatch} :
    ∀ i, (∀ p, i ≤ p → p < endOff → m1 p = m2 p) →
      WalkOK W endOff m1 i → WalkOK W endOff m2 i := by
  suffices h : ∀ d i, endOff - i ≤ d →
      (∀ p, i ≤ p → p < endOff → m1 p = m2 p) →
      WalkOK W endOff m1 i → WalkOK W endOff m2 i by
    intro i
    exact h (endOff - i) i (le_refl _)
  intro d
  induction d with
  | zero =>
    intro i hd _ _
    exact WalkOK_of_ge (by omega)
  | succ d ihd =>
    intro i hd hagree hw
    by_cases hlt : i < endOff
    · have hei : m1 i = m2 i := hagree i (le_refl _) hlt
      by_cases hm : MIN_MATCH_SIZE ≤ (m1 i).length
      · obtain ⟨⟨hb, hmo⟩, hw2⟩ := (WalkOK_match hlt hm).mp hw
        rw [WalkOK_match hlt (by rw [← hei]; exact hm)]
        rw [← hei]
        refine ⟨⟨hb, hmo⟩, ?_⟩
        refine ihd (i + (m1 i).length)
          (by simp only [MIN_MATCH_SIZE] at hm; omega)
          (fun p hp1 hp2 => hagree p (by omega) hp2) hw2
      · rw [WalkOK_lit hlt (by rw [← hei]; exact hm)]
        exact ihd (i + 1) (by omega)
          (fun p hp1 hp2 => hagree p (by omega) hp2)
          ((WalkOK_lit hlt hm).mp hw)
    · exact WalkOK_of_ge (by omega)

/-- A span of literal slots prepends to a valid walk. -/
theorem WalkOK_litSpan {W : List Nat} {endOff : Nat} {m : Nat → LZMatch} :
    ∀ d i j, j - i ≤ d → i ≤ j →
      (∀ q, i ≤ q → q < j → ¬ MIN_MATCH_SIZE ≤ (m q).length) →
      WalkOK W endOff m j → WalkOK W endOff m i := by
  intro d
  induction d with
  | zero =>
    intro i j hd hij _ hw
    have : i = j := by omega
    rw [this]
    exact hw
  | succ d ihd =>
    intro i j hd hij hlits hw
    by_cases hij2 : i = j
    · rw [hij2]
      exact hw
    · by_cases hlt : i < endOff
      · rw [WalkOK_lit hlt (hlits i (le_refl _) (by omega))]
        exact ihd (i + 1) j (by omega) (by omega)
          (fun q hq1 hq2 => hlits q (by omega) hq2) hw
      · exact WalkOK_of_ge (by omega)

theorem zeroRange_lo {m : Nat → LZMatch} {i len p : Nat} (h : p < i) :
    zeroRange m i len p = m p := by
  rw [zeroRange, if_neg (by omega)]

theorem zeroRange_hi {m : Nat → LZMatch} {i len p : Nat} (h : i + len ≤ p) :
    zeroRange m i len p = m p := by
  rw [zeroRange, if_neg (by omega)]

theorem zeroRange_mid {m : Nat → LZMatch} {i len p : Nat} (h1 : i ≤ p)
    (h2 : p < i + len) : zeroRange m i len p = ⟨0, (m p).offset⟩ := by
  rw [zeroRange, if_pos ⟨h1, h2⟩]

theorem fuseAt_self (m : Nat → LZMatch) (i len : Nat) :
    fuseAt m i len i = ⟨len + (m (i + len)).length, (m i).offset⟩ := by
  rw [fuseAt, if_pos rfl]

theorem fuseAt_sent (m : Nat → LZMatch) {i len : Nat} (h : len ≠ 0) :
    fuseAt m i len (i + len) = ⟨SENTINEL_LEN, 0⟩ := by
  rw [fuseAt, if_neg (by omega), if_pos rfl]

theorem fuseAt_other (m : Nat → LZMatch) {i len p : Nat} (h1 : p ≠ i)
    (h2 : p ≠ i + len) : fuseAt m i len p = m p := by
  rw [fuseAt, if_neg h1, if_neg h2]

theorem length_mk (a b : Nat) : (LZMatch.mk a b).length = a := rfl

theorem offset_mk (a b : Nat) : (LZMatch.mk a b).offset = b := rfl

/-- Lexicographic termination measure of the peephole pass, flattened. -/
def muPeep (endOff i len : Nat) : Nat :=
  (endOff - i) * (endOff + 2) + (endOff + 1 - (i + len))

theorem muPeep_advance {endOff i i' : Nat} (len len' : Nat) (hii : i < i')
    (hlt : i < endOff) : muPeep endOff i' len' < muPeep endOff i len := by
  rw [muPeep, muPeep]
  have hA : endOff - i' + 1 ≤ endOff - i := by omega
  have hB : (endOff - i' + 1) * (endOff + 2) ≤ (endOff - i) * (endOff + 2) :=
    Nat.mul_le_mul_right _ hA
  rw [Nat.succ_mul] at hB
  have hs : endOff + 1 - (i' + len') ≤ endOff + 1 := Nat.sub_le _ _
  omega

theorem muPeep_fuse {endOff i len len' : Nat} (h : len < len')
    (h2 : i + len' ≤ endOff + 1) :
    muPeep endOff i len' < muPeep endOff i len := by
  rw [muPeep, muPeep]
  omega

end LZ4Ultra

namespace LZ4Ultra

/-- The peephole pass never touches slots behind the cursor and preserves
walk-validity and the absence of lengths 1–3 from the cursor on. -/
theorem peepholeGo_preserves (W : List Nat) (endOff : Nat) :
    ∀ N, ∀ i numLit m,
      muPeep endOff i ((m i).length) ≤ N →
      WalkOK W endOff m i → ZeroOrMatch m endOff i →
      (∀ p, p < i → peepholeGo W endOff i numLit m p = m p) ∧
      WalkOK W endOff (peepholeGo W endOff i numLit m) i ∧
      ZeroOrMatch (peepholeGo W endOff i numLit m) endOff i := by
  intro N
  induction N using Nat.strong_induction_on with
  | _ N ihN =>
  intro i numLit m hmu hw hz
  by_cases hlt : i < endOff
  · by_cases hmt : (m i).length ≥ MIN_MATCH_SIZE
    · by_cases hred : reduceTest m endOff i numLit ((m i).length) = true
      · -- demotion: the match is zeroed, the cursor skips it as literals
        have heq : peepholeGo W endOff i numLit m =
            peepholeGo W endOff (i + (m i).length) (numLit + (m i).length)
              (zeroRange m i ((m i).length)) := by
          conv_lhs => rw [peepholeGo]
          rw [dif_pos hlt, dif_pos hmt, if_pos hred]
        obtain ⟨-, hw2⟩ := (WalkOK_match hlt hmt).mp hw
        have hwz : WalkOK W endOff (zeroRange m i ((m i).length))
            (i + (m i).length) :=
          WalkOK_congr _ (fun p hp1 _ => (zeroRange_hi hp1).symm) hw2
        have hzz : ZeroOrMatch (zeroRange m i ((m i).length)) endOff
            (i + (m i).length) := fun p hp1 hp2 => by
          rw [zeroRange_hi hp1]
          exact hz p (by omega) hp2
        obtain ⟨ih1, ih2, ih3⟩ := ihN
          (muPeep endOff (i + (m i).length)
            ((zeroRange m i ((m i).length) (i + (m i).length)).length))
          (lt_of_lt_of_le
            (muPeep_advance _ _ (by simp only [MIN_MATCH_SIZE] at hmt; omega)
              hlt) hmu)
          (i + (m i).length) (numLit + (m i).length)
          (zeroRange m i ((m i).length)) (le_refl _) hwz hzz
        rw [heq]
        refine ⟨?_, ?_, ?_⟩
        · intro p hp
          rw [ih1 p (by omega), zeroRange_lo hp]
        · refine WalkOK_litSpan ((m i).length) i (i + (m i).length) (by omega)
            (by omega) ?_ ih2
          intro q hq1 hq2
          rw [ih1 q hq2, zeroRange_mid hq1 hq2]
          simp [MIN_MATCH_SIZE]
        · intro p hp1 hp2
          by_cases hpl : p < i + (m i).length
          · rw [ih1 p hpl, zeroRange_mid hp1 hpl]
            exact Or.inl rfl
          · exact ih3 p (by omega) hp2
      · by_cases hfuse : fuseTest W m endOff i ((m i).length)
        · -- fusion: the two matches are joined under the cursor
          have heq : peepholeGo W endOff i numLit m =
              peepholeGo W endOff i numLit (fuseAt m i ((m i).length)) := by
            conv_lhs => rw [peepholeGo]
            rw [dif_pos hlt, dif_pos hmt, if_neg hred, dif_pos hfuse]
          obtain ⟨⟨hbound, hmo⟩, hw2⟩ := (WalkOK_match hlt hmt).mp hw
          have hfuse2 := hfuse
          rw [fuseTest] at hfuse2
          obtain ⟨hf1, hf2, hf3, hf4, hf5, hf6, hf7, hf8, hf9, hf10, hf11⟩ :=
            hfuse2
          have h42 : MIN_MATCH_SIZE ≤ (m (i + (m i).length)).length := by
            rcases hz (i + (m i).length) (by omega) hf1 with h0 | h4
            · omega
            · exact h4
          obtain ⟨⟨hbound2, hmo2⟩, hw3⟩ := (WalkOK_match hf1 h42).mp hw2
          have hm'i : fuseAt m i ((m i).length) i =
              ⟨(m i).length + (m (i + (m i).length)).length, (m i).offset⟩ :=
            fuseAt_self m i ((m i).length)
          obtain ⟨ho1, ho2, ho3, ho4⟩ := hmo
          obtain ⟨po1, po2, po3, po4⟩ := hmo2
          have hwm' : WalkOK W endOff (fuseAt m i ((m i).length)) i := by
            rw [WalkOK_match hlt (by
              rw [hm'i]
              simp only [MIN_MATCH_SIZE] at hmt ⊢
              omega)]
            rw [hm'i]
            refine ⟨⟨?_, ?_⟩, ?_⟩
            · simp only [LAST_LITERALS] at hbound2 ⊢
              omega
            · refine ⟨ho1, ho2, by
                simp only at ho3 ⊢
                omega, ?_⟩
              intro j hj
              simp only at hj ⊢
              by_cases hjl : j < (m i).length
              · exact ho4 j hjl
              · have hj2 : j - (m i).length < (m (i + (m i).length)).length := by
                  omega
                have e1 := hf11 (j - (m i).length) hj2
                have e2 := po4 (j - (m i).length) hj2
                rw [show i - (m i).offset + j =
                    i + (m i).length - (m i).offset + (j - (m i).length) from by
                  omega]
                rw [show i + j = i + (m i).length + (j - (m i).length) from by
                  omega]
                rw [e1]
                exact e2
            · rw [show i + ((m i).length + (m (i + (m i).length)).length) =
                  i + (m i).length + (m (i + (m i).length)).length from by omega]
              refine WalkOK_congr _ ?_ hw3
              intro p hp1 hp2
              rw [fuseAt_other m (by omega) (by
                simp only [MIN_MATCH_SIZE] at h42
                omega)]
          have hzm' : ZeroOrMatch (fuseAt m i ((m i).length)) endOff i := by
            intro p hp1 hp2
            by_cases hpi : p = i
            · rw [hpi, hm'i]
              right
              simp only [MIN_MATCH_SIZE] at hmt ⊢
              omega
            · by_cases hps : p = i + (m i).length
              · rw [hps, fuseAt_sent m (by omega)]
                right
                simp only [SENTINEL_LEN, MIN_MATCH_SIZE]
                omega
              · rw [fuseAt_other m hpi hps]
                exact hz p hp1 hp2
          have hmu' : muPeep endOff i ((fuseAt m i ((m i).length) i).length) < N := by
            refine lt_of_lt_of_le ?_ hmu
            rw [hm'i]
            simp only [length_mk]
            refine muPeep_fuse (by
              simp only [MIN_MATCH_SIZE] at h42
              omega) (by omega)
          obtain ⟨ih1, ih2, ih3⟩ := ihN _ hmu' i numLit
            (fuseAt m i ((m i).length)) (le_refl _) hwm' hzm'
          rw [heq]
          refine ⟨?_, ih2, ih3⟩
          intro p hp
          rw [ih1 p hp, fuseAt_other m (by omega) (by omega)]
        · -- plain advance past the match
          have heq : peepholeGo W endOff i numLit m =
              peepholeGo W endOff (i + (m i).length) 0 m := by
            conv_lhs => rw [peepholeGo]
            rw [dif_pos hlt, dif_pos hmt, if_neg hred, dif_neg hfuse]
          obtain ⟨⟨hbound, hmo⟩, hw2⟩ := (WalkOK_match hlt hmt).mp hw
          obtain ⟨ih1, ih2, ih3⟩ := ihN
            (muPeep endOff (i + (m i).length) ((m (i + (m i).length)).length))
            (lt_of_lt_of_le
              (muPeep_advance _ _ (by simp only [MIN_MATCH_SIZE] at hmt; omega)
                hlt) hmu)
            (i + (m i).length) 0 m (le_refl _) hw2
            (fun p hp1 hp2 => hz p (by omega) hp2)
          rw [heq]
          have hri : peepholeGo W endOff (i + (m i).length) 0 m i = m i :=
            ih1 i (by simp only [MIN_MATCH_SIZE] at hmt; omega)
          refine ⟨fun p hp => ih1 p (by omega), ?_, ?_⟩
          · rw [WalkOK_match hlt (by rw [hri]; exact hmt), hri]
            exact ⟨⟨hbound, hmo⟩, ih2⟩
          · intro p hp1 hp2
            by_cases hpl : p < i + (m i).length
            · rw [ih1 p hpl]
              exact hz p hp1 hp2
            · exact ih3 p (by omega) hp2
    · -- literal step
      have heq : peepholeGo W endOff i numLit m =
          peepholeGo W endOff (i + 1) (numLit + 1) m := by
        conv_lhs => rw [peepholeGo]
        rw [dif_pos hlt, dif_neg hmt]
      have hw1 := (WalkOK_lit hlt hmt).mp hw
      obtain ⟨ih1, ih2, ih3⟩ := ihN (muPeep endOff (i + 1) ((m (i + 1)).length))
        (lt_of_lt_of_le (muPeep_advance _ _ (by omega) hlt) hmu)
        (i + 1) (numLit + 1) m (le_refl _) hw1
        (fun p hp1 hp2 => hz p (by omega) hp2)
      rw [heq]
      have hri : peepholeGo W endOff (i + 1) (numLit + 1) m i = m i :=
        ih1 i (by omega)
      refine ⟨fun p hp => ih1 p (by omega), ?_, ?_⟩
      · rw [WalkOK_lit hlt (by rw [hri]; exact hmt)]
        exact ih2
      · intro p hp1 hp2
        by_cases hpi : p = i
        · rw [hpi, hri]
          rcases hz i (le_refl _) hlt with h0 | h4
          · exact Or.inl h0
          · exact Or.inr h4
        · exact ih3 p (by omega) hp2
  · have heq : peepholeGo W endOff i numLit m = m := by
      conv_lhs => rw [peepholeGo]
      rw [dif_neg hlt]
    rw [heq]
    exact ⟨fun p _ => rfl, hw, hz⟩

end LZ4Ultra

namespace LZ4Ultra

/-! ## Round-trip toolkit: tokens, varlen runs, byte lists, match copies -/

/-- The emitter's token assembly inverts under the decompressor's nibble
extraction. -/
theorem token_split : ∀ tl, tl < 16 → ∀ tm, tm < 16 →
    (((tl <<< 4) ||| tm) &&& 0xf0) >>> 4 = tl ∧
    ((tl <<< 4) ||| tm) &&& 0x0f = tm ∧
    ((tl <<< 4) ||| tm) < 256 := by decide

/-- The two little-endian offset bytes recompose under `|`/`<< 8`. -/
theorem byte_recompose (off : Nat) (h : off < 65536) :
    (off % 256) ||| ((off / 256) <<< 8) = off := by
  have h1 : off % 256 < 2 ^ 8 := by omega
  have h2 : (off / 256) <<< 8 = 2 ^ 8 * (off / 256) := by
    rw [Nat.shiftLeft_eq]
    ring
  rw [h2, Nat.lor_comm, ← Nat.mul_add_lt_is_or h1 (off / 256)]
  omega

/-- `BUILD_LEN` over an emitted varlen run recovers the encoded value and
consumes exactly the run. -/
theorem buildLenN_varlen (rest : List Nat) : ∀ v acc,
    buildLenN acc (varlenBytes v ++ rest) =
      some (acc + v, (varlenBytes v).length) := by
  intro v
  induction v using Nat.strong_induction_on with
  | _ v ih =>
    intro acc
    rw [varlenBytes_eq]
    by_cases h : v ≥ 255
    · rw [if_pos h]
      simp only [List.cons_append, buildLenN, eq_self_iff_true, if_true,
        List.append_eq]
      rw [ih (v - 255) (by omega) (acc + 255)]
      simp only [Option.map_some', List.length_cons, Option.some.injEq,
        Prod.mk.injEq]
      constructor
      · omega
      · trivial
    · rw [if_neg h]
      simp only [List.cons_append, List.nil_append, buildLenN,
        if_neg (by omega : ¬ v = 255), List.length_singleton]

theorem getD_take {W : List Nat} {p q : Nat} (h : q < p) (d : Nat) :
    (W.take p).getD q d = W.getD q d := by
  rw [List.getD_eq_getElem?_getD, List.getD_eq_getElem?_getD,
    List.getElem?_take, if_pos h]

theorem getD_append {l m : List Nat} {i : Nat} (d : Nat) (h : i < l.length) :
    (l ++ m).getD i d = l.getD i d := by
  rw [List.getD_eq_getElem?_getD, List.getD_eq_getElem?_getD,
    List.getElem?_append, if_pos h]

theorem take_concat {W : List Nat} {p : Nat} (h : p < W.length) :
    W.take p ++ [W.getD p 0] = W.take (p + 1) := by
  rw [List.take_succ, List.getElem?_eq_getElem h]
  simp only [Option.toList_some]
  rw [List.getD_eq_getElem W 0 h]

/-- Sequentially copying `len` bytes from `off` back off the frontier `p`
of a prefix of `W` reproduces the next `len` bytes of `W`, provided the
match contract holds. -/
theorem matchCopy_take (W : List Nat) (off : Nat) (hoff1 : 1 ≤ off) :
    ∀ len p, off ≤ p → p + len ≤ W.length →
      (∀ j, j < len → W.getD (p - off + j) 0 = W.getD (p + j) 0) →
      matchCopy (W.take p) off len = W.take (p + len) := by
  intro len
  induction len with
  | zero =>
    intro p _ _ _
    rw [matchCopy, Nat.add_zero]
  | succ len ih =>
    intro p hop hpl hcontent
    rw [matchCopy]
    have hlen : (W.take p).length = p := by
      rw [List.length_take]
      omega
    have hget : (W.take p).getD ((W.take p).length - off) 0 = W.getD p 0 := by
      rw [hlen, getD_take (by omega) 0]
      have h0 := hcontent 0 (by omega)
      simpa using h0
    rw [hget, take_concat (by omega)]
    rw [show p + (len + 1) = (p + 1) + len from by omega]
    refine ih (p + 1) (by omega) (by omega) ?_
    intro j hj
    have := hcontent (j + 1) (by omega)
    rw [show p + 1 - off + j = p - off + (j + 1) from by omega,
      show p + 1 + j = p + (j + 1) from by omega]
    exact this

end LZ4Ultra

namespace LZ4Ultra

/-- Decoding the literal section of an emitted command: the token's literal
nibble plus the varlen run recover `numLit`, and the literal bytes extend
the decoded prefix of `W` from `i - numLit` to `i`. -/
theorem expandLits_emitted (cap : Nat) (W : List Nat) (i numLit tm : Nat)
    (htm : tm < 16) (tail : List Nat) (hcap : W.length ≤ cap)
    (hnl : numLit ≤ i) (hiw : i ≤ W.length) :
    expandLitSection cap
      (((if numLit ≥ LITERALS_RUN_LEN then LITERALS_RUN_LEN else numLit) <<< 4)
        ||| tm)
      (lz4ultra_write_literals_varlen numLit ++
        (listSlice W (i - numLit) numLit ++ tail))
      (W.take (i - numLit)) =
    some (W.take i, tail) := by
  have htl : (if numLit ≥ LITERALS_RUN_LEN then LITERALS_RUN_LEN else numLit)
      < 16 := by
    simp only [LITERALS_RUN_LEN]
    split <;> omega
  obtain ⟨hsp1, -, -⟩ := token_split _ htl tm htm
  have hslice : (listSlice W (i - numLit) numLit).length = numLit := by
    rw [listSlice, List.length_take, List.length_drop]
    omega
  have houtlen : (W.take (i - numLit)).length = i - numLit := by
    rw [List.length_take]
    omega
  have hfinal : W.take (i - numLit) ++ listSlice W (i - numLit) numLit =
      W.take i := by
    rw [listSlice]
    conv_rhs => rw [show i = (i - numLit) + numLit from by omega, List.take_add]
  rw [expandLitSection]
  rw [hsp1]
  by_cases hge : numLit ≥ LITERALS_RUN_LEN
  · rw [if_pos hge]
    rw [lz4ultra_write_literals_varlen, if_pos hge]
    simp only [LITERALS_RUN_LEN] at hge ⊢
    rw [if_neg (by simp)]
    simp only [if_true]
    rw [buildLenN_varlen (listSlice W (i - numLit) numLit ++ tail)
      (numLit - 15) 15]
    simp only [List.drop_left]
    simp only [show 15 + (numLit - 15) = numLit from by omega]
    rw [if_neg (by
      rw [List.length_append, hslice]
      omega)]
    rw [if_neg (by
      rw [houtlen]
      omega)]
    dsimp only
    simp only [List.drop_left]
    rw [List.take_left' hslice, hfinal]
    rw [← List.drop_drop]
    simp only [List.drop_left]
    rw [List.drop_left' hslice]
  · rw [if_neg hge]
    rw [lz4ultra_write_literals_varlen, if_neg hge]
    rw [List.nil_append]
    simp only [LITERALS_RUN_LEN] at hge ⊢
    have hne : ¬ numLit = 15 := by omega
    have hdrop0 : (listSlice W (i - numLit) numLit ++ tail).drop 0 =
        listSlice W (i - numLit) numLit ++ tail := rfl
    by_cases hfast : ¬ numLit = 15 ∧ (W.take (i - numLit)).length ≤ cap - 18 ∧
        16 ≤ (listSlice W (i - numLit) numLit ++ tail).length
    · rw [if_pos hfast]
      dsimp only
      rw [hdrop0, List.take_left' hslice, hfinal, Nat.zero_add,
        List.drop_left' hslice]
    · rw [if_neg hfast]
      rw [if_neg hne]
      dsimp only
      rw [if_neg (by
        rw [hdrop0, List.length_append, hslice]
        omega)]
      rw [if_neg (by
        rw [houtlen]
        omega)]
      dsimp only
      rw [hdrop0, List.take_left' hslice, hfinal, Nat.zero_add,
        List.drop_left' hslice]

end LZ4Ultra

namespace LZ4Ultra

/-- Decoding the match section of an emitted command: the token's match
nibble plus the varlen run recover the match length, and the overlapping
copy extends the decoded prefix of `W` from `i` to `i + len`. -/
theorem expandMatch_emitted (cap : Nat) (W : List Nat) (i off len tl : Nat)
    (htl : tl < 16) (B' : List Nat) (hcap : W.length ≤ cap)
    (hoff1 : 1 ≤ off) (hoff2 : off ≤ 65535) (hoffp : off ≤ i)
    (hlen4 : MIN_MATCH_SIZE ≤ len) (hbound : i + len ≤ W.length)
    (hcontent : ∀ j, j < len → W.getD (i - off + j) 0 = W.getD (i + j) 0) :
    expandMatchSection cap
      ((tl <<< 4) |||
        (if len - MIN_MATCH_SIZE ≥ MATCH_RUN_LEN then MATCH_RUN_LEN
         else len - MIN_MATCH_SIZE))
      ((off % 256) :: (off / 256) ::
        (lz4ultra_write_match_varlen (len - MIN_MATCH_SIZE) ++ B'))
      (W.take i) =
    some (W.take (i + len), B') := by
  have htm : (if len - MIN_MATCH_SIZE ≥ MATCH_RUN_LEN then MATCH_RUN_LEN
      else len - MIN_MATCH_SIZE) < 16 := by
    simp only [MATCH_RUN_LEN]
    split <;> omega
  obtain ⟨-, hsp2, -⟩ := token_split tl htl _ htm
  have houtlen : (W.take i).length = i := by
    rw [List.length_take]
    omega
  have hmoff : ((off % 256) : Nat) ||| ((off / 256) <<< 8) = off :=
    byte_recompose off (by omega)
  have hcopy : matchCopy (W.take i) off len = W.take (i + len) :=
    matchCopy_take W off hoff1 len i hoffp hbound hcontent
  rw [expandMatchSection]
  rw [if_pos (by simp)]
  simp only [List.getD_cons_zero, List.getD_cons_succ]
  rw [hmoff, hsp2]
  simp only [List.drop_succ_cons, List.drop_zero]
  by_cases henc : len - MIN_MATCH_SIZE ≥ MATCH_RUN_LEN
  · rw [if_pos henc]
    rw [lz4ultra_write_match_varlen, if_pos henc]
    rw [if_neg (by simp)]
    rw [if_pos rfl]
    rw [buildLenN_varlen B' (len - MIN_MATCH_SIZE - MATCH_RUN_LEN)
      (MATCH_RUN_LEN + MIN_MATCH_SIZE)]
    simp only [show MATCH_RUN_LEN + MIN_MATCH_SIZE +
        (len - MIN_MATCH_SIZE - MATCH_RUN_LEN) = len from by
      simp only [MATCH_RUN_LEN, MIN_MATCH_SIZE] at henc ⊢
      omega]
    rw [if_neg (by rw [houtlen]; omega)]
    rw [if_neg (by rw [houtlen]; omega)]
    rw [hcopy, List.drop_left]
  · rw [if_neg henc]
    rw [lz4ultra_write_match_varlen, if_neg henc]
    rw [List.nil_append]
    simp only [show len - MIN_MATCH_SIZE + MIN_MATCH_SIZE = len from by
      simp only [MIN_MATCH_SIZE] at hlen4 ⊢
      omega]
    by_cases hfm : ¬ len = MATCH_RUN_LEN + MIN_MATCH_SIZE ∧ off ≥ 8 ∧
        (W.take i).length ≤ cap - 18
    · rw [if_pos hfm]
      rw [if_neg (by rw [houtlen]; omega)]
      rw [hcopy]
    · rw [if_neg hfm]
      rw [if_neg (by
        simp only [MATCH_RUN_LEN, MIN_MATCH_SIZE] at henc ⊢
        omega)]
      dsimp only
      rw [if_neg (by rw [houtlen]; omega)]
      rw [if_neg (by rw [houtlen]; omega)]
      rw [hcopy, List.drop_zero]

end LZ4Ultra

namespace LZ4Ultra

theorem expandLoop_nil (cap : Nat) (out : List Nat) :
    expandLoop cap [] out = some out := by
  rw [expandLoop]

theorem expandLoop_cons (cap token : Nat) (rest out : List Nat) :
    expandLoop cap (token :: rest) out =
      match expandStep cap token rest out with
      | none => none
      | some (out1, rest1) => expandLoop cap rest1 out1 := by
  rw [expandLoop]
  split <;> rename_i h <;> rw [h]

/-- Decoding the bytes the emitter appends from any mid-block state
reconstructs the remainder of the window: the decoded buffer grows from
`W.take (i - numLit)` (everything before the pending literals) to all of
`W`. -/
theorem writeBlock_expand (W : List Nat) (cap maxOut : Nat)
    (hcap : W.length ≤ cap) :
    ∀ d i numLit firstLit outLen m bytes nc,
      W.length - i ≤ d →
      WalkOK W W.length m i → numLit ≤ i → i ≤ W.length →
      (numLit ≠ 0 → firstLit = i - numLit) →
      writeBlockGo W W.length maxOut false i numLit firstLit outLen m =
        some (bytes, nc) →
      expandLoop cap bytes (W.take (i - numLit)) = some W := by
  intro d
  induction d with
  | zero =>
    intro i numLit firstLit outLen m bytes nc hd hw hnl hiw hfl hemit
    have hie : ¬ i < W.length := by omega
    rw [writeBlockGo, dif_neg hie] at hemit
    dsimp only at hemit
    simp only [Bool.false_eq_true, false_and, if_false] at hemit
    split at hemit
    · exact absurd hemit (by simp)
    · simp only [Option.some.injEq, Prod.mk.injEq] at hemit
      obtain ⟨hbytes, -⟩ := hemit
      have hieq : i = W.length := by omega
      have hslfl : listSlice W firstLit numLit =
          listSlice W (i - numLit) numLit := by
        by_cases h0 : numLit = 0
        · rw [h0, listSlice, listSlice, List.take_zero, List.take_zero]
        · rw [hfl h0]
      rw [← hbytes, finalCmdBytes]
      rw [hslfl]
      simp only [Bool.false_eq_true, if_false, List.append_nil]
      rw [expandLoop_cons]
      have hlits := expandLits_emitted cap W i numLit 0 (by omega) []
        hcap hnl hiw
      rw [List.append_nil] at hlits
      rw [show (if numLit ≥ LITERALS_RUN_LEN then LITERALS_RUN_LEN
          else numLit) <<< 4 =
        ((if numLit ≥ LITERALS_RUN_LEN then LITERALS_RUN_LEN
          else numLit) <<< 4) ||| 0 from (Nat.or_zero _).symm]
      rw [expandStep, hlits]
      dsimp only
      rw [expandMatchSection, if_neg (by simp)]
      dsimp only
      rw [expandLoop_nil, hieq, List.take_length]
  | succ d ihd =>
    intro i numLit firstLit outLen m bytes nc hd hw hnl hiw hfl hemit
    by_cases hlt : i < W.length
    · by_cases hmt : (m i).length ≥ MIN_MATCH_SIZE
      · -- match command
        obtain ⟨⟨hbound, hmo⟩, hw2⟩ := (WalkOK_match hlt hmt).mp hw
        obtain ⟨ho1, ho2, ho3, ho4⟩ := hmo
        rw [writeBlockGo, dif_pos hlt, dif_pos hmt] at hemit
        dsimp only at hemit
        split at hemit
        · exact absurd hemit (by simp)
        · split at hemit
          · exact absurd hemit (by simp)
          · rw [Option.map_eq_some'] at hemit
            obtain ⟨⟨B', nc'⟩, hrec, heq2⟩ := hemit
            simp only [Prod.mk.injEq] at heq2
            obtain ⟨hbytes, -⟩ := heq2
            have hih := ihd (i + (m i).length) 0 firstLit
              (outLen + (matchCmdBytes W numLit firstLit ((m i).offset)
                ((m i).length - MIN_MATCH_SIZE)).length)
              m B' nc'
              (by simp only [MIN_MATCH_SIZE] at hmt; omega)
              hw2 (by omega)
              (by simp only [LAST_LITERALS] at hbound; omega)
              (by intro h; exact absurd rfl h)
              hrec
            rw [Nat.sub_zero] at hih
            have hslfl : listSlice W firstLit numLit =
                listSlice W (i - numLit) numLit := by
              by_cases h0 : numLit = 0
              · rw [h0, listSlice, listSlice, List.take_zero, List.take_zero]
              · rw [hfl h0]
            rw [← hbytes, matchCmdBytes]
            rw [hslfl]
            simp only [List.cons_append, List.append_assoc, List.nil_append]
            rw [expandLoop_cons]
            have hlits := expandLits_emitted cap W i numLit
              (if (m i).length - MIN_MATCH_SIZE ≥ MATCH_RUN_LEN then
                MATCH_RUN_LEN else (m i).length - MIN_MATCH_SIZE)
              (by simp only [MATCH_RUN_LEN]; split <;> omega)
              (((m i).offset % 256) :: ((m i).offset / 256) ::
                (lz4ultra_write_match_varlen ((m i).length - MIN_MATCH_SIZE)
                  ++ B'))
              hcap hnl hiw
            have hmatch := expandMatch_emitted cap W i ((m i).offset)
              ((m i).length)
              (if numLit ≥ LITERALS_RUN_LEN then LITERALS_RUN_LEN else numLit)
              (by simp only [LITERALS_RUN_LEN]; split <;> omega)
              B' hcap
              (by simp only [MIN_OFFSET] at ho1; omega)
              (by simp only [MAX_OFFSET] at ho2; omega)
              ho3 hmt
              (by simp only [LAST_LITERALS] at hbound; omega)
              ho4
            rw [expandStep, hlits]
            dsimp only
            rw [hmatch]
            dsimp only
            exact hih
      · -- literal step: nothing is emitted
        rw [writeBlockGo, dif_pos hlt, dif_neg hmt] at hemit
        have hih := ihd (i + 1) (numLit + 1)
          (if numLit = 0 then i else firstLit) outLen m bytes nc
          (by omega)
          ((WalkOK_lit hlt hmt).mp hw) (by omega) (by omega)
          (by
            intro h
            by_cases h0 : numLit = 0
            · rw [if_pos h0]
              omega
            · rw [if_neg h0, hfl h0]
              omega)
          hemit
        rw [show i + 1 - (numLit + 1) = i - numLit from by omega] at hih
        exact hih
    · -- loop exit: handled exactly as in the base case
      have hd0 : W.length - i ≤ 0 := by omega
      exact ihd i numLit firstLit outLen m bytes nc (by omega) hw hnl hiw hfl
        hemit

end LZ4Ultra

namespace LZ4Ultra

/-- `lz4ultra_optimize_and_write_block`: parser, peephole pass, emitter. -/
def lz4ultra_optimize_and_write_block (favorRatio : Bool) (W : List Nat)
    (startOff endOff maxOut : Nat) (m0 : Nat → LZMatch) :
    Option (List Nat × Nat) :=
  lz4ultra_write_block_lz4 W startOff endOff
    (lz4ultra_optimize_command_count_lz4 W startOff endOff
      ((lz4ultra_optimize_matches_lz4 favorRatio startOff endOff m0).m))
    maxOut false

/-- The frame writer's per-block choice in `lz4ultra_compress_stream`: a
compressed block, or — when the block is uncompressible — the input bytes
verbatim behind an uncompressed-block header. -/
def lz4ultra_frame_block (res : Option (List Nat × Nat))
    (payload : List Nat) : Bool × List Nat :=
  match res with
  | some (b, _) => (true, b)
  | none => (false, payload)

/-- The frame reader's per-block action in `lz4ultra_decompress_stream`:
expand a compressed block, copy an uncompressed block verbatim. -/
def lz4ultra_read_frame_block (compressed : Bool) (blockBytes prev : List Nat)
    (nBlockMaxSize : Nat) : Option (List Nat) :=
  if compressed then
    lz4ultra_decompressor_expand_block_lz4 blockBytes prev nBlockMaxSize
  else
    some blockBytes

/-- The final match array the emitter sees is walk-valid. -/
theorem pipeline_WalkOK (favorRatio : Bool) (W : List Nat) (startOff : Nat)
    (m0 : Nat → LZMatch) (hva : ValidArr W startOff W.length m0)
    (hs : startOff ≤ W.length) :
    WalkOK W W.length
      (lz4ultra_optimize_command_count_lz4 W startOff W.length
        ((lz4ultra_optimize_matches_lz4 favorRatio startOff W.length m0).m))
      startOff := by
  obtain ⟨-, h2, -⟩ := peepholeGo_preserves W W.length
    (muPeep W.length startOff
      (((lz4ultra_optimize_matches_lz4 favorRatio startOff W.length m0).m
        startOff).length))
    startOff 0
    ((lz4ultra_optimize_matches_lz4 favorRatio startOff W.length m0).m)
    (le_refl _)
    (parser_WalkOK favorRatio W startOff W.length m0 hva startOff (le_refl _))
    (parser_ZeroOrMatch favorRatio W startOff W.length m0 hva)
  exact h2

/-- C1: round-trip.  Over any window whose match array satisfies the
finder's contract, decoding the block emitted by the
parser-peephole-emitter pipeline — or, when the pipeline reports the data
uncompressible, reading back the verbatim block the frame layer stores —
reconstructs exactly the input bytes `W[startOff..)`.  (The sources for
the match finder itself are not in the repository; its output contract
`ValidArr` is the spec-modelled interface.) -/
theorem C1_block_roundtrip (favorRatio : Bool) (W : List Nat)
    (startOff maxOut bmax : Nat) (m0 : Nat → LZMatch)
    (hva : ValidArr W startOff W.length m0)
    (hs : startOff ≤ W.length)
    (hbmax : W.length ≤ startOff + bmax) :
    lz4ultra_read_frame_block
      (lz4ultra_frame_block
        (lz4ultra_optimize_and_write_block favorRatio W startOff W.length
          maxOut m0) (W.drop startOff)).1
      (lz4ultra_frame_block
        (lz4ultra_optimize_and_write_block favorRatio W startOff W.length
          maxOut m0) (W.drop startOff)).2
      (W.take startOff) bmax = some (W.drop startOff) := by
  cases hres : lz4ultra_optimize_and_write_block favorRatio W startOff
      W.length maxOut m0 with
  | none =>
    rw [lz4ultra_frame_block]
    rw [lz4ultra_read_frame_block, if_neg (by simp)]
  | some pr =>
    obtain ⟨bytes, nc⟩ := pr
    rw [lz4ultra_frame_block]
    rw [lz4ultra_read_frame_block, if_pos rfl]
    rw [lz4ultra_decompressor_expand_block_lz4]
    have htl : (W.take startOff).length = startOff := by
      rw [List.length_take]
      omega
    rw [htl]
    rw [lz4ultra_optimize_and_write_block, lz4ultra_write_block_lz4] at hres
    have hexp := writeBlock_expand W (startOff + bmax) maxOut (by omega)
      W.length startOff 0 0 0
      (lz4ultra_optimize_command_count_lz4 W startOff W.length
        ((lz4ultra_optimize_matches_lz4 favorRatio startOff W.length m0).m))
      bytes nc (by omega)
      (pipeline_WalkOK favorRatio W startOff m0 hva hs)
      (by omega) hs (by intro h; exact absurd rfl h)
      hres
    rw [Nat.sub_zero] at hexp
    rw [hexp]
    rw [Option.map_some']

end LZ4Ultra

namespace LZ4Ultra

/-- Round-trip witness window: eight repeated bytes (a real match of length
4 at offset 4 ends 6 bytes before the end) followed by distinct literals. -/
def c1W : List Nat := [7, 7, 7, 7, 7, 7, 7, 7, 9, 8, 6, 5, 4, 3]

/-- Witness match array: one finder match at position 4, literals elsewhere. -/
def c1m0 : Nat → LZMatch := upd (fun _ => ⟨0, 0⟩) 4 ⟨4, 4⟩

theorem C1_block_roundtrip_witness :
    ValidArr c1W 0 c1W.length c1m0 ∧ 0 ≤ c1W.length ∧
    c1W.length ≤ 0 + 14 ∧
    lz4ultra_read_frame_block
      (lz4ultra_frame_block
        (lz4ultra_optimize_and_write_block true c1W 0 c1W.length 100 c1m0)
        (c1W.drop 0)).1
      (lz4ultra_frame_block
        (lz4ultra_optimize_and_write_block true c1W 0 c1W.length 100 c1m0)
        (c1W.drop 0)).2
      (c1W.take 0) 14 = some (c1W.drop 0) :=
  ⟨by decide, by decide, by decide,
    C1_block_roundtrip true c1W 0 100 14 c1m0 (by decide) (by decide)
      (by decide)⟩

end LZ4Ultra

namespace LZ4Ultra

/-- Every match on a valid walk satisfies the emitter's invariants. -/
theorem WalkOK_visited {W : List Nat} {endOff : Nat} {m : Nat → LZMatch} :
    ∀ d i p, endOff - i ≤ d → WalkOK W endOff m i → Visited endOff m i p →
      MIN_MATCH_SIZE ≤ (m p).length →
      MIN_OFFSET ≤ (m p).offset ∧ (m p).offset ≤ MAX_OFFSET ∧
      (m p).offset ≤ p ∧
      (∀ j, j < (m p).length →
        W.getD (p - (m p).offset + j) 0 = W.getD (p + j) 0) ∧
      p + (m p).length + LAST_LITERALS ≤ endOff := by
  intro d
  induction d with
  | zero =>
    intro i p hd hw hv
    rw [Visited, dif_neg (by omega)] at hv
    exact absurd hv (by simp)
  | succ d ihd =>
    intro i p hd hw hv
    by_cases hlt : i < endOff
    · rw [Visited, dif_pos hlt] at hv
      by_cases hm : MIN_MATCH_SIZE ≤ (m i).length
      · obtain ⟨⟨hbound, hmo⟩, hw2⟩ := (WalkOK_match hlt hm).mp hw
        rcases hv with rfl | hv2
        · intro _
          obtain ⟨ho1, ho2, ho3, ho4⟩ := hmo
          exact ⟨ho1, ho2, ho3, ho4, hbound⟩
        · rw [dif_pos hm] at hv2
          exact ihd (i + (m i).length) p
            (by simp only [MIN_MATCH_SIZE] at hm; omega) hw2 hv2
      · rcases hv with rfl | hv2
        · intro habs
          exact absurd habs hm
        · rw [dif_neg hm] at hv2
          exact ihd (i + 1) p (by omega) ((WalkOK_lit hlt hm).mp hw) hv2
    · rw [Visited, dif_neg hlt] at hv
      exact absurd hv (by simp)

/-- The last `LAST_LITERALS` positions of the block are all visited, as
literals. -/
theorem WalkOK_tail_literals {W : List Nat} {endOff : Nat}
    {m : Nat → LZMatch} :
    ∀ d i, endOff - i ≤ d → WalkOK W endOff m i →
      ∀ q, i ≤ q → endOff ≤ q + LAST_LITERALS → q < endOff →
      Visited endOff m i q ∧ (m q).length < MIN_MATCH_SIZE := by
  intro d
  induction d with
  | zero =>
    intro i hd hw q hq1 hq2 hq3
    omega
  | succ d ihd =>
    intro i hd hw q hq1 hq2 hq3
    have hlt : i < endOff := by omega
    by_cases hm : MIN_MATCH_SIZE ≤ (m i).length
    · obtain ⟨⟨hbound, -⟩, hw2⟩ := (WalkOK_match hlt hm).mp hw
      have hiq : i < q := by
        simp only [MIN_MATCH_SIZE] at hm
        simp only [LAST_LITERALS] at hbound hq2
        omega
      have hnext : i + (m i).length ≤ q := by
        simp only [LAST_LITERALS] at hbound hq2
        omega
      obtain ⟨hv, hlit⟩ := ihd (i + (m i).length)
        (by simp only [MIN_MATCH_SIZE] at hm; omega) hw2 q hnext hq2 hq3
      refine ⟨?_, hlit⟩
      rw [Visited, dif_pos hlt, dif_pos hm]
      exact Or.inr hv
    · by_cases hiq : i = q
      · refine ⟨?_, by rw [hiq] at hm; omega⟩
        rw [Visited, dif_pos hlt]
        exact Or.inl hiq
      · obtain ⟨hv, hlit⟩ := ihd (i + 1) (by omega)
          ((WalkOK_lit hlt hm).mp hw) q (by omega) hq2 hq3
        refine ⟨?_, hlit⟩
        rw [Visited, dif_pos hlt, dif_neg hm]
        exact Or.inr hv

end LZ4Ultra

namespace LZ4Ultra

/-- C3: at the moment the emitter runs — after the parser and the peephole
pass — every match record `(l, o)` at a position `p` the emitter's walk
visits satisfies `1 ≤ o ≤ 65535`, `o ≤ p` (so `p - o ≥ 0`),
`W[p-o..p-o+l) = W[p..p+l)` and `4 ≤ l` with the match ending at least
`LAST_LITERALS` bytes before the block end; and the final `LAST_LITERALS`
positions of the block are all visited as literals, so the block's final
command carries only literals. -/
theorem C3_emitted_match_invariants (favorRatio : Bool) (W : List Nat)
    (startOff : Nat) (m0 : Nat → LZMatch)
    (hva : ValidArr W startOff W.length m0) (hs : startOff ≤ W.length) :
    (∀ p, Visited W.length
        (lz4ultra_optimize_command_count_lz4 W startOff W.length
          ((lz4ultra_optimize_matches_lz4 favorRatio startOff W.length m0).m))
        startOff p →
      MIN_MATCH_SIZE ≤
        ((lz4ultra_optimize_command_count_lz4 W startOff W.length
          ((lz4ultra_optimize_matches_lz4 favorRatio startOff W.length m0).m))
          p).length →
      1 ≤ ((lz4ultra_optimize_command_count_lz4 W startOff W.length
          ((lz4ultra_optimize_matches_lz4 favorRatio startOff W.length m0).m))
          p).offset ∧
      ((lz4ultra_optimize_command_count_lz4 W startOff W.length
          ((lz4ultra_optimize_matches_lz4 favorRatio startOff W.length m0).m))
          p).offset ≤ 65535 ∧
      ((lz4ultra_optimize_command_count_lz4 W startOff W.length
          ((lz4ultra_optimize_matches_lz4 favorRatio startOff W.length m0).m))
          p).offset ≤ p ∧
      (∀ j, j < ((lz4ultra_optimize_command_count_lz4 W startOff W.length
          ((lz4ultra_optimize_matches_lz4 favorRatio startOff W.length m0).m))
          p).length →
        W.getD (p - ((lz4ultra_optimize_command_count_lz4 W startOff W.length
          ((lz4ultra_optimize_matches_lz4 favorRatio startOff W.length m0).m))
          p).offset + j) 0 = W.getD (p + j) 0) ∧
      p + ((lz4ultra_optimize_command_count_lz4 W startOff W.length
          ((lz4ultra_optimize_matches_lz4 favorRatio startOff W.length m0).m))
          p).length + LAST_LITERALS ≤ W.length) ∧
    (∀ q, startOff ≤ q → W.length ≤ q + LAST_LITERALS → q < W.length →
      Visited W.length
        (lz4ultra_optimize_command_count_lz4 W startOff W.length
          ((lz4ultra_optimize_matches_lz4 favorRatio startOff W.length m0).m))
        startOff q ∧
      ((lz4ultra_optimize_command_count_lz4 W startOff W.length
          ((lz4ultra_optimize_matches_lz4 favorRatio startOff W.length m0).m))
          q).length < MIN_MATCH_SIZE) := by
  have hw := pipeline_WalkOK favorRatio W startOff m0 hva hs
  constructor
  · intro p hv hm
    obtain ⟨h1, h2, h3, h4, h5⟩ := WalkOK_visited (W.length - startOff)
      startOff p (le_refl _) hw hv hm
    refine ⟨by simpa [MIN_OFFSET] using h1, by simpa [MAX_OFFSET] using h2,
      h3, h4, h5⟩
  · intro q hq1 hq2 hq3
    exact WalkOK_tail_literals (W.length - startOff) startOff (le_refl _) hw
      q hq1 hq2 hq3

theorem C3_emitted_match_invariants_witness :
    ValidArr c1W 0 c1W.length c1m0 ∧ 0 ≤ c1W.length ∧
    ((∀ p, Visited c1W.length
        (lz4ultra_optimize_command_count_lz4 c1W 0 c1W.length
          ((lz4ultra_optimize_matches_lz4 true 0 c1W.length c1m0).m)) 0 p →
      MIN_MATCH_SIZE ≤
        ((lz4ultra_optimize_command_count_lz4 c1W 0 c1W.length
          ((lz4ultra_optimize_matches_lz4 true 0 c1W.length c1m0).m))
          p).length →
      1 ≤ ((lz4ultra_optimize_command_count_lz4 c1W 0 c1W.length
          ((lz4ultra_optimize_matches_lz4 true 0 c1W.length c1m0).m))
          p).offset ∧
      ((lz4ultra_optimize_command_count_lz4 c1W 0 c1W.length
          ((lz4ultra_optimize_matches_lz4 true 0 c1W.length c1m0).m))
          p).offset ≤ 65535 ∧
      ((lz4ultra_optimize_command_count_lz4 c1W 0 c1W.length
          ((lz4ultra_optimize_matches_lz4 true 0 c1W.length c1m0).m))
          p).offset ≤ p ∧
      (∀ j, j < ((lz4ultra_optimize_command_count_lz4 c1W 0 c1W.length
          ((lz4ultra_optimize_matches_lz4 true 0 c1W.length c1m0).m))
          p).length →
        c1W.getD (p - ((lz4ultra_optimize_command_count_lz4 c1W 0 c1W.length
          ((lz4ultra_optimize_matches_lz4 true 0 c1W.length c1m0).m))
          p).offset + j) 0 = c1W.getD (p + j) 0) ∧
      p + ((lz4ultra_optimize_command_count_lz4 c1W 0 c1W.length
          ((lz4ultra_optimize_matches_lz4 true 0 c1W.length c1m0).m))
          p).length + LAST_LITERALS ≤ c1W.length) ∧
    (∀ q, 0 ≤ q → c1W.length ≤ q + LAST_LITERALS → q < c1W.length →
      Visited c1W.length
        (lz4ultra_optimize_command_count_lz4 c1W 0 c1W.length
          ((lz4ultra_optimize_matches_lz4 true 0 c1W.length c1m0).m)) 0 q ∧
      ((lz4ultra_optimize_command_count_lz4 c1W 0 c1W.length
          ((lz4ultra_optimize_matches_lz4 true 0 c1W.length c1m0).m))
          q).length < MIN_MATCH_SIZE)) :=
  ⟨by decide, by decide,
    C3_emitted_match_invariants true c1W 0 c1m0 (by decide) (by decide)⟩

end LZ4Ultra

namespace LZ4Ultra

/-! ## Emitted size and command count of a parse array -/

/-- Total emitted bits (`nCommandSize` accumulation of
`lz4ultra_write_block_lz4`) from cursor `i` with `numLit` pending
literals. -/
def sizeFrom (endOff : Nat) (m : Nat → LZMatch) (i numLit : Nat) : Nat :=
  if hlt : i < endOff then
    if hm : MIN_MATCH_SIZE ≤ (m i).length then
      8 + lz4ultra_get_literals_varlen_size numLit + (numLit <<< 3) + 16 +
        lz4ultra_get_match_varlen_size ((m i).length - MIN_MATCH_SIZE) +
        sizeFrom endOff m (i + (m i).length) 0
    else
      sizeFrom endOff m (i + 1) (numLit + 1)
  else
    8 + lz4ultra_get_literals_varlen_size numLit + (numLit <<< 3)
termination_by endOff - i
decreasing_by
  · simp only [MIN_MATCH_SIZE] at hm; omega
  · omega

/-- Number of commands (`num_commands` advance) from cursor `i`. -/
def countFrom (endOff : Nat) (m : Nat → LZMatch) (i : Nat) : Nat :=
  if hlt : i < endOff then
    if hm : MIN_MATCH_SIZE ≤ (m i).length then
      1 + countFrom endOff m (i + (m i).length)
    else
      countFrom endOff m (i + 1)
  else
    1
termination_by endOff - i
decreasing_by
  · simp only [MIN_MATCH_SIZE] at hm; omega
  · omega

theorem sizeFrom_end {endOff : Nat} {m : Nat → LZMatch} {i : Nat}
    (h : ¬ i < endOff) (numLit : Nat) :
    sizeFrom endOff m i numLit =
      8 + lz4ultra_get_literals_varlen_size numLit + (numLit <<< 3) := by
  rw [sizeFrom, dif_neg h]

theorem sizeFrom_match {endOff : Nat} {m : Nat → LZMatch} {i : Nat}
    (hlt : i < endOff) (hm : MIN_MATCH_SIZE ≤ (m i).length) (numLit : Nat) :
    sizeFrom endOff m i numLit =
      8 + lz4ultra_get_literals_varlen_size numLit + (numLit <<< 3) + 16 +
        lz4ultra_get_match_varlen_size ((m i).length - MIN_MATCH_SIZE) +
        sizeFrom endOff m (i + (m i).length) 0 := by
  rw [sizeFrom, dif_pos hlt, dif_pos hm]

theorem sizeFrom_lit {endOff : Nat} {m : Nat → LZMatch} {i : Nat}
    (hlt : i < endOff) (hm : ¬ MIN_MATCH_SIZE ≤ (m i).length) (numLit : Nat) :
    sizeFrom endOff m i numLit = sizeFrom endOff m (i + 1) (numLit + 1) := by
  rw [sizeFrom, dif_pos hlt, dif_neg hm]

theorem countFrom_end {endOff : Nat} {m : Nat → LZMatch} {i : Nat}
    (h : ¬ i < endOff) : countFrom endOff m i = 1 := by
  rw [countFrom, dif_neg h]

theorem countFrom_match {endOff : Nat} {m : Nat → LZMatch} {i : Nat}
    (hlt : i < endOff) (hm : MIN_MATCH_SIZE ≤ (m i).length) :
    countFrom endOff m i = 1 + countFrom endOff m (i + (m i).length) := by
  rw [countFrom, dif_pos hlt, dif_pos hm]

theorem countFrom_lit {endOff : Nat} {m : Nat → LZMatch} {i : Nat}
    (hlt : i < endOff) (hm : ¬ MIN_MATCH_SIZE ≤ (m i).length) :
    countFrom endOff m i = countFrom endOff m (i + 1) := by
  rw [countFrom, dif_pos hlt, dif_neg hm]

/-- `sizeFrom` and `countFrom` only read the slots from the cursor on. -/
theorem sizeFrom_congr {endOff : Nat} {m1 m2 : Nat → LZMatch} :
    ∀ d i, endOff - i ≤ d → (∀ p, i ≤ p → p < endOff → m1 p = m2 p) →
      ∀ numLit, sizeFrom endOff m1 i numLit = sizeFrom endOff m2 i numLit := by
  intro d
  induction d with
  | zero =>
    intro i hd hagree numLit
    rw [sizeFrom_end (by omega), sizeFrom_end (by omega)]
  | succ d ihd =>
    intro i hd hagree numLit
    by_cases hlt : i < endOff
    · have hei : m1 i = m2 i := hagree i (le_refl _) hlt
      by_cases hm : MIN_MATCH_SIZE ≤ (m1 i).length
      · rw [sizeFrom_match hlt hm, sizeFrom_match hlt (by rw [← hei]; exact hm)]
        rw [← hei]
        rw [ihd (i + (m1 i).length)
          (by simp only [MIN_MATCH_SIZE] at hm; omega)
          (fun p hp1 hp2 => hagree p (by omega) hp2)]
      · rw [sizeFrom_lit hlt hm, sizeFrom_lit hlt (by rw [← hei]; exact hm)]
        exact ihd (i + 1) (by omega)
          (fun p hp1 hp2 => hagree p (by omega) hp2) (numLit + 1)
    · rw [sizeFrom_end hlt, sizeFrom_end hlt]

theorem countFrom_congr {endOff : Nat} {m1 m2 : Nat → LZMatch} :
    ∀ d i, endOff - i ≤ d → (∀ p, i ≤ p → p < endOff → m1 p = m2 p) →
      countFrom endOff m1 i = countFrom endOff m2 i := by
  intro d
  induction d with
  | zero =>
    intro i hd hagree
    rw [countFrom_end (by omega), countFrom_end (by omega)]
  | succ d ihd =>
    intro i hd hagree
    by_cases hlt : i < endOff
    · have hei : m1 i = m2 i := hagree i (le_refl _) hlt
      by_cases hm : MIN_MATCH_SIZE ≤ (m1 i).length
      · rw [countFrom_match hlt hm,
          countFrom_match hlt (by rw [← hei]; exact hm)]
        rw [← hei]
        rw [ihd (i + (m1 i).length)
          (by simp only [MIN_MATCH_SIZE] at hm; omega)
          (fun p hp1 hp2 => hagree p (by omega) hp2)]
      · rw [countFrom_lit hlt hm, countFrom_lit hlt (by rw [← hei]; exact hm)]
        exact ihd (i + 1) (by omega)
          (fun p hp1 hp2 => hagree p (by omega) hp2)
    · rw [countFrom_end hlt, countFrom_end hlt]

/-- Walking a span of literal slots just accumulates pending literals. -/
theorem sizeFrom_litSpan {endOff : Nat} {m : Nat → LZMatch} :
    ∀ d i j, j - i ≤ d → i ≤ j → j ≤ endOff →
      (∀ q, i ≤ q → q < j → ¬ MIN_MATCH_SIZE ≤ (m q).length) →
      ∀ numLit, sizeFrom endOff m i numLit =
        sizeFrom endOff m j (numLit + (j - i)) := by
  intro d
  induction d with
  | zero =>
    intro i j hd hij _ _ numLit
    have : i = j := by omega
    subst this
    rw [Nat.sub_self, Nat.add_zero]
  | succ d ihd =>
    intro i j hd hij hje hlits numLit
    by_cases hij2 : i = j
    · subst hij2
      rw [Nat.sub_self, Nat.add_zero]
    · rw [sizeFrom_lit (by omega) (hlits i (le_refl _) (by omega))]
      rw [ihd (i + 1) j (by omega) (by omega) hje
        (fun q hq1 hq2 => hlits q (by omega) hq2)]
      rw [show numLit + 1 + (j - (i + 1)) = numLit + (j - i) from by omega]

theorem countFrom_litSpan {endOff : Nat} {m : Nat → LZMatch} :
    ∀ d i j, j - i ≤ d → i ≤ j → j ≤ endOff →
      (∀ q, i ≤ q → q < j → ¬ MIN_MATCH_SIZE ≤ (m q).length) →
      countFrom endOff m i = countFrom endOff m j := by
  intro d
  induction d with
  | zero =>
    intro i j hd hij _ _
    have : i = j := by omega
    subst this
    rfl
  | succ d ihd =>
    intro i j hd hij hje hlits
    by_cases hij2 : i = j
    · subst hij2
      rfl
    · rw [countFrom_lit (by omega) (hlits i (le_refl _) (by omega))]
      exact ihd (i + 1) j (by omega) (by omega) hje
        (fun q hq1 hq2 => hlits q (by omega) hq2)

end LZ4Ultra

namespace LZ4Ultra

theorem claimRunF_congr {m : Nat → LZMatch} {endOff : Nat} :
    ∀ f1 f2 p, endOff - p ≤ f1 → endOff - p ≤ f2 →
      claimRunF m endOff f1 p = claimRunF m endOff f2 p := by
  intro f1
  induction f1 with
  | zero =>
    intro f2 p h1 h2
    cases f2 with
    | zero => rfl
    | succ f2 =>
      rw [claimRunF, claimRunF, if_neg (by omega)]
  | succ f1 ih =>
    intro f2 p h1 h2
    cases f2 with
    | zero =>
      rw [claimRunF, claimRunF, if_neg (by omega)]
    | succ f2 =>
      rw [claimRunF, claimRunF]
      by_cases hc : p < endOff ∧ (m p).length < MIN_MATCH_SIZE
      · rw [if_pos hc, if_pos hc, ih f2 (p + 1) (by omega) (by omega)]
      · rw [if_neg hc, if_neg hc]

theorem claimRunF_stop {m : Nat → LZMatch} {endOff : Nat} {p : Nat}
    (h : ¬ (p < endOff ∧ (m p).length < MIN_MATCH_SIZE)) (f : Nat) :
    claimRunF m endOff f p = 0 := by
  cases f with
  | zero => rfl
  | succ f => rw [claimRunF, if_neg h]

theorem claimRunF_lit {m : Nat → LZMatch} {endOff : Nat} {p : Nat}
    (h1 : p < endOff) (h2 : (m p).length < MIN_MATCH_SIZE) :
    claimRunF m endOff (endOff - p) p =
      1 + claimRunF m endOff (endOff - (p + 1)) (p + 1) := by
  rw [show endOff - p = (endOff - (p + 1)) + 1 from by omega]
  rw [claimRunF, if_pos ⟨h1, h2⟩]

/-- Size decomposition at the head of a literal run: for some base `B`, the
size from `j` with `r` pending literals is
`8·r + literal-varlen(r + run) + B`. -/
theorem sizeFrom_decomp {endOff : Nat} {m : Nat → LZMatch} :
    ∀ d j, endOff - j ≤ d →
      ∃ B, ∀ r, sizeFrom endOff m j r =
        8 * r + lz4ultra_get_literals_varlen_size
          (r + claimRunF m endOff (endOff - j) j) + B := by
  intro d
  induction d with
  | zero =>
    intro j hd
    refine ⟨8, fun r => ?_⟩
    rw [sizeFrom_end (by omega),
      claimRunF_stop (by omega) _, Nat.add_zero, Nat.shiftLeft_eq]
    ring
  | succ d ihd =>
    intro j hd
    by_cases hlt : j < endOff
    · by_cases hm : MIN_MATCH_SIZE ≤ (m j).length
      · refine ⟨16 + 8 +
          lz4ultra_get_match_varlen_size ((m j).length - MIN_MATCH_SIZE) +
          sizeFrom endOff m (j + (m j).length) 0, fun r => ?_⟩
        rw [sizeFrom_match hlt hm,
          claimRunF_stop (by simp only [MIN_MATCH_SIZE] at hm ⊢; omega) _,
          Nat.add_zero, Nat.shiftLeft_eq]
        ring
      · obtain ⟨B, hB⟩ := ihd (j + 1) (by omega)
        refine ⟨B + 8, fun r => ?_⟩
        rw [sizeFrom_lit hlt hm, hB (r + 1),
          claimRunF_lit hlt (by omega)]
        rw [show r + 1 + claimRunF m endOff (endOff - (j + 1)) (j + 1) =
          r + (1 + claimRunF m endOff (endOff - (j + 1)) (j + 1)) from by omega]
        ring
    · refine ⟨8, fun r => ?_⟩
      rw [sizeFrom_end hlt, claimRunF_stop (by omega) _, Nat.add_zero,
        Nat.shiftLeft_eq]
      ring

/-- The varlen cost is superadditive up to one extra byte — fusing two
matches can add at most 8 bits of varlen, well below the 24 bits of the
removed command. -/
theorem match_varlen_superadd {l1 l2 : Nat} (h1 : MIN_MATCH_SIZE ≤ l1)
    (h2 : MIN_MATCH_SIZE ≤ l2) :
    lz4ultra_get_match_varlen_size (l1 + l2 - MIN_MATCH_SIZE) ≤
      8 + lz4ultra_get_literals_varlen_size 0 + 16 +
      lz4ultra_get_match_varlen_size (l1 - MIN_MATCH_SIZE) +
      lz4ultra_get_match_varlen_size (l2 - MIN_MATCH_SIZE) := by
  simp only [lz4ultra_get_match_varlen_size, lz4ultra_get_literals_varlen_size,
    MIN_MATCH_SIZE, MATCH_RUN_LEN, LITERALS_RUN_LEN] at h1 h2 ⊢
  omega

end LZ4Ultra

namespace LZ4Ultra

theorem lit_varlen_bits (n : Nat) :
    8 * (lz4ultra_write_literals_varlen n).length =
      lz4ultra_get_literals_varlen_size n := by
  by_cases h : n ≥ LITERALS_RUN_LEN
  · rw [write_literals_varlen_length n (by simpa [LITERALS_RUN_LEN] using h)]
    simp only [lz4ultra_get_literals_varlen_size, LITERALS_RUN_LEN] at h ⊢
    omega
  · rw [lz4ultra_write_literals_varlen, if_neg h]
    simp only [lz4ultra_get_literals_varlen_size, LITERALS_RUN_LEN,
      List.length_nil] at h ⊢
    omega

theorem match_varlen_bits (n : Nat) :
    8 * (lz4ultra_write_match_varlen n).length =
      lz4ultra_get_match_varlen_size n := by
  by_cases h : n ≥ MATCH_RUN_LEN
  · rw [write_match_varlen_length n (by simpa [MATCH_RUN_LEN] using h)]
    simp only [lz4ultra_get_match_varlen_size, MATCH_RUN_LEN] at h ⊢
    omega
  · rw [lz4ultra_write_match_varlen, if_neg h]
    simp only [lz4ultra_get_match_varlen_size, MATCH_RUN_LEN,
      List.length_nil] at h ⊢
    omega

theorem matchCmdBytes_length (W : List Nat) (numLit firstLit off enc : Nat)
    (hsl : (listSlice W firstLit numLit).length = numLit) :
    8 * (matchCmdBytes W numLit firstLit off enc).length =
      8 + lz4ultra_get_literals_varlen_size numLit + (numLit <<< 3) + 16 +
        lz4ultra_get_match_varlen_size enc := by
  have hv1 := lit_varlen_bits numLit
  have hv2 := match_varlen_bits enc
  rw [matchCmdBytes]
  simp only [List.length_cons, List.length_append, hsl, Nat.shiftLeft_eq]
  simp only [List.length_cons, List.length_nil]
  omega

theorem finalCmdBytes_length (W : List Nat) (numLit firstLit : Nat)
    (hsl : (listSlice W firstLit numLit).length = numLit) :
    8 * (finalCmdBytes W false numLit firstLit).length =
      8 + lz4ultra_get_literals_varlen_size numLit + (numLit <<< 3) := by
  have hv1 := lit_varlen_bits numLit
  rw [finalCmdBytes]
  simp only [Bool.false_eq_true, if_false, List.append_nil, List.length_cons,
    List.length_append, hsl, Nat.shiftLeft_eq]
  omega

/-- The emitter's output length and command count equal `sizeFrom` (in
bits) and `countFrom`. -/
theorem writeBlockGo_size (W : List Nat) (maxOut : Nat) :
    ∀ d i numLit firstLit outLen m bytes nc,
      W.length - i ≤ d → numLit ≤ i → (numLit ≠ 0 → i ≤ W.length) →
      (numLit ≠ 0 → firstLit = i - numLit) →
      writeBlockGo W W.length maxOut false i numLit firstLit outLen m =
        some (bytes, nc) →
      8 * bytes.length = sizeFrom W.length m i numLit ∧
      nc = countFrom W.length m i := by
  intro d
  induction d with
  | zero =>
    intro i numLit firstLit outLen m bytes nc hd hnl hiw hfl hemit
    have hie : ¬ i < W.length := by omega
    rw [writeBlockGo, dif_neg hie] at hemit
    dsimp only at hemit
    simp only [Bool.false_eq_true, false_and, if_false] at hemit
    split at hemit
    · exact absurd hemit (by simp)
    · simp only [Option.some.injEq, Prod.mk.injEq] at hemit
      obtain ⟨hbytes, hnc⟩ := hemit
      have hsl : (listSlice W firstLit numLit).length = numLit := by
        by_cases h0 : numLit = 0
        · rw [h0, listSlice, List.take_zero, List.length_nil]
        · have := hiw h0
          rw [hfl h0, listSlice, List.length_take, List.length_drop]
          omega
      rw [← hbytes, ← hnc, sizeFrom_end hie, countFrom_end hie]
      exact ⟨finalCmdBytes_length W numLit firstLit hsl, rfl⟩
  | succ d ihd =>
    intro i numLit firstLit outLen m bytes nc hd hnl hiw hfl hemit
    by_cases hlt : i < W.length
    · by_cases hmt : (m i).length ≥ MIN_MATCH_SIZE
      · rw [writeBlockGo, dif_pos hlt, dif_pos hmt] at hemit
        dsimp only at hemit
        split at hemit
        · exact absurd hemit (by simp)
        · split at hemit
          · exact absurd hemit (by simp)
          · rw [Option.map_eq_some'] at hemit
            obtain ⟨⟨B', nc'⟩, hrec, heq2⟩ := hemit
            simp only [Prod.mk.injEq] at heq2
            obtain ⟨hbytes, hnc⟩ := heq2
            rename_i hoffok
            obtain ⟨hih1, hih2⟩ := ihd (i + (m i).length) 0 firstLit
              (outLen + (matchCmdBytes W numLit firstLit ((m i).offset)
                ((m i).length - MIN_MATCH_SIZE)).length)
              m B' nc'
              (by simp only [MIN_MATCH_SIZE] at hmt; omega)
              (by omega) (by intro h; exact absurd rfl h)
              (by intro h; exact absurd rfl h) hrec
            have hsl : (listSlice W firstLit numLit).length = numLit := by
              by_cases h0 : numLit = 0
              · rw [h0, listSlice, List.take_zero, List.length_nil]
              · have := hiw h0
                rw [hfl h0, listSlice, List.length_take, List.length_drop]
                omega
            rw [← hbytes, ← hnc, sizeFrom_match hlt hmt,
              countFrom_match hlt hmt]
            constructor
            · rw [List.length_append, Nat.mul_add, hih1,
                matchCmdBytes_length W numLit firstLit _ _ hsl]
            · omega
      · rw [writeBlockGo, dif_pos hlt, dif_neg hmt] at hemit
        obtain ⟨hih1, hih2⟩ := ihd (i + 1) (numLit + 1)
          (if numLit = 0 then i else firstLit) outLen m bytes nc
          (by omega) (by omega) (by intro _; omega)
          (by
            intro h
            by_cases h0 : numLit = 0
            · rw [if_pos h0]
              omega
            · rw [if_neg h0, hfl h0]
              omega)
          hemit
        rw [sizeFrom_lit hlt hmt, countFrom_lit hlt hmt]
        exact ⟨hih1, hih2⟩
    · exact ihd i numLit firstLit outLen m bytes nc (by omega) hnl hiw hfl
        hemit

end LZ4Ultra

namespace LZ4Ultra

theorem shl3 (x : Nat) : x <<< 3 = 8 * x := by
  rw [Nat.shiftLeft_eq, show (2 : Nat) ^ 3 = 8 from rfl, Nat.mul_comm]

theorem litv_zero : lz4ultra_get_literals_varlen_size 0 = 0 := rfl

/-- The conditions under which the peephole pass demotes a match. -/
theorem reduceTest_spec {m : Nat → LZMatch} {endOff i numLit len : Nat}
    (h : reduceTest m endOff i numLit len = true) :
    len ≤ 19 ∧ i + len < endOff ∧
    ((MIN_MATCH_SIZE ≤ (m (i + len)).length ∧
      8 + lz4ultra_get_literals_varlen_size numLit + 16 +
        lz4ultra_get_match_varlen_size (len - MIN_MATCH_SIZE) ≥
      (len <<< 3) + lz4ultra_get_literals_varlen_size (numLit + len)) ∨
     (¬ MIN_MATCH_SIZE ≤ (m (i + len)).length ∧
      8 + lz4ultra_get_literals_varlen_size numLit + 16 +
        lz4ultra_get_match_varlen_size (len - MIN_MATCH_SIZE) ≥
      (len <<< 3) + lz4ultra_get_literals_varlen_size
        (numLit + (1 + claimRunF m endOff (endOff - (i + len + 1))
          (i + len + 1)) + len) -
      lz4ultra_get_literals_varlen_size
        (1 + claimRunF m endOff (endOff - (i + len + 1)) (i + len + 1)))) := by
  rw [reduceTest] at h
  split at h
  · rename_i hcond
    refine ⟨hcond.1, hcond.2, ?_⟩
    split at h
    · rename_i hm2
      simp only [decide_eq_true_eq] at h
      exact Or.inl ⟨hm2, h⟩
    · rename_i hm2
      simp only [decide_eq_true_eq] at h
      exact Or.inr ⟨hm2, h⟩
  · exact absurd h (by simp)

end LZ4Ultra

namespace LZ4Ultra

/-- Fusing two adjacent matches that pass the join guard preserves
walk-validity and the no-short-lengths invariant. -/
theorem fuseAt_walk {W : List Nat} {endOff : Nat} {m : Nat → LZMatch}
    {i : Nat} (hlt : i < endOff) (hmt : (m i).length ≥ MIN_MATCH_SIZE)
    (hfuse : fuseTest W m endOff i ((m i).length))
    (hw : WalkOK W endOff m i) (hz : ZeroOrMatch m endOff i) :
    WalkOK W endOff (fuseAt m i ((m i).length)) i ∧
    ZeroOrMatch (fuseAt m i ((m i).length)) endOff i := by
  obtain ⟨⟨hbound, hmo⟩, hw2⟩ := (WalkOK_match hlt hmt).mp hw
  have hfuse2 := hfuse
  rw [fuseTest] at hfuse2
  obtain ⟨hf1, hf2, hf3, hf4, hf5, hf6, hf7, hf8, hf9, hf10, hf11⟩ := hfuse2
  have h42 : MIN_MATCH_SIZE ≤ (m (i + (m i).length)).length := by
    rcases hz (i + (m i).length) (by omega) hf1 with h0 | h4
    · omega
    · exact h4
  obtain ⟨⟨hbound2, hmo2⟩, hw3⟩ := (WalkOK_match hf1 h42).mp hw2
  have hm'i : fuseAt m i ((m i).length) i =
      ⟨(m i).length + (m (i + (m i).length)).length, (m i).offset⟩ :=
    fuseAt_self m i ((m i).length)
  obtain ⟨ho1, ho2, ho3, ho4⟩ := hmo
  obtain ⟨po1, po2, po3, po4⟩ := hmo2
  constructor
  · rw [WalkOK_match hlt (by
      rw [hm'i]
      simp only [MIN_MATCH_SIZE] at hmt ⊢
      omega)]
    rw [hm'i]
    refine ⟨⟨?_, ?_⟩, ?_⟩
    · simp only [LAST_LITERALS] at hbound2 ⊢
      omega
    · refine ⟨ho1, ho2, by
        simp only at ho3 ⊢
        omega, ?_⟩
      intro j hj
      simp only at hj ⊢
      by_cases hjl : j < (m i).length
      · exact ho4 j hjl
      · have hj2 : j - (m i).length < (m (i + (m i).length)).length := by
          omega
        have e1 := hf11 (j - (m i).length) hj2
        have e2 := po4 (j - (m i).length) hj2
        rw [show i - (m i).offset + j =
            i + (m i).length - (m i).offset + (j - (m i).length) from by
          omega]
        rw [show i + j = i + (m i).length + (j - (m i).length) from by
          omega]
        rw [e1]
        exact e2
    · rw [show i + ((m i).length + (m (i + (m i).length)).length) =
          i + (m i).length + (m (i + (m i).length)).length from by omega]
      refine WalkOK_congr _ ?_ hw3
      intro p hp1 hp2
      rw [fuseAt_other m (by omega) (by
        simp only [MIN_MATCH_SIZE] at h42
        omega)]
  · intro p hp1 hp2
    by_cases hpi : p = i
    · rw [hpi, hm'i]
      right
      simp only [MIN_MATCH_SIZE] at hmt ⊢
      omega
    · by_cases hps : p = i + (m i).length
      · rw [hps, fuseAt_sent m (by omega)]
        right
        simp only [SENTINEL_LEN, MIN_MATCH_SIZE]
        omega
      · rw [fuseAt_other m hpi hps]
        exact hz p hp1 hp2

/-- The peephole pass never increases the emitted size (in bits) nor the
command count, from any cursor state. -/
theorem peepholeGo_size (W : List Nat) (endOff : Nat) :
    ∀ N, ∀ i numLit m,
      muPeep endOff i ((m i).length) ≤ N →
      WalkOK W endOff m i → ZeroOrMatch m endOff i →
      sizeFrom endOff (peepholeGo W endOff i numLit m) i numLit ≤
        sizeFrom endOff m i numLit ∧
      countFrom endOff (peepholeGo W endOff i numLit m) i ≤
        countFrom endOff m i := by
  intro N
  induction N using Nat.strong_induction_on with
  | _ N ihN =>
  intro i numLit m hmu hw hz
  by_cases hlt : i < endOff
  · by_cases hmt : (m i).length ≥ MIN_MATCH_SIZE
    · by_cases hred : reduceTest m endOff i numLit ((m i).length) = true
      · -- demotion
        have heq : peepholeGo W endOff i numLit m =
            peepholeGo W endOff (i + (m i).length) (numLit + (m i).length)
              (zeroRange m i ((m i).length)) := by
          conv_lhs => rw [peepholeGo]
          rw [dif_pos hlt, dif_pos hmt, if_pos hred]
        obtain ⟨hle19, hinb, hAB⟩ := reduceTest_spec hred
        obtain ⟨-, hw2⟩ := (WalkOK_match hlt hmt).mp hw
        have hwz : WalkOK W endOff (zeroRange m i ((m i).length))
            (i + (m i).length) :=
          WalkOK_congr _ (fun p hp1 _ => (zeroRange_hi hp1).symm) hw2
        have hzz : ZeroOrMatch (zeroRange m i ((m i).length)) endOff
            (i + (m i).length) := fun p hp1 hp2 => by
          rw [zeroRange_hi hp1]
          exact hz p (by omega) hp2
        have hmuN : muPeep endOff (i + (m i).length)
            ((zeroRange m i ((m i).length) (i + (m i).length)).length) < N :=
          lt_of_lt_of_le
            (muPeep_advance _ _ (by simp only [MIN_MATCH_SIZE] at hmt; omega)
              hlt) hmu
        obtain ⟨ihS, ihC⟩ := ihN _ hmuN (i + (m i).length)
          (numLit + (m i).length) (zeroRange m i ((m i).length)) (le_refl _)
          hwz hzz
        obtain ⟨ih1, -, -⟩ := peepholeGo_preserves W endOff _
          (i + (m i).length) (numLit + (m i).length)
          (zeroRange m i ((m i).length)) (le_refl _) hwz hzz
        rw [heq]
        have hcongrS : sizeFrom endOff (zeroRange m i ((m i).length))
            (i + (m i).length) (numLit + (m i).length) =
            sizeFrom endOff m (i + (m i).length) (numLit + (m i).length) :=
          sizeFrom_congr (endOff - (i + (m i).length)) _ (le_refl _)
            (fun p hp1 _ => zeroRange_hi hp1) _
        have hcongrC : countFrom endOff (zeroRange m i ((m i).length))
            (i + (m i).length) =
            countFrom endOff m (i + (m i).length) :=
          countFrom_congr (endOff - (i + (m i).length)) _ (le_refl _)
            (fun p hp1 _ => zeroRange_hi hp1)
        have hspan : ∀ q, i ≤ q → q < i + (m i).length →
            ¬ MIN_MATCH_SIZE ≤
              ((peepholeGo W endOff (i + (m i).length)
                (numLit + (m i).length) (zeroRange m i ((m i).length))) q).length := by
          intro q hq1 hq2
          rw [ih1 q hq2, zeroRange_mid hq1 hq2]
          simp [MIN_MATCH_SIZE]
        obtain ⟨B, hB⟩ := sizeFrom_decomp (m := m)
          (endOff - (i + (m i).length)) (i + (m i).length) (le_refl _)
        constructor
        · rw [sizeFrom_litSpan ((m i).length) i (i + (m i).length) (by omega)
            (by omega) (by omega) hspan numLit]
          rw [show numLit + (i + (m i).length - i) = numLit + (m i).length
            from by omega]
          refine le_trans ihS ?_
          rw [hcongrS]
          rw [sizeFrom_match hlt hmt]
          rw [hB (numLit + (m i).length), hB 0]
          rcases hAB with ⟨hm2, hc⟩ | ⟨hm2, hc⟩
          · rw [claimRunF_stop (by
              intro hcc
              omega) _]
            simp only [shl3, litv_zero, Nat.add_zero, Nat.zero_add] at hc ⊢
            omega
          · rw [claimRunF_lit hinb (by omega)]
            simp only [shl3, Nat.zero_add] at hc ⊢
            rw [show numLit + (m i).length +
                (1 + claimRunF m endOff (endOff - (i + (m i).length + 1))
                  (i + (m i).length + 1)) =
              numLit + (1 + claimRunF m endOff
                (endOff - (i + (m i).length + 1)) (i + (m i).length + 1)) +
                (m i).length from by omega]
            omega
        · rw [countFrom_litSpan ((m i).length) i (i + (m i).length) (by omega)
            (by omega) (by omega) hspan]
          refine le_trans ihC ?_
          rw [hcongrC, countFrom_match hlt hmt]
          omega
      · by_cases hfuse : fuseTest W m endOff i ((m i).length)
        · -- fusion
          have heq : peepholeGo W endOff i numLit m =
              peepholeGo W endOff i numLit (fuseAt m i ((m i).length)) := by
            conv_lhs => rw [peepholeGo]
            rw [dif_pos hlt, dif_pos hmt, if_neg hred, dif_pos hfuse]
          obtain ⟨⟨hbound, hmo⟩, hw2⟩ := (WalkOK_match hlt hmt).mp hw
          have hfuse2 := hfuse
          rw [fuseTest] at hfuse2
          obtain ⟨hf1, -, -, -, hf5, -, -, -, -, hf10, -⟩ := hfuse2
          have h42 : MIN_MATCH_SIZE ≤ (m (i + (m i).length)).length := by
            rcases hz (i + (m i).length) (by omega) hf1 with h0 | h4
            · omega
            · exact h4
          obtain ⟨⟨hbound2, -⟩, hw3⟩ := (WalkOK_match hf1 h42).mp hw2
          have hm'i : fuseAt m i ((m i).length) i =
              ⟨(m i).length + (m (i + (m i).length)).length, (m i).offset⟩ :=
            fuseAt_self m i ((m i).length)
          obtain ⟨hwm', hzm'⟩ := fuseAt_walk hlt hmt hfuse hw hz
          have hmuN : muPeep endOff i ((fuseAt m i ((m i).length) i).length)
              < N := by
            refine lt_of_lt_of_le ?_ hmu
            rw [hm'i]
            simp only [length_mk]
            refine muPeep_fuse (by
              simp only [MIN_MATCH_SIZE] at h42
              omega) (by
              simp only [LAST_LITERALS] at hbound2
              omega)
          obtain ⟨ihS, ihC⟩ := ihN _ hmuN i numLit
            (fuseAt m i ((m i).length)) (le_refl _) hwm' hzm'
          rw [heq]
          have h4f : MIN_MATCH_SIZE ≤ (fuseAt m i ((m i).length) i).length := by
            rw [hm'i]
            simp only [length_mk]
            simp only [MIN_MATCH_SIZE] at hmt ⊢
            omega
          have hcongrS : sizeFrom endOff (fuseAt m i ((m i).length))
              (i + ((m i).length + (m (i + (m i).length)).length)) 0 =
              sizeFrom endOff m
                (i + ((m i).length + (m (i + (m i).length)).length)) 0 := by
            refine sizeFrom_congr
              (endOff - (i + ((m i).length + (m (i + (m i).length)).length)))
              _ (le_refl _) (fun p hp1 hp2 => ?_) 0
            rw [fuseAt_other m (by omega) (by
              simp only [MIN_MATCH_SIZE] at h42
              omega)]
          have hcongrC : countFrom endOff (fuseAt m i ((m i).length))
              (i + ((m i).length + (m (i + (m i).length)).length)) =
              countFrom endOff m
                (i + ((m i).length + (m (i + (m i).length)).length)) := by
            refine countFrom_congr
              (endOff - (i + ((m i).length + (m (i + (m i).length)).length)))
              _ (le_refl _) (fun p hp1 hp2 => ?_)
            rw [fuseAt_other m (by omega) (by
              simp only [MIN_MATCH_SIZE] at h42
              omega)]
          constructor
          · refine le_trans ihS ?_
            rw [sizeFrom_match hlt h4f, hm'i]
            simp only [length_mk, offset_mk]
            rw [hcongrS]
            rw [sizeFrom_match hlt hmt, sizeFrom_match hf1 h42]
            rw [show i + ((m i).length + (m (i + (m i).length)).length) =
              i + (m i).length + (m (i + (m i).length)).length from by omega]
            have hsup := match_varlen_superadd hmt h42
            simp only [shl3, litv_zero] at hsup ⊢
            omega
          · refine le_trans ihC ?_
            rw [countFrom_match hlt h4f, hm'i]
            simp only [length_mk]
            rw [hcongrC]
            rw [countFrom_match hlt hmt, countFrom_match hf1 h42]
            rw [show i + ((m i).length + (m (i + (m i).length)).length) =
              i + (m i).length + (m (i + (m i).length)).length from by omega]
            omega
        · -- plain advance
          have heq : peepholeGo W endOff i numLit m =
              peepholeGo W endOff (i + (m i).length) 0 m := by
            conv_lhs => rw [peepholeGo]
            rw [dif_pos hlt, dif_pos hmt, if_neg hred, dif_neg hfuse]
          obtain ⟨⟨hbound, hmo⟩, hw2⟩ := (WalkOK_match hlt hmt).mp hw
          obtain ⟨ihS, ihC⟩ := ihN
            (muPeep endOff (i + (m i).length) ((m (i + (m i).length)).length))
            (lt_of_lt_of_le
              (muPeep_advance _ _ (by simp only [MIN_MATCH_SIZE] at hmt; omega)
                hlt) hmu)
            (i + (m i).length) 0 m (le_refl _) hw2
            (fun p hp1 hp2 => hz p (by omega) hp2)
          obtain ⟨ih1, -, -⟩ := peepholeGo_preserves W endOff
            (muPeep endOff (i + (m i).length) ((m (i + (m i).length)).length))
            (i + (m i).length) 0 m (le_refl _) hw2
            (fun p hp1 hp2 => hz p (by omega) hp2)
          rw [heq]
          have hri : peepholeGo W endOff (i + (m i).length) 0 m i = m i :=
            ih1 i (by simp only [MIN_MATCH_SIZE] at hmt; omega)
          constructor
          · rw [sizeFrom_match hlt (by rw [hri]; exact hmt), hri,
              sizeFrom_match hlt hmt]
            omega
          · rw [countFrom_match hlt (by rw [hri]; exact hmt), hri,
              countFrom_match hlt hmt]
            omega
    · -- literal step
      have heq : peepholeGo W endOff i numLit m =
          peepholeGo W endOff (i + 1) (numLit + 1) m := by
        conv_lhs => rw [peepholeGo]
        rw [dif_pos hlt, dif_neg hmt]
      have hw1 := (WalkOK_lit hlt hmt).mp hw
      obtain ⟨ihS, ihC⟩ := ihN (muPeep endOff (i + 1) ((m (i + 1)).length))
        (lt_of_lt_of_le (muPeep_advance _ _ (by omega) hlt) hmu)
        (i + 1) (numLit + 1) m (le_refl _) hw1
        (fun p hp1 hp2 => hz p (by omega) hp2)
      obtain ⟨ih1, -, -⟩ := peepholeGo_preserves W endOff
        (muPeep endOff (i + 1) ((m (i + 1)).length)) (i + 1) (numLit + 1) m
        (le_refl _) hw1 (fun p hp1 hp2 => hz p (by omega) hp2)
      rw [heq]
      have hri : peepholeGo W endOff (i + 1) (numLit + 1) m i = m i :=
        ih1 i (by omega)
      constructor
      · rw [sizeFrom_lit hlt (by rw [hri]; exact hmt),
          sizeFrom_lit hlt hmt]
        exact ihS
      · rw [countFrom_lit hlt (by rw [hri]; exact hmt),
          countFrom_lit hlt hmt]
        exact ihC
  · have heq : peepholeGo W endOff i numLit m = m := by
      conv_lhs => rw [peepholeGo]
      rw [dif_neg hlt]
    rw [heq]
    exact ⟨le_refl _, le_refl _⟩

end LZ4Ultra

namespace LZ4Ultra

/-- Decoding any successfully emitted block of a walk-valid array yields
the block's input bytes. -/
theorem expand_emitted {W : List Nat} {startOff maxOut bmax : Nat}
    {m : Nat → LZMatch} {bytes : List Nat} {nc : Nat}
    (hw : WalkOK W W.length m startOff) (hs : startOff ≤ W.length)
    (hbmax : W.length ≤ startOff + bmax)
    (hemit : lz4ultra_write_block_lz4 W startOff W.length m maxOut false =
      some (bytes, nc)) :
    lz4ultra_decompressor_expand_block_lz4 bytes (W.take startOff) bmax =
      some (W.drop startOff) := by
  rw [lz4ultra_decompressor_expand_block_lz4]
  have htl : (W.take startOff).length = startOff := by
    rw [List.length_take]
    omega
  rw [htl]
  rw [lz4ultra_write_block_lz4] at hemit
  have hexp := writeBlock_expand W (startOff + bmax) maxOut (by omega)
    W.length startOff 0 0 0 m bytes nc (by omega) hw (by omega) hs
    (by intro h; exact absurd rfl h) hemit
  rw [Nat.sub_zero] at hexp
  rw [hexp, Option.map_some']

/-- C6: the peephole pass never enlarges the result.  Whenever the emitter
succeeds on the parser's array and on its peephole refinement, the refined
block is no longer in bytes, carries no more commands, and decodes to the
same bytes. -/
theorem C6_peephole_nonexpansion (favorRatio : Bool) (W : List Nat)
    (startOff maxOut maxOut2 bmax : Nat) (m0 : Nat → LZMatch)
    (hva : ValidArr W startOff W.length m0) (hs : startOff ≤ W.length)
    (hbmax : W.length ≤ startOff + bmax) :
    ∀ bytes nc, lz4ultra_write_block_lz4 W startOff W.length
        ((lz4ultra_optimize_matches_lz4 favorRatio startOff W.length m0).m)
        maxOut false = some (bytes, nc) →
    ∀ bytes2 nc2, lz4ultra_write_block_lz4 W startOff W.length
        (lz4ultra_optimize_command_count_lz4 W startOff W.length
          ((lz4ultra_optimize_matches_lz4 favorRatio startOff W.length m0).m))
        maxOut2 false = some (bytes2, nc2) →
    bytes2.length ≤ bytes.length ∧ nc2 ≤ nc ∧
    lz4ultra_decompressor_expand_block_lz4 bytes2 (W.take startOff) bmax =
      lz4ultra_decompressor_expand_block_lz4 bytes (W.take startOff) bmax := by
  intro bytes nc hemit1 bytes2 nc2 hemit2
  have hwP := parser_WalkOK favorRatio W startOff W.length m0 hva startOff
    (le_refl _)
  have hzP := parser_ZeroOrMatch favorRatio W startOff W.length m0 hva
  obtain ⟨hS, hC⟩ := peepholeGo_size W W.length
    (muPeep W.length startOff
      (((lz4ultra_optimize_matches_lz4 favorRatio startOff W.length m0).m
        startOff).length))
    startOff 0
    ((lz4ultra_optimize_matches_lz4 favorRatio startOff W.length m0).m)
    (le_refl _) hwP hzP
  obtain ⟨hL1, hN1⟩ := writeBlockGo_size W maxOut W.length startOff 0 0 0
    ((lz4ultra_optimize_matches_lz4 favorRatio startOff W.length m0).m)
    bytes nc (by omega) (by omega) (by intro h; exact absurd rfl h)
    (by intro h; exact absurd rfl h) hemit1
  obtain ⟨hL2, hN2⟩ := writeBlockGo_size W maxOut2 W.length startOff 0 0 0
    (lz4ultra_optimize_command_count_lz4 W startOff W.length
      ((lz4ultra_optimize_matches_lz4 favorRatio startOff W.length m0).m))
    bytes2 nc2 (by omega) (by omega) (by intro h; exact absurd rfl h)
    (by intro h; exact absurd rfl h) hemit2
  rw [lz4ultra_optimize_command_count_lz4] at hL2 hN2
  refine ⟨by omega, by omega, ?_⟩
  rw [expand_emitted (pipeline_WalkOK favorRatio W startOff m0 hva hs) hs
    hbmax hemit2]
  rw [expand_emitted hwP hs hbmax hemit1]

theorem C6_peephole_nonexpansion_witness :
    ValidArr c1W 0 c1W.length c1m0 ∧ 0 ≤ c1W.length ∧
    c1W.length ≤ 0 + 14 ∧
    (∀ bytes nc, lz4ultra_write_block_lz4 c1W 0 c1W.length
        ((lz4ultra_optimize_matches_lz4 true 0 c1W.length c1m0).m)
        100 false = some (bytes, nc) →
     ∀ bytes2 nc2, lz4ultra_write_block_lz4 c1W 0 c1W.length
        (lz4ultra_optimize_command_count_lz4 c1W 0 c1W.length
          ((lz4ultra_optimize_matches_lz4 true 0 c1W.length c1m0).m))
        100 false = some (bytes2, nc2) →
     bytes2.length ≤ bytes.length ∧ nc2 ≤ nc ∧
     lz4ultra_decompressor_expand_block_lz4 bytes2 (c1W.take 0) 14 =
       lz4ultra_decompressor_expand_block_lz4 bytes (c1W.take 0) 14) :=
  ⟨by decide, by decide, by decide,
    C6_peephole_nonexpansion true c1W 0 100 100 14 c1m0 (by decide)
      (by decide) (by decide)⟩

end LZ4Ultra

namespace LZ4Ultra

/-! ## The lcp-interval match finder (`lz4ultra_find_matches_at`, shrink.c)

The `intervals` and `pos_data` arrays are threaded as functions `I`, `P`;
the two unbounded `while` loops carry fuel (the C code relies on the
acyclic interval tree for termination).  Entries are 64-bit packed values:
the low `LCP_SHIFT` bits are a position or interval index, the
`LCP_MASK` bits an lcp. -/

/-- `LCP_SHIFT = 38 - LCP_BITS` with `LCP_BITS = 14`. -/
def LCP_SHIFT : Nat := 24

/-- `LCP_MAX << LCP_SHIFT`. -/
def LCP_MASK : Nat := 16383 <<< 24

/-- `(1 << LCP_SHIFT) - 1`. -/
def POS_MASK : Nat := 16777215

/-- The first `while` loop: ascend to the nearest visited interval, the
root, or a child of the root, marking intervals with the current offset.
Returns the final `ref`, the stopping `super_ref`, and the updated
`intervals`. -/
def ascendF (q : Nat) : Nat → Nat → (Nat → Nat) →
    Option (Nat × Nat × (Nat → Nat))
  | 0, _, _ => none
  | fuel + 1, ref, I =>
    let super_ref := I (ref &&& POS_MASK)
    if super_ref &&& LCP_MASK ≠ 0 then
      ascendF q fuel super_ref (upd I (ref &&& POS_MASK) q)
    else
      some (ref, super_ref, I)

/-- The inner `while`: ascend indirectly through `pos_data` links past
deeper intervals.  Returns the final `match_pos`. -/
def innerF (ref : Nat) (P I : Nat → Nat) : Nat → Nat → Option Nat
  | 0, _ => none
  | fuel + 1, match_pos =>
    if P match_pos > ref then
      innerF ref P I fuel (I (P match_pos &&& POS_MASK))
    else
      some match_pos

/-- The reporting `for (;;)` loop. -/
def reportGo (q nMaxMatches : Nat) : Nat → Nat → Nat → (Nat → Nat) →
    (Nat → Nat) → List (Nat × Nat) →
    Option ((Nat → Nat) × (Nat → Nat) × List (Nat × Nat))
  | 0, _, _, _, _, _ => none
  | fuel + 1, ref, match_pos, I, P, acc =>
    match innerF ref P I fuel match_pos with
    | none => none
    | some mp =>
      let super_ref := P mp
      let I1 := upd I (ref &&& POS_MASK) q
      let P1 := upd P mp ref
      let acc1 := if acc.length < nMaxMatches ∧ q - mp ≤ MAX_OFFSET then
          acc ++ [(ref >>> LCP_SHIFT, q - mp)]
        else acc
      if super_ref = 0 then
        some (I1, P1, acc1)
      else
        reportGo q nMaxMatches fuel super_ref (I1 (super_ref &&& POS_MASK))
          I1 P1 acc1

/-- `lz4ultra_find_matches_at`, at query offset `q`: returns the updated
arrays and the reported `(length, offset)` pairs, or `none` on fuel
exhaustion. -/
def lz4ultra_find_matches_at (nMaxMatches q fuel : Nat) (I P : Nat → Nat) :
    Option ((Nat → Nat) × (Nat → Nat) × List (Nat × Nat)) :=
  let ref0 := P q
  let P0 := upd P q 0
  match ascendF q fuel ref0 I with
  | none => none
  | some (ref, super_ref, I0) =>
    if super_ref = 0 then
      some (if ref ≠ 0 then upd I0 (ref &&& POS_MASK) q else I0, P0, [])
    else
      reportGo q nMaxMatches fuel ref super_ref I0 P0 []

/-- `lz4ultra_find_all_matches`' query order: offsets `0, 1, ..., n-1` in
sequence, threading the arrays. -/
def runFinder (nMaxMatches fuel : Nat) :
    Nat → (Nat → Nat) → (Nat → Nat) →
    Option ((Nat → Nat) × (Nat → Nat) × List (List (Nat × Nat)))
  | 0, I, P => some (I, P, [])
  | n + 1, I, P =>
    match runFinder nMaxMatches fuel n I P with
    | none => none
    | some (I1, P1, reports) =>
      match lz4ultra_find_matches_at nMaxMatches n fuel I1 P1 with
      | none => none
      | some (I2, P2, ms) => some (I2, P2, reports ++ [ms])

/-- State contract of the interval arrays after `Q` in-order queries, over
interval indices `< NI` (`next_interval_idx`) and positions `< PB`: every
reachable `intervals` slot is the root/an unvisited child of the root
(`0`), an lcp-tagged interval pointer, or a visited-marker naming an
earlier query; every reachable `pos_data` entry is empty or an lcp-tagged
pointer whose target slot (relinked in the same step of an earlier query)
currently holds a marker `≥ 1`.  The interval builder establishes `Q = 0`:
it writes only `0` or lcp-tagged open-interval stack entries. -/
def StateOK (I P : Nat → Nat) (NI PB Q : Nat) : Prop :=
  (∀ s, s < NI →
    I s = 0 ∨
    (I s &&& LCP_MASK ≠ 0 ∧ I s &&& POS_MASK < NI) ∨
    (I s &&& LCP_MASK = 0 ∧ 1 ≤ I s ∧ I s < Q)) ∧
  (∀ p, p < PB →
    P p = 0 ∨
    (P p &&& LCP_MASK ≠ 0 ∧ P p &&& POS_MASK < NI ∧
      (1 ≤ p → p < Q →
        I (P p &&& POS_MASK) &&& LCP_MASK = 0 ∧
        1 ≤ I (P p &&& POS_MASK) ∧ I (P p &&& POS_MASK) < Q)))

instance (I P : Nat → Nat) (NI PB Q : Nat) : Decidable (StateOK I P NI PB Q) := by
  rw [StateOK]
  have h1 : Decidable (∀ s, s < NI →
      I s = 0 ∨
      (I s &&& LCP_MASK ≠ 0 ∧ I s &&& POS_MASK < NI) ∨
      (I s &&& LCP_MASK = 0 ∧ 1 ≤ I s ∧ I s < Q)) :=
    Nat.decidableBallLT NI fun s _ => _
  have h2 : Decidable (∀ p, p < PB →
      P p = 0 ∨
      (P p &&& LCP_MASK ≠ 0 ∧ P p &&& POS_MASK < NI ∧
        (1 ≤ p → p < Q →
          I (P p &&& POS_MASK) &&& LCP_MASK = 0 ∧
          1 ≤ I (P p &&& POS_MASK) ∧ I (P p &&& POS_MASK) < Q))) :=
    Nat.decidableBallLT PB fun p _ => _
  exact And.decidable

end LZ4Ultra

namespace LZ4Ultra

/-- Values below `2^24` carry no lcp bits. -/
theorem land_lcp_zero {x : Nat} (h : x < 16777216) : x &&& LCP_MASK = 0 := by
  apply Nat.eq_of_testBit_eq
  intro i
  rw [Nat.testBit_land, Nat.zero_testBit]
  by_cases hi : i < 24
  · have hm : LCP_MASK.testBit i = false := by
      rw [LCP_MASK, Nat.testBit_shiftLeft]
      rw [decide_eq_false (by omega)]
      rw [Bool.false_and]
    rw [hm, Bool.and_false]
  · have h2 : (16777216 : Nat) ≤ 2 ^ i := by
      calc (16777216 : Nat) = 2 ^ 24 := by norm_num
      _ ≤ 2 ^ i := Nat.pow_le_pow_right (by norm_num) (by omega)
    have hx : x.testBit i = false :=
      Nat.testBit_lt_two_pow (lt_of_lt_of_le h h2)
    rw [hx, Bool.false_and]

theorem zero_land_pos : (0 : Nat) &&& POS_MASK = 0 := by
  rw [Nat.zero_and]

end LZ4Ultra

namespace LZ4Ultra

/-- The marking ascent preserves the state contract; it stops on the root
(`0`) or on a marker naming query `≤ q`. -/
theorem ascendF_spec {q NI PB : Nat} (P : Nat → Nat) (hq : q < PB)
    (hPB : PB ≤ 16777216) (hNI : 1 ≤ NI) :
    ∀ fuel ref I,
      StateOK I P NI PB (q + 1) →
      (ref = 0 ∨ (ref &&& LCP_MASK ≠ 0 ∧ ref &&& POS_MASK < NI)) →
      ∀ ref2 sref2 I2,
      ascendF q fuel ref I = some (ref2, sref2, I2) →
      StateOK I2 P NI PB (q + 1) ∧
      (ref2 = 0 ∨ (ref2 &&& LCP_MASK ≠ 0 ∧ ref2 &&& POS_MASK < NI)) ∧
      sref2 &&& LCP_MASK = 0 ∧ (sref2 = 0 ∨ (1 ≤ sref2 ∧ sref2 ≤ q)) := by
  intro fuel
  induction fuel with
  | zero =>
    intro ref I hs hshape ref2 sref2 I2 h
    exact absurd h (by rw [ascendF]; simp)
  | succ fuel ih =>
    intro ref I hs hshape ref2 sref2 I2 h
    rw [ascendF] at h
    have hslot : ref &&& POS_MASK < NI := by
      rcases hshape with rfl | ⟨-, h2⟩
      · rw [zero_land_pos]
        omega
      · exact h2
    have hval := hs.1 (ref &&& POS_MASK) hslot
    by_cases htag : I (ref &&& POS_MASK) &&& LCP_MASK ≠ 0
    · rw [if_pos htag] at h
      refine ih (I (ref &&& POS_MASK)) (upd I (ref &&& POS_MASK) q) ?_ ?_
        ref2 sref2 I2 h
      · constructor
        · intro s hslt
          by_cases hse : s = ref &&& POS_MASK
          · rw [hse, upd_self]
            by_cases hq0 : q = 0
            · exact Or.inl hq0
            · exact Or.inr (Or.inr ⟨land_lcp_zero (by omega), by omega,
                by omega⟩)
          · rw [upd_ne _ _ _ hse]
            exact hs.1 s hslt
        · intro p hplt
          rcases hs.2 p hplt with h0 | ⟨ht1, ht2, ht3⟩
          · exact Or.inl h0
          · refine Or.inr ⟨ht1, ht2, ?_⟩
            intro hp1 hp2
            by_cases hse : P p &&& POS_MASK = ref &&& POS_MASK
            · rw [hse, upd_self]
              have hq1 : 1 ≤ q := by
                -- a visited position ≥ 1 exists, so q ≥ 1
                have := ht3 hp1 hp2
                omega
              exact ⟨land_lcp_zero (by omega), by omega, by omega⟩
            · rw [upd_ne _ _ _ hse]
              exact ht3 hp1 hp2
      · rcases hval with h0 | ⟨h1, h2⟩ | ⟨h1, -⟩
        · rw [h0] at htag
          exact absurd (by rw [Nat.zero_and]) htag
        · exact Or.inr ⟨h1, h2⟩
        · exact absurd h1 (by simpa using htag)
    · rw [if_neg htag] at h
      simp only [Option.some.injEq, Prod.mk.injEq] at h
      obtain ⟨h1, h2, h3⟩ := h
      subst h1
      subst h2
      subst h3
      rw [not_not] at htag
      refine ⟨hs, hshape, htag, ?_⟩
      rcases hval with h0 | ⟨h1, -⟩ | ⟨-, h1, h2⟩
      · exact Or.inl h0
      · exact absurd htag (by simpa using h1)
      · exact Or.inr ⟨h1, by omega⟩

/-- The indirect ascent lands on a previously queried position in
`[1, q]`. -/
theorem innerF_spec {q NI PB ref : Nat} (hq : q < PB)
    {I P : Nat → Nat} (hs : StateOK I P NI PB (q + 1)) :
    ∀ fuel mp, 1 ≤ mp → mp ≤ q →
      ∀ mp2, innerF ref P I fuel mp = some mp2 →
      1 ≤ mp2 ∧ mp2 ≤ q := by
  intro fuel
  induction fuel with
  | zero =>
    intro mp h1 h2 mp2 h
    exact absurd h (by rw [innerF]; simp)
  | succ fuel ih =>
    intro mp h1 h2 mp2 h
    rw [innerF] at h
    by_cases hgt : P mp > ref
    · rw [if_pos hgt] at h
      rcases hs.2 mp (by omega) with h0 | ⟨-, -, ht3⟩
      · omega
      · obtain ⟨-, hm1, hm2⟩ := ht3 h1 (by omega)
        exact ih (I (P mp &&& POS_MASK)) hm1 (by omega) mp2 h
    · rw [if_neg hgt] at h
      simp only [Option.some.injEq] at h
      subst h
      exact ⟨h1, h2⟩

/-- The reporting loop preserves the contract and reports only offsets
`< q`: the referenced source position is never `0`. -/
theorem reportGo_spec {q NI PB nMax : Nat} (hq1 : 1 ≤ q) (hq : q < PB)
    (hPB : PB ≤ 16777216) (hNI : 1 ≤ NI) :
    ∀ fuel ref mp I P acc,
      StateOK I P NI PB (q + 1) →
      (ref = 0 ∨ (ref &&& LCP_MASK ≠ 0 ∧ ref &&& POS_MASK < NI)) →
      1 ≤ mp → mp ≤ q →
      (∀ pr ∈ acc, pr.2 < q) →
      ∀ I2 P2 ms, reportGo q nMax fuel ref mp I P acc = some (I2, P2, ms) →
      StateOK I2 P2 NI PB (q + 1) ∧ ∀ pr ∈ ms, pr.2 < q := by
  intro fuel
  induction fuel with
  | zero =>
    intro ref mp I P acc hs hshape hm1 hm2 hacc I2 P2 ms h
    exact absurd h (by rw [reportGo]; simp)
  | succ fuel ih =>
    intro ref mp I P acc hs hshape hm1 hm2 hacc I2 P2 ms h
    rw [reportGo] at h
    cases hinner : innerF ref P I fuel mp with
    | none =>
      rw [hinner] at h
      exact absurd h (by simp)
    | some mp2 =>
      rw [hinner] at h
      dsimp only at h
      obtain ⟨hmp1, hmp2⟩ := innerF_spec hq hs fuel mp hm1 hm2 mp2 hinner
      have hslot : ref &&& POS_MASK < NI := by
        rcases hshape with rfl | ⟨-, h2⟩
        · rw [zero_land_pos]
          omega
        · exact h2
      have hs1 : StateOK (upd I (ref &&& POS_MASK) q) (upd P mp2 ref) NI PB
          (q + 1) := by
        constructor
        · intro s hslt
          by_cases hse : s = ref &&& POS_MASK
          · rw [hse, upd_self]
            exact Or.inr (Or.inr ⟨land_lcp_zero (by omega), by omega,
              by omega⟩)
          · rw [upd_ne _ _ _ hse]
            exact hs.1 s hslt
        · intro p hplt
          by_cases hpe : p = mp2
          · rw [hpe, upd_self]
            rcases hshape with rfl | ⟨ht1, ht2⟩
            · exact Or.inl rfl
            · refine Or.inr ⟨ht1, ht2, ?_⟩
              intro hp1 hp2
              by_cases hse : ref &&& POS_MASK = ref &&& POS_MASK
              · rw [upd_self]
                exact ⟨land_lcp_zero (by omega), by omega, by omega⟩
              · exact absurd rfl hse
          · rw [upd_ne _ _ _ hpe]
            rcases hs.2 p hplt with h0 | ⟨ht1, ht2, ht3⟩
            · exact Or.inl h0
            · refine Or.inr ⟨ht1, ht2, ?_⟩
              intro hp1 hp2
              by_cases hse : P p &&& POS_MASK = ref &&& POS_MASK
              · rw [hse, upd_self]
                exact ⟨land_lcp_zero (by omega), by omega, by omega⟩
              · rw [upd_ne _ _ _ hse]
                exact ht3 hp1 hp2
      have hacc1 : ∀ pr ∈ (if acc.length < nMax ∧ q - mp2 ≤ MAX_OFFSET then
          acc ++ [(ref >>> LCP_SHIFT, q - mp2)] else acc), pr.2 < q := by
        split
        · intro pr hpr
          rcases List.mem_append.mp hpr with hin | hin
          · exact hacc pr hin
          · rcases List.mem_singleton.mp hin with rfl
            show q - mp2 < q
            omega
        · exact hacc
      by_cases hz : P mp2 = 0
      · rw [if_pos hz] at h
        simp only [Option.some.injEq, Prod.mk.injEq] at h
        obtain ⟨h1, h2, h3⟩ := h
        subst h1
        subst h2
        subst h3
        exact ⟨hs1, hacc1⟩
      · rw [if_neg hz] at h
        rcases hs.2 mp2 (by omega) with h0 | ⟨ht1, ht2, ht3⟩
        · exact absurd h0 hz
        · obtain ⟨hk1, hk2, hk3⟩ := ht3 hmp1 (by omega)
          have hmpnext : 1 ≤ upd I (ref &&& POS_MASK) q (P mp2 &&& POS_MASK) ∧
              upd I (ref &&& POS_MASK) q (P mp2 &&& POS_MASK) ≤ q := by
            by_cases hse : P mp2 &&& POS_MASK = ref &&& POS_MASK
            · rw [hse, upd_self]
              omega
            · rw [upd_ne _ _ _ hse]
              omega
          exact ih (P mp2) (upd I (ref &&& POS_MASK) q (P mp2 &&& POS_MASK))
            (upd I (ref &&& POS_MASK) q) (upd P mp2 ref) _ hs1
            (Or.inr ⟨ht1, ht2⟩) hmpnext.1 hmpnext.2 hacc1 I2 P2 ms h

end LZ4Ultra

namespace LZ4Ultra

/-- Clearing `pos_data[q]` moves the contract from `Q = q` to
`Q = q + 1`. -/
theorem StateOK_zeroQuery {I P : Nat → Nat} {NI PB q : Nat}
    (hs : StateOK I P NI PB q) : StateOK I (upd P q 0) NI PB (q + 1) := by
  constructor
  · intro s hslt
    rcases hs.1 s hslt with h0 | h1 | ⟨h1, h2, h3⟩
    · exact Or.inl h0
    · exact Or.inr (Or.inl h1)
    · exact Or.inr (Or.inr ⟨h1, h2, by omega⟩)
  · intro p hplt
    by_cases hpe : p = q
    · rw [hpe, upd_self]
      exact Or.inl rfl
    · rw [upd_ne _ _ _ hpe]
      rcases hs.2 p hplt with h0 | ⟨ht1, ht2, ht3⟩
      · exact Or.inl h0
      · refine Or.inr ⟨ht1, ht2, ?_⟩
        intro hp1 hp2
        obtain ⟨hk1, hk2, hk3⟩ := ht3 hp1 (by omega)
        exact ⟨hk1, hk2, by omega⟩

/-- One query step: the contract advances from `Q = q` to `Q = q + 1` and
every reported offset is `< q`. -/
theorem find_matches_at_spec {q NI PB nMax fuel : Nat} (hq : q < PB)
    (hPB : PB ≤ 16777216) (hNI : 1 ≤ NI) {I P : Nat → Nat}
    (hs : StateOK I P NI PB q) :
    ∀ I2 P2 ms, lz4ultra_find_matches_at nMax q fuel I P = some (I2, P2, ms) →
    StateOK I2 P2 NI PB (q + 1) ∧ ∀ pr ∈ ms, pr.2 < q := by
  intro I2 P2 ms h
  rw [lz4ultra_find_matches_at] at h
  have hs0 : StateOK I (upd P q 0) NI PB (q + 1) := StateOK_zeroQuery hs
  have hshape0 : P q = 0 ∨ (P q &&& LCP_MASK ≠ 0 ∧ P q &&& POS_MASK < NI) := by
    rcases hs.2 q hq with h0 | ⟨h1, h2, -⟩
    · exact Or.inl h0
    · exact Or.inr ⟨h1, h2⟩
  cases hasc : ascendF q fuel (P q) I with
  | none =>
    rw [hasc] at h
    exact absurd h (by simp)
  | some res =>
    obtain ⟨ref, super_ref, I0⟩ := res
    rw [hasc] at h
    dsimp only at h
    obtain ⟨hsI0, hrefShape, hsrUntag, hsrRange⟩ :=
      ascendF_spec (upd P q 0) hq hPB hNI fuel (P q) I hs0 hshape0
        ref super_ref I0 hasc
    by_cases hsr0 : super_ref = 0
    · rw [if_pos hsr0] at h
      simp only [Option.some.injEq, Prod.mk.injEq] at h
      obtain ⟨h1, h2, h3⟩ := h
      subst h2
      subst h3
      refine ⟨?_, by simp⟩
      rw [← h1]
      by_cases hr0 : ref ≠ 0
      · rw [if_pos hr0]
        have hslot : ref &&& POS_MASK < NI := by
          rcases hrefShape with h0 | ⟨-, h2'⟩
          · exact absurd h0 hr0
          · exact h2'
        constructor
        · intro s hslt
          by_cases hse : s = ref &&& POS_MASK
          · rw [hse, upd_self]
            by_cases hq0 : q = 0
            · exact Or.inl hq0
            · exact Or.inr (Or.inr ⟨land_lcp_zero (by omega), by omega,
                by omega⟩)
          · rw [upd_ne _ _ _ hse]
            exact hsI0.1 s hslt
        · intro p hplt
          rcases hsI0.2 p hplt with h0 | ⟨ht1, ht2, ht3⟩
          · exact Or.inl h0
          · refine Or.inr ⟨ht1, ht2, ?_⟩
            intro hp1 hp2
            by_cases hse : upd P q 0 p &&& POS_MASK = ref &&& POS_MASK
            · rw [hse, upd_self]
              exact ⟨land_lcp_zero (by omega), by omega, by omega⟩
            · rw [upd_ne _ _ _ hse]
              exact ht3 hp1 hp2
      · rw [if_neg hr0]
        exact hsI0
    · rw [if_neg hsr0] at h
      have hq1 : 1 ≤ q := by
        rcases hsrRange with h0 | ⟨h1, h2⟩
        · exact absurd h0 hsr0
        · omega
      have hsrB : 1 ≤ super_ref ∧ super_ref ≤ q := by
        rcases hsrRange with h0 | hb
        · exact absurd h0 hsr0
        · exact hb
      exact reportGo_spec hq1 hq hPB hNI fuel ref super_ref I0 (upd P q 0)
        [] hsI0 hrefShape hsrB.1 hsrB.2 (by simp) I2 P2 ms h

end LZ4Ultra

namespace LZ4Ultra

/-- Running queries `0..n-1` in order keeps the contract and yields, at
each query `q`, only offsets `< q`. -/
theorem runFinder_spec {NI PB nMax fuel : Nat} (hPB : PB ≤ 16777216)
    (hNI : 1 ≤ NI) :
    ∀ n I P, n ≤ PB → StateOK I P NI PB 0 →
      ∀ I2 P2 reports, runFinder nMax fuel n I P = some (I2, P2, reports) →
      StateOK I2 P2 NI PB n ∧ reports.length = n ∧
      ∀ (q : Nat) (ms1 : List (Nat × Nat)), reports[q]? = some ms1 →
      ∀ pr ∈ ms1, pr.2 < q := by
  intro n
  induction n with
  | zero =>
    intro I P hle hs I2 P2 reports h
    rw [runFinder] at h
    simp only [Option.some.injEq, Prod.mk.injEq] at h
    obtain ⟨h1, h2, h3⟩ := h
    subst h1
    subst h2
    subst h3
    refine ⟨hs, rfl, ?_⟩
    intro q ms1 hget
    simp at hget
  | succ n ih =>
    intro I P hle hs I2 P2 reports h
    rw [runFinder] at h
    cases h1 : runFinder nMax fuel n I P with
    | none =>
      rw [h1] at h
      exact absurd h (by simp)
    | some r =>
      obtain ⟨I1, P1, reps⟩ := r
      rw [h1] at h
      dsimp only at h
      obtain ⟨hs1, hlen, hrep⟩ := ih I P (by omega) hs I1 P1 reps h1
      cases h2 : lz4ultra_find_matches_at nMax n fuel I1 P1 with
      | none =>
        rw [h2] at h
        exact absurd h (by simp)
      | some r2 =>
        obtain ⟨I2', P2', ms⟩ := r2
        rw [h2] at h
        simp only [Option.some.injEq, Prod.mk.injEq] at h
        obtain ⟨hA, hB, hC⟩ := h
        subst hA
        subst hB
        subst hC
        obtain ⟨hs2, hms⟩ :=
          find_matches_at_spec (by omega) hPB hNI hs1 I2' P2' ms h2
        refine ⟨hs2, by simp [hlen], ?_⟩
        intro q ms1 hget pr hpr
        rw [List.getElem?_append] at hget
        by_cases hqn : q < reps.length
        · rw [if_pos hqn] at hget
          exact hrep q ms1 hget pr hpr
        · rw [if_neg hqn] at hget
          cases hd : q - reps.length with
          | zero =>
            rw [hd] at hget
            simp only [List.getElem?_cons_zero, Option.some.injEq] at hget
            subst hget
            have hqe : q = n := by omega
            rw [hqe]
            exact hms pr hpr
          | succ k =>
            rw [hd] at hget
            simp at hget

end LZ4Ultra

namespace LZ4Ultra

/-- C10: starting from the interval-builder state contract, the match
finder never reports a match whose referenced source position
`q - offset` equals text position `0`: every match reported at query
offset `q` has `offset < q`, so the referenced position is `≥ 1`. -/
theorem C10_no_position_zero_reference {NI PB nMax fuel n : Nat}
    {I P I2 P2 : Nat → Nat} {reports : List (List (Nat × Nat))}
    (hPB : PB ≤ 16777216) (hNI : 1 ≤ NI) (hn : n ≤ PB)
    (hs : StateOK I P NI PB 0)
    (h : runFinder nMax fuel n I P = some (I2, P2, reports)) :
    ∀ (q : Nat) (ms1 : List (Nat × Nat)), reports[q]? = some ms1 →
    ∀ pr ∈ ms1, pr.2 < q ∧ q - pr.2 ≠ 0 := by
  obtain ⟨-, -, hrep⟩ := runFinder_spec hPB hNI n I P hn hs I2 P2 reports h
  intro q ms1 hget pr hpr
  have hlt := hrep q ms1 hget pr hpr
  exact ⟨hlt, by omega⟩

theorem C10_no_position_zero_reference_witness :
    (2 : Nat) ≤ 16777216 ∧ 1 ≤ (1 : Nat) ∧ (2 : Nat) ≤ 2 ∧
    StateOK (fun _ => 0) (fun _ => 0) 1 2 0 ∧
    runFinder 8 4 2 (fun _ => 0) (fun _ => 0) =
      some (fun _ => 0, upd (upd (fun _ => 0) 0 0) 1 0, [[], []]) ∧
    (∀ (q : Nat) (ms1 : List (Nat × Nat)),
      ([[], []] : List (List (Nat × Nat)))[q]? = some ms1 →
      ∀ pr ∈ ms1, pr.2 < q ∧ q - pr.2 ≠ 0) :=
  ⟨by decide, by decide, by decide, by decide, by rfl,
   @C10_no_position_zero_reference 1 2 8 4 2 (fun _ => 0) (fun _ => 0)
     (fun _ => 0) (upd (upd (fun _ => 0) 0 0) 1 0) [[], []]
     (by decide) (by decide) (by decide) (by decide) (by rfl)⟩

end LZ4Ultra

namespace LZ4Ultra

/-! ## Idempotence of the peephole pass (C7)

Splitting the parser's reverse loop into segments lets the long
forced-literal stretch be bounded symbolically while the few interesting
positions are evaluated. -/

/-- The parser loop splits at any cut: positions `s+c .. s+c+d-1` first,
then `s .. s+c-1`. -/
theorem optLoop_split (F : Bool) (E : Nat) :
    ∀ d s c st, optLoop F E s (c + d) st =
      optLoop F E s c (optLoop F E (s + c) d st) := by
  intro d
  induction d with
  | zero =>
    intro s c st
    rfl
  | succ d ih =>
    intro s c st
    have h1 : c + (d + 1) = (c + d) + 1 := rfl
    rw [h1, optLoop, ih]
    conv_rhs => rw [optLoop]
    rw [(by omega : s + (c + d) = s + c + d)]

/-- Positions outside the processed range are untouched by the loop. -/
theorem optLoop_out (F : Bool) (E : Nat) :
    ∀ c s st p, (p < s ∨ s + c ≤ p) →
      (optLoop F E s c st).cost p = st.cost p ∧
      (optLoop F E s c st).score p = st.score p ∧
      (optLoop F E s c st).m p = st.m p := by
  intro c
  induction c with
  | zero =>
    intro s st p hp
    exact ⟨rfl, rfl, rfl⟩
  | succ c ih =>
    intro s st p hp
    rw [optLoop]
    obtain ⟨h1, h2, h3⟩ := ih s (optStep F E st (s + c)) p (by omega)
    rw [h1, h2, h3]
    refine ⟨?_, ?_, ?_⟩
    · exact upd_ne _ _ _ (by omega)
    · exact upd_ne _ _ _ (by omega)
    · exact upd_ne _ _ _ (by omega)

/-- Over a stretch with no stored matches every step is a forced literal,
so the cost at the left end grows by at least 8 bits per byte. -/
theorem optLoop_lit_cost_ge (F : Bool) (E : Nat) :
    ∀ d s st, (∀ p, s ≤ p → p < s + d → (st.m p).length < MIN_MATCH_SIZE) →
      8 * d + st.cost (s + d) ≤ (optLoop F E s d st).cost s := by
  intro d
  induction d with
  | zero =>
    intro s st h
    simp only [optLoop, Nat.add_zero]
    omega
  | succ d ih =>
    intro s st h
    rw [optLoop]
    rw [(by omega : s + (d + 1) = s + d + 1)]
    have hm : ∀ p, s ≤ p → p < s + d →
        ((optStep F E st (s + d)).m p).length < MIN_MATCH_SIZE := by
      intro p h1 h2
      have hu : (optStep F E st (s + d)).m p = st.m p :=
        upd_ne _ _ _ (by omega)
      rw [hu]
      exact h p h1 (by omega)
    have h2 := ih s (optStep F E st (s + d)) hm
    have hlen := h (s + d) (by omega) (by omega)
    have hbc : (bestCandidate F E st (s + d)).1 = litStepCost st (s + d) := by
      simp only [bestCandidate]
      rw [if_neg (by omega)]
    have hcost : (optStep F E st (s + d)).cost (s + d) =
        litStepCost st (s + d) := by
      show upd st.cost (s + d) (bestCandidate F E st (s + d)).1 (s + d) = _
      rw [upd_self, hbc]
    have hlsc : 8 + st.cost (s + d + 1) ≤ litStepCost st (s + d) := by
      rw [litStepCost]
      omega
    omega

end LZ4Ultra

namespace LZ4Ultra

/-- Agreement of two parser states on all array slots up to `B` (and on the
literal-run anchor): the loop over positions whose reads stay below `B`
cannot tell them apart. -/
def EqBelow (B : Nat) (st st' : OptState) : Prop :=
  st.lastLit = st'.lastLit ∧
  ∀ p, p ≤ B → st.cost p = st'.cost p ∧ st.score p = st'.score p ∧
    st.m p = st'.m p

theorem candCost_congr {B : Nat} {st st' : OptState} (h : EqBelow B st st')
    {i k : Nat} (hk : i + k ≤ B) : candCost st i k = candCost st' i k := by
  obtain ⟨hc, -, hm⟩ := h.2 (i + k) hk
  rw [candCost, candCost, hc, hm]

theorem candScore_congr {B : Nat} {st st' : OptState} (h : EqBelow B st st')
    {i k : Nat} (hk : i + k ≤ B) (xms : Nat) :
    candScore st xms i k = candScore st' xms i k := by
  obtain ⟨-, hs, -⟩ := h.2 (i + k) hk
  rw [candScore, candScore, hs]

theorem candUpdate_congr {B : Nat} {st st' : OptState} (h : EqBelow B st st')
    {i k : Nat} (hk : i + k ≤ B) (xms off : Nat) (b : Nat × Nat × Nat × Nat) :
    candUpdate st xms i off b k = candUpdate st' xms i off b k := by
  rw [candUpdate, candUpdate, candCost_congr h hk, candScore_congr h hk]

theorem candFold_congr {B : Nat} {st st' : OptState} (h : EqBelow B st st')
    {i : Nat} (xms off : Nat) :
    ∀ l : List Nat, ∀ b, (∀ k ∈ l, i + k ≤ B) →
      l.foldl (candUpdate st xms i off) b =
      l.foldl (candUpdate st' xms i off) b := by
  intro l
  induction l with
  | nil => intro b hl; rfl
  | cons a l ih =>
    intro b hl
    rw [List.foldl_cons, List.foldl_cons,
      candUpdate_congr h (hl a (List.mem_cons_self a l)) xms off b]
    exact ih _ (fun k hk => hl k (List.mem_cons_of_mem a hk))

theorem litStepCost_congr {B : Nat} {st st' : OptState} (h : EqBelow B st st')
    {i : Nat} (hi : i + 1 ≤ B) : litStepCost st i = litStepCost st' i := by
  obtain ⟨hc, -, hm⟩ := h.2 (i + 1) hi
  rw [litStepCost, litStepCost, hc, hm, h.1]

theorem bestCandidate_congr (F : Bool) (E : Nat) {B : Nat} {st st' : OptState}
    (h : EqBelow B st st') {i : Nat} (hi1 : i + 1 ≤ B)
    (hi2 : MIN_MATCH_SIZE ≤ (st.m i).length →
      i + clampLen E i ((st.m i).length) ≤ B) :
    bestCandidate F E st i = bestCandidate F E st' i := by
  have hmi : st.m i = st'.m i := (h.2 i (by omega)).2.2
  have hsc : st.score (i + 1) = st'.score (i + 1) := (h.2 (i + 1) hi1).2.1
  simp only [bestCandidate]
  rw [← hmi, litStepCost_congr h hi1, hsc]
  by_cases hm4 : (st.m i).length ≥ MIN_MATCH_SIZE
  · rw [if_pos hm4, if_pos hm4]
    have hreach := hi2 hm4
    by_cases hla : (st.m i).length ≥ LEAVE_ALONE_MATCH_SIZE
    · rw [if_pos hla, if_pos hla]
      exact candUpdate_congr h hreach _ _ _
    · rw [if_neg hla, if_neg hla]
      apply candFold_congr h _ _ _ _
      intro k hk
      have hk2 := mem_trimList.mp hk
      have h5 := speed_shorten_le F (clampLen E i ((st.m i).length))
      omega
  · rw [if_neg hm4, if_neg hm4]

theorem optStep_congr (F : Bool) (E : Nat) {B : Nat} {st st' : OptState}
    (h : EqBelow B st st') {i : Nat} (hi1 : i + 1 ≤ B)
    (hi2 : MIN_MATCH_SIZE ≤ (st.m i).length →
      i + clampLen E i ((st.m i).length) ≤ B) :
    EqBelow B (optStep F E st i) (optStep F E st' i) := by
  have hb := bestCandidate_congr F E h hi1 hi2
  constructor
  · show (if (bestCandidate F E st i).2.2.1 ≥ MIN_MATCH_SIZE then i
        else st.lastLit) =
      (if (bestCandidate F E st' i).2.2.1 ≥ MIN_MATCH_SIZE then i
        else st'.lastLit)
    rw [hb, h.1]
  · intro p hp
    obtain ⟨hc, hs, hm⟩ := h.2 p hp
    refine ⟨?_, ?_, ?_⟩
    · show upd st.cost i (bestCandidate F E st i).1 p =
        upd st'.cost i (bestCandidate F E st' i).1 p
      rw [hb]
      simp only [upd]
      rw [hc]
    · show upd st.score i (bestCandidate F E st i).2.1 p =
        upd st'.score i (bestCandidate F E st' i).2.1 p
      rw [hb]
      simp only [upd]
      rw [hs]
    · show upd st.m i ⟨(bestCandidate F E st i).2.2.1,
          (bestCandidate F E st i).2.2.2⟩ p =
        upd st'.m i ⟨(bestCandidate F E st' i).2.2.1,
          (bestCandidate F E st' i).2.2.2⟩ p
      rw [hb]
      simp only [upd]
      rw [hm]

theorem optLoop_congr (F : Bool) (E B : Nat) :
    ∀ c s st st', EqBelow B st st' →
      (∀ j, j < c → s + j + 1 ≤ B ∧ (MIN_MATCH_SIZE ≤ (st.m (s + j)).length →
        s + j + clampLen E (s + j) ((st.m (s + j)).length) ≤ B)) →
      EqBelow B (optLoop F E s c st) (optLoop F E s c st') := by
  intro c
  induction c with
  | zero =>
    intro s st st' h hc
    exact h
  | succ c ih =>
    intro s st st' h hc
    rw [optLoop, optLoop]
    have hstep := optStep_congr F E h (hc c (by omega)).1 (hc c (by omega)).2
    apply ih s _ _ hstep
    intro j hj
    have hu : (optStep F E st (s + c)).m (s + j) = st.m (s + j) :=
      upd_ne _ _ _ (by omega)
    rw [hu]
    exact hc j (by omega)

end LZ4Ultra

namespace LZ4Ultra

/-- C7 window: 1014 identical bytes. -/
def c7W : List Nat := List.replicate 1014 7

/-- C7 finder array: matches of lengths 4, 4 and 1000 at offsets 1, 5, 9,
all with match offset 1. -/
def c7A : Nat → LZMatch :=
  upd (upd (upd (fun _ => ⟨0, 0⟩) 1 ⟨4, 1⟩) 5 ⟨4, 1⟩) 9 ⟨1000, 1⟩

/-- The parser output the C7 run is about. -/
def c7P : Nat → LZMatch := (lz4ultra_optimize_matches_lz4 true 0 1014 c7A).m

/-- The parser's initial state on the C7 input. -/
def c7st0 : OptState :=
  { cost := upd (fun _ => 0) 1013 8
    score := fun _ => 0
    m := c7A
    lastLit := 1014 }

/-- The parser state after the rightmost four positions `1009..1012`. -/
def c7ST1 : OptState := optLoop true 1014 1009 4 c7st0

/-- ... after also the forced-literal stretch `10..1008`. -/
def c7ST2 : OptState := optLoop true 1014 10 999 c7ST1

/-- A shallow state agreeing with the deep one on every slot `≤ 9` after
position `9` is processed. -/
def c7flat : OptState :=
  { cost := upd (fun _ => 0) 9 80
    score := upd (fun _ => 0) 9 5
    m := upd c7A 9 ⟨1000, 1⟩
    lastLit := 9 }

/-- The last nine parser positions, over the shallow state. -/
def c7FLAT : OptState := optLoop true 1014 0 9 c7flat

theorem c7A_other {p : Nat} (h1 : p ≠ 1) (h5 : p ≠ 5) (h9 : p ≠ 9) :
    c7A p = ⟨0, 0⟩ := by
  rw [c7A, upd_ne _ _ _ h9, upd_ne _ _ _ h5, upd_ne _ _ _ h1]

theorem c7parser_eq :
    lz4ultra_optimize_matches_lz4 true 0 1014 c7A =
      optLoop true 1014 0 1013 c7st0 := rfl

set_option maxRecDepth 10000 in
theorem c7ST1_facts : c7ST1.cost 1009 = 40 ∧ c7ST1.score 1009 = 4 ∧
    c7ST1.m 1009 = ⟨0, 0⟩ ∧ c7ST1.m 1010 = ⟨0, 0⟩ ∧
    c7ST1.m 1011 = ⟨0, 0⟩ ∧ c7ST1.m 1012 = ⟨0, 0⟩ := by
  refine ⟨?_, ?_, ?_, ?_, ?_, ?_⟩ <;> decide

set_option maxRecDepth 10000 in
theorem c7FLAT_facts : c7FLAT.m 0 = ⟨0, 0⟩ ∧ c7FLAT.m 1 = ⟨4, 1⟩ ∧
    c7FLAT.m 5 = ⟨4, 1⟩ := by
  refine ⟨?_, ?_, ?_⟩ <;> decide

theorem c7W_getD {i : Nat} (h : i < 1014) : c7W.getD i 0 = 7 := by
  rw [c7W, List.getD_eq_getElem?_getD, List.getElem?_replicate, if_pos h]
  rfl

/-- The C7 finder array satisfies the finder contract. -/
theorem c7A_valid : ValidArr c7W 0 1014 c7A := by
  intro p h0 hp
  by_cases h1 : p = 1
  · subst h1
    rw [show c7A 1 = (⟨4, 1⟩ : LZMatch) from rfl]
    refine Or.inr ⟨by decide, by decide, by decide, by decide, by decide, ?_⟩
    intro j hj
    simp only [length_mk] at hj
    rw [c7W_getD (by omega), c7W_getD (by omega)]
  · by_cases h5 : p = 5
    · subst h5
      rw [show c7A 5 = (⟨4, 1⟩ : LZMatch) from rfl]
      refine Or.inr ⟨by decide, by decide, by decide, by decide, by decide,
        ?_⟩
      intro j hj
      simp only [length_mk] at hj
      rw [c7W_getD (by omega), c7W_getD (by omega)]
    · by_cases h9 : p = 9
      · subst h9
        rw [show c7A 9 = (⟨1000, 1⟩ : LZMatch) from rfl]
        refine Or.inr ⟨by decide, by decide, by decide, by decide, by decide,
          ?_⟩
        intro j hj
        simp only [length_mk] at hj
        rw [c7W_getD (by omega), c7W_getD (by omega)]
      · rw [c7A_other h1 h5 h9]
        exact Or.inl ⟨rfl, rfl⟩

end LZ4Ultra
